import Mathlib

/-!
The fxscript parser, label resolver and virtual machine.

A shallow embedding of `parser.go`, `parser_defines.go`, `runtime.go` and
`runtime_frame.go`.  Go's `int` is modelled by `Int`; where the code does
arithmetic that can leave the 64-bit range the result is wrapped with
`wrapInt`.  A Go value of interface type that may be `nil` is modelled with an
explicit `nil` constructor, a run-time panic with `Except Fault`.
-/

namespace FxScript

/-! ## Handle types (parser_defines.go) -/

abbrev CommandType := Int
abbrev Identifier := Int
abbrev Variable := Int
abbrev Flag := Int

def CmdNone : CommandType := 0
def CmdNop : CommandType := 1
def CmdHostCall : CommandType := 2
def CmdGoto : CommandType := 3
def CmdSet : CommandType := 4
def CmdCopy : CommandType := 5
def CmdSetFlag : CommandType := 6
def CmdClearFlag : CommandType := 7
def CmdAdd : CommandType := 8
def CmdCall : CommandType := 9
def CmdRet : CommandType := 10
def CmdJumpIf : CommandType := 11
def CmdJumpIfFlag : CommandType := 12
def CmdJumpIfNotFlag : CommandType := 13
def UserCommandOffset : CommandType := 14

/-- Two's complement wrap-around of Go's 64-bit `int`. -/
def wrapInt (x : Int) : Int := (x + 2 ^ 63) % 2 ^ 64 - 2 ^ 63

/-- The values a Go `int` can hold. -/
def inIntRange (x : Int) : Prop := -(2 ^ 63) ≤ x ∧ x < 2 ^ 63

instance (x : Int) : Decidable (inIntRange x) := by
  unfold inIntRange; infer_instance

/-! ## Expression and command nodes

The node types are used by `parser.go` and `runtime.go`; `nil` is the nil
interface value, which `parsePrimary` returns for a newline token. -/

inductive ExpressionNode where
  | nil
  | IntegerNode (Value : Int)
  | FloatNode (Value : String)
  | StringNode (Value : String)
  | IdentifierNode (Identifier : Identifier)
  | VariableNode (Variable : Variable)
  | FlagNode (Flag : Flag)
  | LabelNode (Name : String)
  | AddressNode (Address : Int)
  | UnaryOpNode (Operator : Nat) (Operand : ExpressionNode)
  | BinaryOpNode (Left : ExpressionNode) (Operator : Nat) (Right : ExpressionNode)
deriving DecidableEq, Repr

structure CommandNode where
  typ : CommandType
  Args : List ExpressionNode
deriving DecidableEq, Repr

/-- Modelled from the spec: the compiled program (the `Script` type is declared
outside the given sources).  Commands are addressed by position, the three
tables are Go maps, modelled as association lists whose first match wins, so
`m[k] = v` is `(k, v) :: m`.  The `parent` back-reference is never read by the
code and is left out. -/
structure Script where
  commands : List CommandNode
  labels : List (String × Int)
  macros : List (String × Script)
  constants : List (String × ExpressionNode)

/-- Modelled from the spec: `newScript` creates a Script with no commands and
empty tables. -/
def newScript : Script := ⟨[], [], [], []⟩

/-- Modelled from the spec: `Script.PC`, the current command count. -/
def Script.PC (s : Script) : Int := s.commands.length

/-- Modelled from the spec: the end-of-script address equals `len(commands)`. -/
def Script.EndOfScript (s : Script) : Int := s.commands.length

/-- Modelled from the spec: `Script.Commands`. -/
def Script.Commands (s : Script) : List CommandNode := s.commands

/-! ## The virtual machine (runtime_frame.go, runtime.go) -/

/-- A run-time panic of the Go program. -/
inductive Fault where
  | indexOutOfRange
  | badArguments
deriving DecidableEq, Repr

/-- The host's primitive state operations, over a host state `σ`. -/
structure Environment (σ : Type) where
  Get : σ → Variable → Int
  Set : σ → Variable → Int → σ

/-- The execution frame: host state, program counter, stack pointer and the
`[16]int` stack array. -/
structure RuntimeFrame (σ : Type) where
  host : σ
  pc : Int
  sp : Int
  stack : List Int

/-- Writing `a[i] = v` on a Go array: a panic when `i` is out of range. -/
def arraySet (a : List Int) (i : Int) (v : Int) : Except Fault (List Int) :=
  if 0 ≤ i ∧ i < a.length then .ok (a.set i.toNat v) else .error .indexOutOfRange

/-- Reading `a[i]` on a Go array: a panic when `i` is out of range. -/
def arrayGet (a : List Int) (i : Int) : Except Fault Int :=
  if 0 ≤ i ∧ i < a.length then .ok (a.getD i.toNat 0) else .error .indexOutOfRange

variable {σ : Type}

def RuntimeFrame.pushPC (f : RuntimeFrame σ) : Except Fault (RuntimeFrame σ) :=
  match arraySet f.stack f.sp f.pc with
  | .error e => .error e
  | .ok st => .ok { f with stack := st, sp := wrapInt (f.sp + 1) }

def RuntimeFrame.popPC (f : RuntimeFrame σ) : Except Fault (RuntimeFrame σ × Int × Bool) :=
  if f.sp = 0 then .ok (f, 0, false)
  else
    let f1 := { f with sp := wrapInt (f.sp - 1) }
    match arrayGet f1.stack f1.sp with
    | .error e => .error e
    | .ok v => .ok (f1, v, true)

def RuntimeFrame.CmdNop (f : RuntimeFrame σ) : RuntimeFrame σ × Int × Bool :=
  (f, 0, false)

def RuntimeFrame.CmdGoto (f : RuntimeFrame σ) (jumpPc : Int) : RuntimeFrame σ × Int × Bool :=
  (f, jumpPc, true)

def RuntimeFrame.CmdCall (script : Script) (f : RuntimeFrame σ) (addr : Int) :
    Except Fault (RuntimeFrame σ × Int × Bool) :=
  if addr = 0 then .ok (f, script.EndOfScript, true)
  else
    match f.pushPC with
    | .error e => .error e
    | .ok f1 => .ok (f1, addr, true)

def RuntimeFrame.CmdRet (script : Script) (f : RuntimeFrame σ) :
    Except Fault (RuntimeFrame σ × Int × Bool) :=
  match f.popPC with
  | .error e => .error e
  | .ok (f1, pc, ok) => if ok then .ok (f1, pc, true) else .ok (f1, script.EndOfScript, true)

def RuntimeFrame.CmdFlag (E : Environment σ) (f : RuntimeFrame σ) (var : Variable)
    (flag : Flag) : Bool :=
  decide (Int.land (E.Get f.host var) flag ≠ 0)

def RuntimeFrame.CmdSetFlag (E : Environment σ) (f : RuntimeFrame σ) (var : Variable)
    (flag : Flag) : RuntimeFrame σ :=
  { f with host := E.Set f.host var (Int.land var flag) }

def RuntimeFrame.CmdClearFlag (E : Environment σ) (f : RuntimeFrame σ) (var : Variable)
    (flag : Flag) : RuntimeFrame σ :=
  { f with host := E.Set f.host var (Int.ldiff var flag) }

def RuntimeFrame.CmdSet (E : Environment σ) (f : RuntimeFrame σ) (var : Variable)
    (value : Int) : RuntimeFrame σ :=
  { f with host := E.Set f.host var value }

def RuntimeFrame.CmdCopy (E : Environment σ) (f : RuntimeFrame σ) (src dst : Variable) :
    RuntimeFrame σ :=
  { f with host := E.Set f.host dst (E.Get f.host src) }

def RuntimeFrame.CmdAdd (E : Environment σ) (f : RuntimeFrame σ) (var : Variable)
    (value : Int) : RuntimeFrame σ :=
  { f with host := E.Set f.host var (wrapInt (E.Get f.host var + value)) }

def RuntimeFrame.CmdJumpIf (E : Environment σ) (f : RuntimeFrame σ) (var : Variable)
    (value : Int) (jumpPc : Int) : RuntimeFrame σ × Int × Bool :=
  (f, jumpPc, decide (E.Get f.host var = value))

def RuntimeFrame.CmdJumpIfFlag (E : Environment σ) (f : RuntimeFrame σ) (var : Variable)
    (flag : Flag) (jumpPc : Int) : RuntimeFrame σ × Int × Bool :=
  (f, jumpPc, f.CmdFlag E var flag)

def RuntimeFrame.CmdJumpIfNotFlag (E : Environment σ) (f : RuntimeFrame σ) (var : Variable)
    (flag : Flag) (jumpPc : Int) : RuntimeFrame σ × Int × Bool :=
  (f, jumpPc, !f.CmdFlag E var flag)

/-- A command handler: it reads the frame and the argument list and returns the
frame it leaves behind together with `(pc, jump)`, or panics. -/
abbrev CommandHandler (σ : Type) :=
  RuntimeFrame σ → List ExpressionNode → Except Fault (RuntimeFrame σ × Int × Bool)

/-- The runtime: the script and the dispatch table indexed by command type. -/
structure Runtime (σ : Type) where
  script : Script
  handlers : CommandType → CommandHandler σ

def Runtime.newFrame (_r : Runtime σ) (pc : Int) (env : σ) : RuntimeFrame σ :=
  { host := env, pc := pc, sp := 0, stack := List.replicate 16 0 }

def RuntimeFrame.ExecuteCommand (r : Runtime σ) (f : RuntimeFrame σ) (cmd : CommandNode) :
    Except Fault (RuntimeFrame σ × Int × Bool) :=
  r.handlers cmd.typ f cmd.Args

/-- Reading `commands[pc]`: a panic when `pc` is out of range. -/
def fetch (commands : List CommandNode) (pc : Int) : Except Fault CommandNode :=
  if pc < 0 then .error .indexOutOfRange
  else
    match commands.get? pc.toNat with
    | some c => .ok c
    | none => .error .indexOutOfRange

/-- One pass through the body of the `for` loop of `Runtime.Start`, followed by
its post statement `f.pc++`. -/
def Runtime.loopBody (r : Runtime σ) (f : RuntimeFrame σ) : Except Fault (RuntimeFrame σ) :=
  match fetch r.script.Commands f.pc with
  | .error e => .error e
  | .ok cmd =>
    match f.ExecuteCommand r cmd with
    | .error e => .error e
    | .ok (f1, nextPc, jump) =>
      let f2 := if jump then { f1 with pc := wrapInt (nextPc - 1) } else f1
      .ok { f2 with pc := wrapInt (f2.pc + 1) }

/-- The `for` loop of `Runtime.Start`; `none` when the fuel runs out before the
loop condition fails. -/
def Runtime.loop (r : Runtime σ) : Nat → RuntimeFrame σ → Option (Except Fault (RuntimeFrame σ))
  | 0, _ => none
  | n + 1, f =>
    if f.pc < (r.script.Commands.length : Int) then
      match r.loopBody f with
      | .error e => some (.error e)
      | .ok f1 => r.loop n f1
    else some (.ok f)

def Runtime.Start (r : Runtime σ) (fuel : Nat) (pc : Int) (env : σ) :
    Option (Except Fault (RuntimeFrame σ)) :=
  r.loop fuel (r.newFrame pc env)

/-- The payload that `unmarshalArgs` takes out of an argument node for a
parameter of an integer kind (address, identifier, variable, flag, integer). -/
def argInt : ExpressionNode → Option Int
  | .AddressNode a => some a
  | .IdentifierNode i => some i
  | .VariableNode v => some v
  | .FlagNode v => some v
  | .IntegerNode v => some v
  | _ => none

/-- Modelled from the spec: the dispatch table of the built-in commands
(`registerCommands` is not part of the given sources).  Each handler binds the
argument nodes to the parameters of the frame method of the same name and
returns its `(pc, jump)`; a method without results returns `(0, false)`. -/
def baseHandlers (E : Environment σ) (script : Script) (t : CommandType) : CommandHandler σ :=
  fun f args =>
    match args.map argInt with
    | [] =>
      if t = CmdNop then .ok f.CmdNop
      else if t = CmdRet then f.CmdRet script
      else .error .badArguments
    | [some a] =>
      if t = CmdGoto then .ok (f.CmdGoto a)
      else if t = CmdCall then f.CmdCall script a
      else .error .badArguments
    | [some a, some b] =>
      if t = CmdSet then .ok (f.CmdSet E a b, 0, false)
      else if t = CmdCopy then .ok (f.CmdCopy E a b, 0, false)
      else if t = CmdSetFlag then .ok (f.CmdSetFlag E a b, 0, false)
      else if t = CmdClearFlag then .ok (f.CmdClearFlag E a b, 0, false)
      else if t = CmdAdd then .ok (f.CmdAdd E a b, 0, false)
      else .error .badArguments
    | [some a, some b, some c] =>
      if t = CmdJumpIf then .ok (f.CmdJumpIf E a b c)
      else if t = CmdJumpIfFlag then .ok (f.CmdJumpIfFlag E a b c)
      else if t = CmdJumpIfNotFlag then .ok (f.CmdJumpIfNotFlag E a b c)
      else .error .badArguments
    | _ => .error .badArguments

/-- The runtime of a script with the built-in dispatch table. -/
def baseRuntime (E : Environment σ) (script : Script) : Runtime σ :=
  { script := script, handlers := baseHandlers E script }

/-- A host store that keeps one integer per variable handle: `Get` returns the
last value `Set`. -/
def mapEnvironment : Environment (Variable → Int) :=
  { Get := fun s v => s v, Set := fun s v x => fun w => if w = v then x else s w }

/-! ### The execution loop in the words of the specification -/

/-- The step of the specification: fetch `commands[pc]`, run its handler to
get `(target, jump)`, set `pc := target` if `jump`, else `pc := pc + 1`. -/
def specStep (r : Runtime σ) (f : RuntimeFrame σ) : Except Fault (RuntimeFrame σ) :=
  match fetch r.script.Commands f.pc with
  | .error e => .error e
  | .ok cmd =>
    match r.handlers cmd.typ f cmd.Args with
    | .error e => .error e
    | .ok (f1, target, jump) => .ok { f1 with pc := if jump then target else f.pc + 1 }

/-- The iteration of `specStep` that stops exactly when `pc >= len(commands)`;
`none` when the fuel runs out first. -/
def specRun (r : Runtime σ) : Nat → RuntimeFrame σ → Option (Except Fault (RuntimeFrame σ))
  | 0, _ => none
  | n + 1, f =>
    if f.pc ≥ (r.script.Commands.length : Int) then some (.ok f)
    else
      match specStep r f with
      | .error e => some (.error e)
      | .ok f1 => specRun r n f1

/-! ## Tokens and the lookahead buffer (parser.go) -/

/-- Modelled from the spec: the token kinds (the lexer is not part of the given
sources). -/
inductive TokenType where
  | EOF
  | NewlineToken
  | IdentToken
  | NumberToken
  | StringToken
  | OperatorToken
  | LParenToken
  | RParenToken
  | CommaToken
  | ColonToken
  | MacroToken
  | EndMacroToken
  | ConstToken
deriving DecidableEq, Repr

structure Token where
  typ : TokenType
  Value : String
deriving DecidableEq, Repr

/-- Everything `Parse` can return as its `error`. -/
inductive Error where
  | SyntaxError (Message : String)
  | NumError (text : String)
  | BufferError
  | OutOfFuel
deriving DecidableEq, Repr

/-- Modelled from the spec: the token source, a pull-based `NextToken` that
returns the tokens of the text in order and the end marker once they are
exhausted and on every later call. -/
structure Lexer where
  rest : List Token
deriving DecidableEq, Repr

def Lexer.NextToken (l : Lexer) : Token × Lexer :=
  match l.rest with
  | [] => (⟨.EOF, ""⟩, l)
  | t :: r => (t, ⟨r⟩)

def tokenPrefetch : Int := 16

/-- The capacity given to `ring.NewBuffer` in `NewParser`. -/
def bufferCapacity : Nat := 1024

/-- The parser.  `buf` is the content of the ring buffer, oldest token first:
`WriteOne` appends and fails on a full buffer, `Peek n` reads the entry at
offset `n` and fails when there is none, `ReadOne` removes the oldest entry and
fails on an empty buffer.  `vars` is the field `variables`.  `ParseFloat` says for which texts
`strconv.ParseFloat(text, 64)` returns no error. -/
structure Parser where
  l : Lexer
  buf : List Token
  commandTypes : List (String × CommandType)
  identifiers : List (String × Identifier)
  vars : List (String × Variable)
  flags : List (String × Flag)
  done : Bool
  ParseFloat : String → Bool

structure ParserConfig where
  CommandTypes : List (String × CommandType)
  Identifiers : List (String × Identifier)
  Variables : List (String × Variable)
  Flags : List (String × Flag)

def baseCommandTypes : List (String × CommandType) :=
  [("none", CmdNone), ("nop", CmdNop), ("hostCall", CmdHostCall), ("goto", CmdGoto),
   ("set", CmdSet), ("copy", CmdCopy), ("setFlag", CmdSetFlag), ("clearFlag", CmdClearFlag),
   ("add", CmdAdd), ("call", CmdCall), ("ret", CmdRet), ("jumpIf", CmdJumpIf),
   ("jumpIfFlag", CmdJumpIfFlag), ("jumpIfNotFlag", CmdJumpIfNotFlag)]

/-- Copies every table into `dst` in order; a later table replaces the entry of
an earlier one under the same name. -/
def mergeTables {α : Type} (dst : List (String × α)) (tables : List (List (String × α))) :
    List (String × α) :=
  tables.foldl (fun d t => t ++ d) dst

def NewParser (l : Lexer) (c : ParserConfig) (parseFloat : String → Bool) : Parser :=
  { l := l, buf := [],
    commandTypes := mergeTables [] [baseCommandTypes, c.CommandTypes],
    identifiers := mergeTables [] [c.Identifiers],
    vars := mergeTables [] [c.Variables],
    flags := mergeTables [] [c.Flags],
    done := false,
    ParseFloat := parseFloat }

def Parser.getCommandType (p : Parser) (name : String) : Option CommandType :=
  p.commandTypes.lookup name

def Parser.getIdentifier (p : Parser) (name : String) : Option Identifier :=
  p.identifiers.lookup name

def Parser.getVariable (p : Parser) (name : String) : Option Variable :=
  p.vars.lookup name

def Parser.getFlag (p : Parser) (name : String) : Option Flag :=
  p.flags.lookup name

/-- The fields of the parser that parsing never changes. -/
def Parser.tables (p : Parser) :
    List (String × CommandType) × List (String × Identifier) × List (String × Variable)
      × List (String × Flag) × (String → Bool) :=
  (p.commandTypes, p.identifiers, p.vars, p.flags, p.ParseFloat)

/-- The tokens the parser has still to read: the buffered ones and, unless the
end marker is already buffered, those of the lexer up to its first end marker. -/
def upToEOF : List Token → List Token
  | [] => [⟨.EOF, ""⟩]
  | t :: r => if t.typ = .EOF then [t] else t :: upToEOF r

def Parser.pending (p : Parser) : List Token :=
  p.buf ++ (if p.done then [] else upToEOF p.l.rest)

/-- The `for range prefetch` loop of `fillBuffer`. -/
def Parser.fillLoop : Nat → Parser → Except Error Parser
  | 0, p => .ok p
  | n + 1, p =>
    let tl := p.l.NextToken
    if p.buf.length ≥ bufferCapacity then .error .BufferError
    else
      let p1 := { p with l := tl.2, buf := p.buf ++ [tl.1] }
      if tl.1.typ = .EOF then .ok { p1 with done := true }
      else Parser.fillLoop n p1

def Parser.fillBuffer (p : Parser) : Except Error Parser :=
  if p.done then .ok p
  else
    let prefetch : Int := tokenPrefetch - p.buf.length
    if prefetch ≤ 0 then .ok p
    else Parser.fillLoop prefetch.toNat p

def Parser.peekAhead (p : Parser) (n : Nat) : Except Error (Token × Parser) :=
  match p.fillBuffer with
  | .error e => .error e
  | .ok p1 =>
    match p1.buf.get? n with
    | none => .error .BufferError
    | some tok => .ok (tok, p1)

def Parser.peek (p : Parser) : Except Error (Token × Parser) :=
  p.peekAhead 0

def Parser.advance (p : Parser) : Except Error (Token × Parser) :=
  match p.fillBuffer with
  | .error e => .error e
  | .ok p1 =>
    match p1.buf with
    | [] => .error .BufferError
    | tok :: rest => .ok (tok, { p1 with buf := rest })

/-! ## Expressions (parser.go) -/

/-- Modelled from the spec: the operator runes (declared outside the given
sources): additive `+`, `-`, multiplicative `*`, `/`, `%`. -/
def OpAdd : Nat := 43

/-- Modelled from the spec: the rune of binary and unary `-`. -/
def OpSub : Nat := 45

/-- Modelled from the spec: the rune of `*`. -/
def OpMul : Nat := 42

/-- Modelled from the spec: the rune of `/`. -/
def OpDiv : Nat := 47

/-- Modelled from the spec: the rune of `%`. -/
def OpMod : Nat := 37

/-- The first byte of the UTF-8 encoding of a character. -/
def firstByte (c : Char) : Nat :=
  if c.toNat < 128 then c.toNat
  else if c.toNat < 2048 then 192 + c.toNat / 64
  else if c.toNat < 65536 then 224 + c.toNat / 4096
  else 240 + c.toNat / 262144

def opRuneFromToken (tok : Token) : Nat :=
  match tok.Value.data with
  | [] => 0
  | c :: _ => firstByte c

/-- The call `strconv.ParseInt(text, 10, 32)`: an optional sign, then one or
more decimal digits, and a value in the signed 32-bit range; `none` stands for
the error it returns otherwise. -/
def ParseInt32 (text : String) : Option Int :=
  let cs := text.data
  let neg := decide (cs.head? = some '-')
  let ds := if cs.head? = some '+' ∨ cs.head? = some '-' then cs.tail else cs
  if ds = [] then none
  else if ds.all Char.isDigit then
    let un : Nat := ds.foldl (fun a c => 10 * a + (c.toNat - 48)) 0
    if neg then (if un > 2 ^ 31 then none else some (-(un : Int)))
    else (if un ≥ 2 ^ 31 then none else some (un : Int))
  else none

def Parser.getDefinedIdent (p : Parser) (script : Script) (tok : Token) : ExpressionNode :=
  match script.constants.lookup tok.Value with
  | some expr => expr
  | none =>
    match p.getIdentifier tok.Value with
    | some identifier => .IdentifierNode identifier
    | none =>
      match p.getVariable tok.Value with
      | some v => .VariableNode v
      | none =>
        match p.getFlag tok.Value with
        | some flag => .FlagNode flag
        | none => .LabelNode tok.Value

/-- The result of an expression parser: the node and the parser it leaves. -/
abbrev ExprResult := Except Error (ExpressionNode × Parser)

/-- Whether the loop of `parseMultiplicative` stops at this token. -/
def notMultiplicative (tok : Token) : Bool :=
  decide (tok.typ ≠ .OperatorToken) ||
    (decide (opRuneFromToken tok ≠ OpMul) && decide (opRuneFromToken tok ≠ OpDiv)
      && decide (opRuneFromToken tok ≠ OpMod))

/-- Whether the loop of `parseAdditive` stops at this token. -/
def notAdditive (tok : Token) : Bool :=
  decide (tok.typ ≠ .OperatorToken) ||
    (decide (opRuneFromToken tok ≠ OpAdd) && decide (opRuneFromToken tok ≠ OpSub))

mutual

def parsePrimary : Nat → Parser → Script → ExprResult
  | 0, _, _ => .error .OutOfFuel
  | n + 1, p, script =>
    match p.advance with
    | .error e => .error e
    | .ok (tok, p) =>
      match tok.typ with
      | .NewlineToken => .ok (.nil, p)
      | .OperatorToken =>
        let op := opRuneFromToken tok
        if op = OpAdd ∨ op = OpSub then
          match parsePrimary n p script with
          | .error e => .error e
          | .ok (operand, p) => .ok (.UnaryOpNode op operand, p)
        else .error (.SyntaxError ("unexpected operator '" ++ tok.Value ++ "'"))
      | .LParenToken =>
        match parseExpression n p script with
        | .error e => .error e
        | .ok (expr, p) =>
          match p.advance with
          | .error e => .error e
          | .ok (tok, p) =>
            if tok.typ ≠ .RParenToken then .error (.SyntaxError "expected ')'")
            else .ok (expr, p)
      | .NumberToken =>
        if tok.Value.data.contains '.' then
          if p.ParseFloat tok.Value then .ok (.FloatNode tok.Value, p)
          else .error (.NumError tok.Value)
        else
          match ParseInt32 tok.Value with
          | none => .error (.NumError tok.Value)
          | some val => .ok (.IntegerNode val, p)
      | .StringToken => .ok (.StringNode tok.Value, p)
      | .IdentToken => .ok (p.getDefinedIdent script tok, p)
      | _ => .error (.SyntaxError ("unexpected token '" ++ tok.Value ++ "'"))

/-- The `for` loop of `parseMultiplicative`, entered with the node built so far
and the token last peeked. -/
def parseMultiplicativeLoop : Nat → Parser → Script → ExpressionNode → Token → ExprResult
  | 0, _, _, _, _ => .error .OutOfFuel
  | n + 1, p, script, expr, tok =>
    if notMultiplicative tok then .ok (expr, p)
    else
      match p.advance with
      | .error e => .error e
      | .ok (_, p) =>
        match parsePrimary n p script with
        | .error e => .error e
        | .ok (right, p) =>
          match p.peek with
          | .error e => .error e
          | .ok (tok1, p) =>
            parseMultiplicativeLoop n p script (.BinaryOpNode expr (opRuneFromToken tok) right) tok1

def parseMultiplicative : Nat → Parser → Script → ExprResult
  | 0, _, _ => .error .OutOfFuel
  | n + 1, p, script =>
    match parsePrimary n p script with
    | .error e => .error e
    | .ok (expr, p) =>
      match p.peek with
      | .error e => .error e
      | .ok (tok, p) => parseMultiplicativeLoop n p script expr tok

/-- The `for` loop of `parseAdditive`. -/
def parseAdditiveLoop : Nat → Parser → Script → ExpressionNode → Token → ExprResult
  | 0, _, _, _, _ => .error .OutOfFuel
  | n + 1, p, script, expr, tok =>
    if notAdditive tok then .ok (expr, p)
    else
      match p.advance with
      | .error e => .error e
      | .ok (_, p) =>
        match parseMultiplicative n p script with
        | .error e => .error e
        | .ok (right, p) =>
          match p.peek with
          | .error e => .error e
          | .ok (tok1, p) =>
            parseAdditiveLoop n p script (.BinaryOpNode expr (opRuneFromToken tok) right) tok1

def parseAdditive : Nat → Parser → Script → ExprResult
  | 0, _, _ => .error .OutOfFuel
  | n + 1, p, script =>
    match parseMultiplicative n p script with
    | .error e => .error e
    | .ok (expr, p) =>
      match p.peek with
      | .error e => .error e
      | .ok (tok, p) => parseAdditiveLoop n p script expr tok

def parseExpression : Nat → Parser → Script → ExprResult
  | 0, _, _ => .error .OutOfFuel
  | n + 1, p, script => parseAdditive n p script

end

/-! ## Nodes, commands and macros (parser.go) -/

/-- The result of a node parser: the parser and the script it leaves. -/
abbrev NodeResult := Except Error (Parser × Script)

def parseConst (fuel : Nat) (p : Parser) (script : Script) : NodeResult :=
  match p.advance with
  | .error e => .error e
  | .ok (_, p) =>
    match p.advance with
    | .error e => .error e
    | .ok (nameIdent, p) =>
      match parseExpression fuel p script with
      | .error e => .error e
      | .ok (expr, p) =>
        .ok (p, { script with constants := (nameIdent.Value, expr) :: script.constants })

/-- The `for` loop of `parseCommand`, entered with the command built so far. -/
def parseCommandLoop : Nat → Parser → Script → CommandNode → NodeResult
  | 0, _, _, _ => .error .OutOfFuel
  | n + 1, p, script, cmd =>
    match p.peek with
    | .error e => .error e
    | .ok (tok, p) =>
      if tok.typ = .NewlineToken ∨ tok.typ = .EOF then
        let script1 :=
          if cmd.typ ≠ CmdNone then { script with commands := script.commands ++ [cmd] }
          else script
        match p.advance with
        | .error e => .error e
        | .ok (_, p) => .ok (p, script1)
      else if cmd.typ = CmdNone then
        match p.advance with
        | .error e => .error e
        | .ok (_, p) =>
          match p.getCommandType tok.Value with
          | none =>
            match script.macros.lookup tok.Value with
            | some m =>
              parseCommandLoop n p { script with commands := script.commands ++ m.commands } cmd
            | none => .error (.SyntaxError ("unknown command: '" ++ tok.Value ++ "'"))
          | some cmdType => parseCommandLoop n p script { cmd with typ := cmdType }
      else
        match parseExpression n p script with
        | .error e => .error e
        | .ok (argNode, p) =>
          match p.peek with
          | .error e => .error e
          | .ok (tok1, p) =>
            let afterComma : Except Error Parser :=
              if tok1.typ = .CommaToken then
                match p.advance with
                | .error e => .error e
                | .ok (_, p) => .ok p
              else .ok p
            match afterComma with
            | .error e => .error e
            | .ok p =>
              if argNode = .nil then .ok (p, script)
              else parseCommandLoop n p script { cmd with Args := cmd.Args ++ [argNode] }

def parseCommand (fuel : Nat) (p : Parser) (script : Script) : NodeResult :=
  parseCommandLoop fuel p script { typ := CmdNone, Args := [] }

def parseLabelDeclaration (p : Parser) (script : Script) : NodeResult :=
  match p.advance with
  | .error e => .error e
  | .ok (nameIdent, p) =>
    match p.advance with
    | .error e => .error e
    | .ok (_, p) => .ok (p, { script with labels := (nameIdent.Value, script.PC) :: script.labels })

def parseIdent (fuel : Nat) (p : Parser) (script : Script) : NodeResult :=
  match p.peekAhead 1 with
  | .error e => .error e
  | .ok (tok, p) =>
    if tok.typ = .ColonToken then parseLabelDeclaration p script
    else parseCommand fuel p script

mutual

/-- The `for ok` loop of `parseMacro`, over the sub-Script. -/
def parseMacroLoop : Nat → Parser → Script → NodeResult
  | 0, _, _ => .error .OutOfFuel
  | n + 1, p, subscript =>
    match parseNextNode n p subscript .EndMacroToken with
    | .error e => .error e
    | .ok (ok, p, subscript) => if ok then parseMacroLoop n p subscript else .ok (p, subscript)

def parseMacro : Nat → Parser → Script → NodeResult
  | 0, _, _ => .error .OutOfFuel
  | n + 1, p, script =>
    match p.advance with
    | .error e => .error e
    | .ok (_, p) =>
      match p.advance with
      | .error e => .error e
      | .ok (ident, p) =>
        match parseMacroLoop n p newScript with
        | .error e => .error e
        | .ok (p, subscript) =>
          .ok (p, { script with macros := (ident.Value, subscript) :: script.macros })

def parseNextNode : Nat → Parser → Script → TokenType → Except Error (Bool × Parser × Script)
  | 0, _, _, _ => .error .OutOfFuel
  | n + 1, p, script, endTok =>
    match p.peek with
    | .error e => .error e
    | .ok (tok, p) =>
      if tok.typ = endTok then
        match p.advance with
        | .error e => .error e
        | .ok (_, p) => .ok (false, p, script)
      else
        match tok.typ with
        | .MacroToken =>
          match parseMacro n p script with
          | .error e => .error e
          | .ok (p, script) => .ok (true, p, script)
        | .ConstToken =>
          match parseConst n p script with
          | .error e => .error e
          | .ok (p, script) => .ok (true, p, script)
        | .IdentToken =>
          match parseIdent n p script with
          | .error e => .error e
          | .ok (p, script) => .ok (true, p, script)
        | .NewlineToken =>
          match p.advance with
          | .error e => .error e
          | .ok (_, p) => .ok (true, p, script)
        | _ => .error (.SyntaxError "unexpected token")

end

/-! ## The label resolver (parser.go) -/

/-- Returns the node the caller stores back and the error, as the Go function
does: on an error the node is the original one with the replacements made so
far. -/
def replaceLabelNodesInExpression (script : Script) :
    ExpressionNode → ExpressionNode × Option Error
  | .BinaryOpNode left op right =>
    match replaceLabelNodesInExpression script left with
    | (left1, some e) => (.BinaryOpNode left1 op right, some e)
    | (left1, none) =>
      match replaceLabelNodesInExpression script right with
      | (right1, err) => (.BinaryOpNode left1 op right1, err)
  | .LabelNode name =>
    match script.labels.lookup name with
    | none => (.LabelNode name, some (.SyntaxError ("unknown label: '" ++ name ++ "'")))
    | some pc => (.AddressNode pc, none)
  | expr => (expr, none)

/-- The inner loop of `replaceLabelNodes`, over the arguments of one command. -/
def replaceLabelNodesInArgs (script : Script) :
    List ExpressionNode → List ExpressionNode × Option Error
  | [] => ([], none)
  | a :: rest =>
    match replaceLabelNodesInExpression script a with
    | (a1, some e) => (a1 :: rest, some e)
    | (a1, none) =>
      match replaceLabelNodesInArgs script rest with
      | (rest1, err) => (a1 :: rest1, err)

/-- The outer loop of `replaceLabelNodes`, over the commands. -/
def replaceLabelNodesInCommands (script : Script) :
    List CommandNode → List CommandNode × Option Error
  | [] => ([], none)
  | c :: rest =>
    match replaceLabelNodesInArgs script c.Args with
    | (args1, some e) => ({ c with Args := args1 } :: rest, some e)
    | (args1, none) =>
      match replaceLabelNodesInCommands script rest with
      | (rest1, err) => ({ c with Args := args1 } :: rest1, err)

/-- The script after the pass and the error of the pass. -/
def replaceLabelNodes (script : Script) : Script × Option Error :=
  match replaceLabelNodesInCommands script script.commands with
  | (cs, err) => ({ script with commands := cs }, err)

/-! ## Parse (parser.go) -/

/-- The `for ok` loop of `Parse`. -/
def parseLoop : Nat → Parser → Script → NodeResult
  | 0, _, _ => .error .OutOfFuel
  | n + 1, p, script =>
    match parseNextNode n p script .EOF with
    | .error e => .error e
    | .ok (ok, p, script) => if ok then parseLoop n p script else .ok (p, script)

/-- The two results `(script, err)` of `Parse`, with the given recursion
budget; `none` is Go's `nil`. -/
def Parser.ParseWith (p : Parser) (fuel : Nat) : Option Script × Option Error :=
  match parseLoop fuel p newScript with
  | .error e => (none, some e)
  | .ok (_, script) =>
    match replaceLabelNodes script with
    | (script1, err) => (some script1, err)

/-- A recursion budget that is enough for every input (theorem
`Parse_never_out_of_fuel`). -/
def Parser.fuel (p : Parser) : Nat := 4 * p.pending.length + 8

/-- The two results `(script, err)` of `Parse`. -/
def Parser.Parse (p : Parser) : Option Script × Option Error :=
  p.ParseWith p.fuel

/-- The parser over the token list of a text, with the host's tables. -/
def parserOf (c : ParserConfig) (toks : List Token) : Parser :=
  NewParser ⟨toks⟩ c (fun _ => true)

/-- The host tables of the examples: variable `v`, flag `F`. -/
def exampleConfig : ParserConfig :=
  { CommandTypes := [], Identifiers := [], Variables := [("v", 1)], Flags := [("F", 2)] }

/-! ## Predicates and examples used in the statements -/

/-- A property of nodes that every leaf built by the parser has and that the
operator nodes preserve. -/
structure NodeClosed (Q : ExpressionNode → Prop) : Prop where
  nil : Q .nil
  integer : ∀ v, Q (.IntegerNode v)
  float : ∀ v, Q (.FloatNode v)
  string : ∀ v, Q (.StringNode v)
  identifier : ∀ v, Q (.IdentifierNode v)
  var : ∀ v, Q (.VariableNode v)
  flag : ∀ v, Q (.FlagNode v)
  label : ∀ v, Q (.LabelNode v)
  unary : ∀ op e, Q e → Q (.UnaryOpNode op e)
  binary : ∀ l op r, Q l → Q r → Q (.BinaryOpNode l op r)

def ConstantsSat (Q : ExpressionNode → Prop) (s : Script) : Prop :=
  ∀ name e, (name, e) ∈ s.constants → Q e

/-- What a successful expression parser guarantees. -/
def ExprPost (Q : ExpressionNode → Prop) (strict : Bool) (p : Parser) (r : ExprResult) : Prop :=
  ∀ e p1, r = .ok (e, p1) →
    p1.tables = p.tables ∧ (∃ c, (strict = true → c ≠ []) ∧ p.pending = c ++ p1.pending) ∧ Q e

/-- A command the parser may append: its type is not `CmdNone` and every
argument is a node other than nil with the property `Q`. -/
def CommandSat (Q : ExpressionNode → Prop) (c : CommandNode) : Prop :=
  c.typ ≠ CmdNone ∧ ∀ a ∈ c.Args, Q a ∧ a ≠ .nil

/-- The property holds throughout a script: for its commands, its constants
and, recursively, its macros. -/
inductive ScriptSat (Q : ExpressionNode → Prop) : Script → Prop where
  | mk (s : Script) (hc : ∀ c ∈ s.commands, CommandSat Q c) (hk : ConstantsSat Q s)
      (hm : ∀ name m, (name, m) ∈ s.macros → ScriptSat Q m) : ScriptSat Q s

/-- Whether the tokens start with a label declaration: an identifier followed
by a colon. -/
def isLabelDeclaration : List Token → Bool
  | t1 :: t2 :: _ => decide (t1.typ = .IdentToken) && decide (t2.typ = .ColonToken)
  | _ => false

/-- What a successful node parser guarantees about the parser and the command
list: the tables are left alone, a non-empty prefix of the tokens has been
consumed, and commands have only been appended. -/
def NodeFrame (p : Parser) (s : Script) (p1 : Parser) (s1 : Script) : Prop :=
  p1.tables = p.tables ∧ (∃ c, c ≠ [] ∧ p.pending = c ++ p1.pending)
    ∧ (∃ cs, s1.commands = s.commands ++ cs)

/-- What a successful `parseNextNode` guarantees about the label table: a
label declaration at the head of the tokens is recorded at the current command
count and changes nothing else; every other node leaves the table alone. -/
def LabelEffect (p : Parser) (s : Script) (p1 : Parser) (s1 : Script) : Prop :=
  (isLabelDeclaration p.pending = true →
      ∃ t1 t2, p.pending = t1 :: t2 :: p1.pending
        ∧ s1.labels = (t1.Value, s.PC) :: s.labels ∧ s1.commands = s.commands)
    ∧ (isLabelDeclaration p.pending = false → s1.labels = s.labels)

/-- The addresses of the AddressNodes of a tree, at any depth. -/
def addresses : ExpressionNode → List Int
  | .AddressNode a => [a]
  | .UnaryOpNode _ operand => addresses operand
  | .BinaryOpNode left _ right => addresses left ++ addresses right
  | _ => []

/-- No AddressNode occurs in the tree. -/
def noAddress (e : ExpressionNode) : Prop := addresses e = []

/-- Every recorded label lies between 0 and the command count. -/
def LabelsInRange (s : Script) : Prop :=
  ∀ name v, (name, v) ∈ s.labels → 0 ≤ v ∧ v ≤ (s.commands.length : Int)

/-- The states at the head of the `for ok` loop of `Parse`, in order: the
tokens still to read and the command list built so far. -/
def parseLoopTrace : Nat → Parser → Script → List (List Token × List CommandNode)
  | 0, _, _ => []
  | n + 1, p, script =>
    (p.pending, script.commands) ::
      (match parseNextNode n p script .EOF with
       | .ok (true, p1, script1) => parseLoopTrace n p1 script1
       | _ => [])

/-- Whether the tokens start with the declaration of the label `name`. -/
def declaresLabel (name : String) : List Token → Bool
  | t1 :: t2 :: _ =>
    decide (t1.typ = .IdentToken) && decide (t1.Value = name) && decide (t2.typ = .ColonToken)
  | _ => false

/-- The program `goto L`, `L:`, `set v, 1`, `goto L`, one to a line. -/
def labelProgram : List Token :=
  [⟨.IdentToken, "goto"⟩, ⟨.IdentToken, "L"⟩, ⟨.NewlineToken, "\n"⟩,
   ⟨.IdentToken, "L"⟩, ⟨.ColonToken, ":"⟩, ⟨.NewlineToken, "\n"⟩,
   ⟨.IdentToken, "set"⟩, ⟨.IdentToken, "v"⟩, ⟨.CommaToken, ","⟩, ⟨.NumberToken, "1"⟩,
   ⟨.NewlineToken, "\n"⟩,
   ⟨.IdentToken, "goto"⟩, ⟨.IdentToken, "L"⟩, ⟨.NewlineToken, "\n"⟩]

/-- The declaration `macro m`, `nop`, `nop`, `endmacro`, one to a line. -/
def macroDeclaration : List Token :=
  [⟨.MacroToken, "macro"⟩, ⟨.IdentToken, "m"⟩, ⟨.NewlineToken, "\n"⟩,
   ⟨.IdentToken, "nop"⟩, ⟨.NewlineToken, "\n"⟩, ⟨.IdentToken, "nop"⟩, ⟨.NewlineToken, "\n"⟩,
   ⟨.EndMacroToken, "endmacro"⟩, ⟨.NewlineToken, "\n"⟩]

/-- The sub-Script of the macro `m`: two `nop` commands. -/
def macroBody : Script :=
  { commands := [⟨CmdNop, []⟩, ⟨CmdNop, []⟩], labels := [], macros := [], constants := [] }

/-- A Script with one command, in which the macro `m` is declared. -/
def macroScript : Script :=
  { commands := [⟨CmdRet, []⟩], labels := [], macros := [("m", macroBody)], constants := [] }

/-- The command line `m`. -/
def macroLine : List Token := [⟨.IdentToken, "m"⟩, ⟨.NewlineToken, "\n"⟩]

/-- The tokens `ts` are a primary expression: with the tables of `p0`, in the
scope `script` and with a budget of at least `k`, `parsePrimary` reads exactly
`ts`, whatever follows, and returns the node `a`. -/
def ParsesPrimary (p0 : Parser) (script : Script) (k : Nat) (ts : List Token)
    (a : ExpressionNode) : Prop :=
  ∀ (fuel : Nat) (p : Parser) (rest : List Token), k ≤ fuel → p.tables = p0.tables →
    p.pending = ts ++ rest →
    ∃ p1, parsePrimary fuel p script = .ok (a, p1) ∧ p1.pending = rest ∧ p1.tables = p0.tables

/-- The tokens `ts`, followed by a token that is no multiplicative operator, are
read by `parseMultiplicative` as the node `e`. -/
def ParsesMultiplicative (p0 : Parser) (script : Script) (k : Nat) (ts : List Token)
    (e : ExpressionNode) : Prop :=
  ∀ (fuel : Nat) (p : Parser) (t : Token) (rest : List Token), k ≤ fuel →
    p.tables = p0.tables → notMultiplicative t = true → p.pending = ts ++ t :: rest →
    ∃ p1, parseMultiplicative fuel p script = .ok (e, p1) ∧ p1.pending = t :: rest
      ∧ p1.tables = p0.tables

/-- The tokens `ts`, followed by a token that is no binary operator, are read by
`parseExpression` as the node `e`. -/
def ParsesExpression (p0 : Parser) (script : Script) (k : Nat) (ts : List Token)
    (e : ExpressionNode) : Prop :=
  ∀ (fuel : Nat) (p : Parser) (t : Token) (rest : List Token), k ≤ fuel →
    p.tables = p0.tables → notMultiplicative t = true → notAdditive t = true →
    p.pending = ts ++ t :: rest →
    ∃ p1, parseExpression fuel p script = .ok (e, p1) ∧ p1.pending = t :: rest
      ∧ p1.tables = p0.tables

/-- The integer an expression tree denotes under ordinary integer arithmetic,
the reading the specification gives of a parsed expression (the sources have
no evaluator).  Division and remainder truncate, as Go's do. -/
def evalInt : ExpressionNode → Option Int
  | .IntegerNode v => some v
  | .UnaryOpNode op e =>
    match evalInt e with
    | some x => if op = OpSub then some (-x) else if op = OpAdd then some x else none
    | none => none
  | .BinaryOpNode l op r =>
    match evalInt l, evalInt r with
    | some x, some y =>
      if op = OpAdd then some (x + y)
      else if op = OpSub then some (x - y)
      else if op = OpMul then some (x * y)
      else if op = OpDiv then (if y = 0 then none else some (Int.tdiv x y))
      else if op = OpMod then (if y = 0 then none else some (Int.tmod x y))
      else none
    | _, _ => none
  | _ => none

/-- The tokens of `1 + 2 * 3`, followed by a newline. -/
def onePlusTwoTimesThree : List Token :=
  [⟨.NumberToken, "1"⟩, ⟨.OperatorToken, "+"⟩, ⟨.NumberToken, "2"⟩, ⟨.OperatorToken, "*"⟩,
   ⟨.NumberToken, "3"⟩, ⟨.NewlineToken, "\n"⟩]

/-- The tokens of `(1 + 2) * 3`, followed by a newline. -/
def parenOnePlusTwoTimesThree : List Token :=
  [⟨.LParenToken, "("⟩, ⟨.NumberToken, "1"⟩, ⟨.OperatorToken, "+"⟩, ⟨.NumberToken, "2"⟩,
   ⟨.RParenToken, ")"⟩, ⟨.OperatorToken, "*"⟩, ⟨.NumberToken, "3"⟩, ⟨.NewlineToken, "\n"⟩]

/-- One step on a frame: a `CmdCall` or a `CmdRet` that returns, or the loop of
`Start` moving the program counter between two commands. -/
inductive FrameStep {σ : Type} (script : Script) : RuntimeFrame σ → RuntimeFrame σ → Prop where
  | call (f f1 : RuntimeFrame σ) (addr t : Int) (j : Bool)
      (h : RuntimeFrame.CmdCall script f addr = .ok (f1, t, j)) : FrameStep script f f1
  | ret (f f1 : RuntimeFrame σ) (t : Int) (j : Bool)
      (h : RuntimeFrame.CmdRet script f = .ok (f1, t, j)) : FrameStep script f f1
  | move (f : RuntimeFrame σ) (pc : Int) : FrameStep script f { f with pc := pc }

/-- The frames reachable from a fresh frame by a sequence of such steps. -/
inductive FrameReachable {σ : Type} (script : Script) : RuntimeFrame σ → Prop where
  | fresh (r : Runtime σ) (pc : Int) (env : σ) : FrameReachable script (r.newFrame pc env)
  | step (f f1 : RuntimeFrame σ) (hf : FrameReachable script f) (hs : FrameStep script f f1) :
      FrameReachable script f1

/-- The script `nop; call 0`: the label at address 0 is the target of the call. -/
def callZeroScript : Script :=
  { commands := [⟨CmdNop, []⟩, ⟨CmdCall, [.AddressNode 0]⟩],
    labels := [("L", 0)], macros := [], constants := [] }

/-- Issuing `CmdCall` with the address `addr` `n` times in a row. -/
def callTimes {σ : Type} (script : Script) (addr : Int) :
    Nat → RuntimeFrame σ → Except Fault (RuntimeFrame σ)
  | 0, f => .ok f
  | n + 1, f =>
    match f.CmdCall script addr with
    | .error e => .error e
    | .ok (f1, _, _) => callTimes script addr n f1

/-- A host without state. -/
def unitEnvironment : Environment Unit :=
  { Get := fun _ _ => 0, Set := fun _ _ _ => () }

/-- The frame left by 16 calls in a row from the command at address 1. -/
def fullFrame : RuntimeFrame Unit :=
  { host := (), pc := 1, sp := 16, stack := List.replicate 16 1 }

/-! ## The argument binder (runtime.go, `unmarshalArgs`) -/

/-- The value of a struct field of the schema `v`, tagged with its Go type.
The kinds are the types of the node payloads; `other` is a field of any other
(non-interface) type, which no payload can be assigned to. -/
inductive FieldValue where
  | int (v : Int)
  | Identifier (v : Identifier)
  | Variable (v : Variable)
  | Flag (v : Flag)
  | string (v : String)
  | float64 (v : String)
  | other
deriving DecidableEq, Repr

/-- One exported field of the struct behind `v`: its name, the value of the
`arg` key of its tag (the empty string when the key is absent) and its value. -/
structure StructField where
  Name : String
  Tag : String
  Value : FieldValue
deriving DecidableEq, Repr

/-- The errors `unmarshalArgs` returns. -/
inductive BindError where
  | atoi (text : List Char)
  | indexOutOfBounds (argIdx : Int)
  | unknownArgType
deriving DecidableEq, Repr

/-- The call `strings.Split(s, ",")` on the characters of `s`. -/
def splitComma : List Char → List (List Char)
  | [] => [[]]
  | c :: cs =>
    match splitComma cs with
    | [] => [[c]]
    | seg :: rest => if c = ',' then [] :: seg :: rest else (c :: seg) :: rest

/-- The call `strconv.Atoi`: an optional sign, then one or more decimal digits,
and a value in the range of `int`; `none` stands for the error it returns
otherwise. -/
def Atoi (cs : List Char) : Option Int :=
  let neg := decide (cs.head? = some '-')
  let ds := if cs.head? = some '+' ∨ cs.head? = some '-' then cs.tail else cs
  if ds = [] then none
  else if ds.all Char.isDigit then
    let un : Nat := ds.foldl (fun a c => 10 * a + (c.toNat - 48)) 0
    if neg then (if un > 2 ^ 63 then none else some (-(un : Int)))
    else (if un ≥ 2 ^ 63 then none else some (un : Int))
  else none

/-- The segments of the tag of a field. -/
def StructField.segments (fld : StructField) : List (List Char) :=
  splitComma fld.Tag.data

/-- The positional index `argIdx` of field number `i`: the field number when the
first segment of the tag is empty, else the first segment read by `Atoi`. -/
def StructField.argIdx (fld : StructField) (i : Nat) : Option Int :=
  if fld.segments.headD [] = [] then some (i : Int) else Atoi (fld.segments.headD [])

/-- The test `len(segments) == 2 && segments[1] == "optional"`. -/
def StructField.optional (fld : StructField) : Bool :=
  decide (fld.segments.length = 2) && decide (fld.segments.get? 1 = some "optional".data)

/-- The payload that the type switch on `argv[argIdx]` takes out of a node;
`none` is its `default` case. -/
def payload : ExpressionNode → Option FieldValue
  | .AddressNode a => some (.int a)
  | .IdentifierNode i => some (.Identifier i)
  | .VariableNode v => some (.Variable v)
  | .FlagNode f => some (.Flag f)
  | .StringNode s => some (.string s)
  | .IntegerNode v => some (.int v)
  | .FloatNode v => some (.float64 v)
  | _ => none

/-- Two field values of the same Go type: `reflect.Value.Set` panics unless the
value has the type of the field. -/
def FieldValue.sameType : FieldValue → FieldValue → Bool
  | .int _, .int _ => true
  | .Identifier _, .Identifier _ => true
  | .Variable _, .Variable _ => true
  | .Flag _, .Flag _ => true
  | .string _, .string _ => true
  | .float64 _, .float64 _ => true
  | _, _ => false

/-- What one pass of the loop of `unmarshalArgs` does with a field: it goes on
to the next field, leaving a value in the field and possibly a line in the log
of `slog.Error`, or it returns an error, or it panics. -/
inductive FieldStep where
  | next (value : FieldValue) (logged : Option String)
  | fail (e : BindError)
  | panic
deriving DecidableEq, Repr

/-- The body of the loop of `unmarshalArgs` for field number `i`. -/
def bindField (MissingIdentifier : Identifier) (MissingVariable : Variable)
    (argv : List ExpressionNode) (i : Nat) (fld : StructField) : FieldStep :=
  if fld.Tag = "-" then .next fld.Value none
  else
    match fld.argIdx i with
    | none => .fail (.atoi (fld.segments.headD []))
    | some argIdx =>
      if (argv.length : Int) ≤ argIdx then
        if fld.optional then
          match fld.Value with
          | .Identifier _ => .next (.Identifier MissingIdentifier) none
          | .Variable _ => .next (.Variable MissingVariable) none
          | .Flag _ => .next fld.Value (some fld.Name)
          | _ => .next fld.Value none
        else .fail (.indexOutOfBounds argIdx)
      else if argIdx < 0 then .panic
      else
        match argv.get? argIdx.toNat with
        | none => .panic
        | some node =>
          match payload node with
          | none => .fail .unknownArgType
          | some value => if value.sameType fld.Value then .next value none else .panic

/-- What a call of `unmarshalArgs` leaves behind: the `error` it returns
(`none` is `nil`), the fields of the struct and the lines logged; or a panic. -/
inductive Unmarshal where
  | returned (err : Option BindError) (fields : List StructField) (log : List String)
  | panicked
deriving DecidableEq, Repr

/-- The loop of `unmarshalArgs` from field number `i` on. -/
def bindLoop (MissingIdentifier : Identifier) (MissingVariable : Variable)
    (argv : List ExpressionNode) : Nat → List StructField → Unmarshal
  | _, [] => .returned none [] []
  | i, fld :: rest =>
    match bindField MissingIdentifier MissingVariable argv i fld with
    | .panic => .panicked
    | .fail e => .returned (some e) (fld :: rest) []
    | .next value logged =>
      match bindLoop MissingIdentifier MissingVariable argv (i + 1) rest with
      | .panicked => .panicked
      | .returned err fs log =>
        .returned err ({ fld with Value := value } :: fs) (logged.toList ++ log)

/-- The function `unmarshalArgs`; the sentinels `MissingIdentifier` and
`MissingVariable` are declared outside the given sources. -/
def unmarshalArgs (MissingIdentifier : Identifier) (MissingVariable : Variable)
    (argv : List ExpressionNode) (v : List StructField) : Unmarshal :=
  if argv.length = 0 then .returned none v []
  else bindLoop MissingIdentifier MissingVariable argv 0 v

/-- A non-skipped, non-optional parameter whose positional index is at least
`len(argv)`. -/
def requiredOutOfRange (argv : List ExpressionNode) (i : Nat) (fld : StructField) : Bool :=
  decide (fld.Tag ≠ "-") && !fld.optional &&
    match fld.argIdx i with
    | some argIdx => decide ((argv.length : Int) ≤ argIdx)
    | none => false

/-- A non-skipped parameter marked optional whose positional index is at least
`len(argv)`. -/
def optionalOutOfRange (argv : List ExpressionNode) (i : Nat) (fld : StructField) : Bool :=
  decide (fld.Tag ≠ "-") && fld.optional &&
    match fld.argIdx i with
    | some argIdx => decide ((argv.length : Int) ≤ argIdx)
    | none => false

/-- A schema with one required integer parameter. -/
def powerSchema : List StructField := [⟨"Power", "", .int 0⟩]

/-- A schema with a required integer parameter and an optional flag
parameter. -/
def maskSchema : List StructField := [⟨"Value", "", .int 0⟩, ⟨"Mask", "1,optional", .Flag 7⟩]

/-- Host tables in which the name `x` is an identifier, a variable and a flag,
and `y` a variable and a flag. -/
def overlapConfig : ParserConfig :=
  { CommandTypes := [], Identifiers := [("x", 1)], Variables := [("x", 2), ("y", 3)],
    Flags := [("x", 4), ("y", 5), ("z", 6)] }

/-- Calling `advance` `n` times in a row: the tokens returned, in order. -/
def advanceTimes : Nat → Parser → Except Error (List Token × Parser)
  | 0, p => .ok ([], p)
  | n + 1, p =>
    match p.advance with
    | .error e => .error e
    | .ok (tok, p1) =>
      match advanceTimes n p1 with
      | .error e => .error e
      | .ok (toks, p2) => .ok (tok :: toks, p2)

/-- The value of a string of decimal digits. -/
def decimalValue (text : String) : Nat :=
  text.data.foldl (fun a c => 10 * a + (c.toNat - 48)) 0

/-- A non-empty string of decimal digits. -/
def isDigitString (text : String) : Bool :=
  decide (text.data ≠ []) && text.data.all Char.isDigit

/-- The program `set v, 2147483648` followed by a newline. -/
def setOutOfRange : List Token :=
  [⟨.IdentToken, "set"⟩, ⟨.IdentToken, "v"⟩, ⟨.CommaToken, ","⟩,
   ⟨.NumberToken, "2147483648"⟩, ⟨.NewlineToken, "\n"⟩]

/-- No command of the Script has the type `CmdNone`, and the same holds,
recursively, in the sub-Script of every macro. -/
inductive NoNullCommand : Script → Prop where
  | mk (s : Script) (hc : ∀ c ∈ s.commands, c.typ ≠ CmdNone)
      (hm : ∀ name m, (name, m) ∈ s.macros → NoNullCommand m) : NoNullCommand s

/-- A program that names the command `none` inside and outside a macro:
`macro m`, `none`, `nop`, `endmacro`, `none`, `m`, `ret`, one to a line. -/
def noneProgram : List Token :=
  [⟨.MacroToken, "macro"⟩, ⟨.IdentToken, "m"⟩, ⟨.NewlineToken, "\n"⟩,
   ⟨.IdentToken, "none"⟩, ⟨.NewlineToken, "\n"⟩,
   ⟨.IdentToken, "nop"⟩, ⟨.NewlineToken, "\n"⟩,
   ⟨.EndMacroToken, "endmacro"⟩, ⟨.NewlineToken, "\n"⟩,
   ⟨.IdentToken, "none"⟩, ⟨.NewlineToken, "\n"⟩,
   ⟨.IdentToken, "m"⟩, ⟨.NewlineToken, "\n"⟩,
   ⟨.IdentToken, "ret"⟩, ⟨.NewlineToken, "\n"⟩]

/-- The program `macro m`, `nop`, `L:`, `goto L`, `endmacro`, `nop`, `nop`,
`nop`, `m`, one to a line: the label `L` is declared in the macro only. -/
def macroLabelProgram : List Token :=
  [⟨.MacroToken, "macro"⟩, ⟨.IdentToken, "m"⟩, ⟨.NewlineToken, "\n"⟩,
   ⟨.IdentToken, "nop"⟩, ⟨.NewlineToken, "\n"⟩,
   ⟨.IdentToken, "L"⟩, ⟨.ColonToken, ":"⟩, ⟨.NewlineToken, "\n"⟩,
   ⟨.IdentToken, "goto"⟩, ⟨.IdentToken, "L"⟩, ⟨.NewlineToken, "\n"⟩,
   ⟨.EndMacroToken, "endmacro"⟩, ⟨.NewlineToken, "\n"⟩,
   ⟨.IdentToken, "nop"⟩, ⟨.NewlineToken, "\n"⟩,
   ⟨.IdentToken, "nop"⟩, ⟨.NewlineToken, "\n"⟩,
   ⟨.IdentToken, "nop"⟩, ⟨.NewlineToken, "\n"⟩,
   ⟨.IdentToken, "m"⟩, ⟨.NewlineToken, "\n"⟩]

/-- The same program after the line `L:`, which declares `L` in the outermost
Script at address 0. -/
def outerLabelProgram : List Token :=
  [⟨.IdentToken, "L"⟩, ⟨.ColonToken, ":"⟩, ⟨.NewlineToken, "\n"⟩] ++ macroLabelProgram

/-- The names and the command lists of the macros of a Script. -/
def Script.macroCommands (s : Script) : List (String × List CommandNode) :=
  s.macros.map (fun m => (m.1, m.2.commands))

/-- The names and the label tables of the macros of a Script. -/
def Script.macroLabels (s : Script) : List (String × List (String × Int)) :=
  s.macros.map (fun m => (m.1, m.2.labels))

/-- What the parse loop leaves for `outerLabelProgram`, before the resolver
runs: the spliced `goto L` at index 4 still refers to `L` by name, the
outermost label table has `L` at 0 and the one of the macro has `L` at 1. -/
def splicedRaw : Script :=
  { commands := [⟨CmdNop, []⟩, ⟨CmdNop, []⟩, ⟨CmdNop, []⟩, ⟨CmdNop, []⟩,
      ⟨CmdGoto, [.LabelNode "L"]⟩],
    labels := [("L", 0)],
    macros := [("m", { commands := [⟨CmdNop, []⟩, ⟨CmdGoto, [.LabelNode "L"]⟩],
                       labels := [("L", 1)], macros := [], constants := [] })],
    constants := [] }

/-- A complete expression tree: no operand, at any depth, is the nil node, and
the tree itself is not nil. -/
def ExpressionNode.complete : ExpressionNode → Bool
  | .nil => false
  | .UnaryOpNode _ operand => operand.complete
  | .BinaryOpNode left _ right => left.complete && right.complete
  | _ => true

/-- The line `set v, 1 +` followed by an empty line. -/
def binaryBeforeNewline : List Token :=
  [⟨.IdentToken, "set"⟩, ⟨.IdentToken, "v"⟩, ⟨.CommaToken, ","⟩, ⟨.NumberToken, "1"⟩,
   ⟨.OperatorToken, "+"⟩, ⟨.NewlineToken, "\n"⟩, ⟨.NewlineToken, "\n"⟩]

/-- The line `set v, -` followed by an empty line. -/
def unaryBeforeNewline : List Token :=
  [⟨.IdentToken, "set"⟩, ⟨.IdentToken, "v"⟩, ⟨.CommaToken, ","⟩,
   ⟨.OperatorToken, "-"⟩, ⟨.NewlineToken, "\n"⟩, ⟨.NewlineToken, "\n"⟩]

/-- The line `const X 1 *`. -/
def constBeforeNewline : List Token :=
  [⟨.ConstToken, "const"⟩, ⟨.IdentToken, "X"⟩, ⟨.NumberToken, "1"⟩,
   ⟨.OperatorToken, "*"⟩, ⟨.NewlineToken, "\n"⟩]

/-- The line `set v, 1 +` at the end of the text. -/
def binaryBeforeEnd : List Token :=
  [⟨.IdentToken, "set"⟩, ⟨.IdentToken, "v"⟩, ⟨.CommaToken, ","⟩, ⟨.NumberToken, "1"⟩,
   ⟨.OperatorToken, "+"⟩, ⟨.NewlineToken, "\n"⟩]

/-- The stack pointer and every entry of the stack array of the frame are
values of Go's `int`. -/
def GoStack {σ : Type} (f : RuntimeFrame σ) : Prop :=
  inIntRange f.sp ∧ ∀ x ∈ f.stack, inIntRange x

/-- Every integer payload of an argument of a command of the script is a value
of Go's `int`. -/
def ArgsInIntRange (script : Script) : Prop :=
  ∀ cmd ∈ script.commands, ∀ a ∈ cmd.Args, ∀ v, argInt a = some v → inIntRange v

/-- The script `goto 2; nop; goto 3`: the first jump skips the `nop`, the
second one has the end of the script as its target. -/
def jumpScript : Script :=
  { commands := [⟨CmdGoto, [.AddressNode 2]⟩, ⟨CmdNop, []⟩, ⟨CmdGoto, [.AddressNode 3]⟩],
    labels := [], macros := [], constants := [] }

/-- The program `macro m`, `ret`, `ret`, `endmacro`, `m nop`, one to a line: the
line that names the macro carries a further token. -/
def macroThenNop : List Token :=
  [⟨.MacroToken, "macro"⟩, ⟨.IdentToken, "m"⟩, ⟨.NewlineToken, "\n"⟩,
   ⟨.IdentToken, "ret"⟩, ⟨.NewlineToken, "\n"⟩, ⟨.IdentToken, "ret"⟩, ⟨.NewlineToken, "\n"⟩,
   ⟨.EndMacroToken, "endmacro"⟩, ⟨.NewlineToken, "\n"⟩,
   ⟨.IdentToken, "m"⟩, ⟨.IdentToken, "nop"⟩, ⟨.NewlineToken, "\n"⟩]

/-- The program `macro nop`, `ret`, `ret`, `endmacro`, `nop`, one to a line: the
macro has the name of a registered command. -/
def macroNamedNop : List Token :=
  [⟨.MacroToken, "macro"⟩, ⟨.IdentToken, "nop"⟩, ⟨.NewlineToken, "\n"⟩,
   ⟨.IdentToken, "ret"⟩, ⟨.NewlineToken, "\n"⟩, ⟨.IdentToken, "ret"⟩, ⟨.NewlineToken, "\n"⟩,
   ⟨.EndMacroToken, "endmacro"⟩, ⟨.NewlineToken, "\n"⟩,
   ⟨.IdentToken, "nop"⟩, ⟨.NewlineToken, "\n"⟩]

/-- The program `goto X` followed by a newline. -/
def gotoX : List Token :=
  [⟨.IdentToken, "goto"⟩, ⟨.IdentToken, "X"⟩, ⟨.NewlineToken, "\n"⟩]

/-- The program `goto -X` followed by a newline. -/
def gotoNegX : List Token :=
  [⟨.IdentToken, "goto"⟩, ⟨.OperatorToken, "-"⟩, ⟨.IdentToken, "X"⟩, ⟨.NewlineToken, "\n"⟩]

/-- The program `X:`, `goto -X`, one to a line. -/
def declGotoNegX : List Token :=
  [⟨.IdentToken, "X"⟩, ⟨.ColonToken, ":"⟩, ⟨.NewlineToken, "\n"⟩,
   ⟨.IdentToken, "goto"⟩, ⟨.OperatorToken, "-"⟩, ⟨.IdentToken, "X"⟩, ⟨.NewlineToken, "\n"⟩]

/-- The script holding the one command `goto -X`, the label `X` declared at 0. -/
def gotoNegXScript : Script :=
  { commands := [⟨CmdGoto, [.UnaryOpNode OpSub (.LabelNode "X")]⟩],
    labels := [("X", 0)], macros := [], constants := [] }

/-- Whether a LabelNode occurs in the tree, at any depth. -/
def containsLabel : ExpressionNode → Bool
  | .LabelNode _ => true
  | .UnaryOpNode _ operand => containsLabel operand
  | .BinaryOpNode left _ right => containsLabel left || containsLabel right
  | _ => false

/-- The script `goto L + 1; nop`, the label `L` declared at 1. -/
def gotoLScript : Script :=
  { commands := [⟨CmdGoto, [.BinaryOpNode (.LabelNode "L") OpAdd (.IntegerNode 1)]⟩,
                 ⟨CmdNop, []⟩],
    labels := [("L", 1)], macros := [], constants := [] }

/-- The script `call 2; nop; ret`. -/
def callRetScript : Script :=
  { commands := [⟨CmdCall, [.AddressNode 2]⟩, ⟨CmdNop, []⟩, ⟨CmdRet, []⟩],
    labels := [], macros := [], constants := [] }

/-! ## Theorems: the virtual machine -/

theorem wrapInt_of_inIntRange {x : Int} (h : inIntRange x) : wrapInt x = x := by
  unfold inIntRange at h
  unfold wrapInt
  have h1 : (x + 2 ^ 63) % 2 ^ 64 = x + 2 ^ 63 := by
    apply Int.emod_eq_of_lt <;> omega
  omega

theorem wrapInt_pred_succ {x : Int} (h : inIntRange x) : wrapInt (wrapInt (x - 1) + 1) = x := by
  unfold inIntRange at h
  unfold wrapInt
  omega

/-- C1 (code at the failing input): in the script `call 2; nop; ret` started at
0, the pass that executes `call 2` (index 0) pushes 0 and leaves pc = 2, and the
next pass, which executes the `ret` popping that entry, leaves pc = 0, so the
next command fetched is the `call` itself, not the command at index 1. -/
theorem C1_return_resumes_at_call :
    (fetch callRetScript.Commands 0).toOption = some ⟨CmdCall, [.AddressNode 2]⟩
    ∧ (fetch callRetScript.Commands 2).toOption = some ⟨CmdRet, []⟩
    ∧ (((baseRuntime mapEnvironment callRetScript).loopBody
        ((baseRuntime mapEnvironment callRetScript).newFrame 0 (fun _ => 0))).toOption.map
        (fun f => (f.pc, f.sp, f.stack.take 1)) = some (2, 1, [0]))
    ∧ ((((baseRuntime mapEnvironment callRetScript).loopBody
        ((baseRuntime mapEnvironment callRetScript).newFrame 0 (fun _ => 0))).bind
          (baseRuntime mapEnvironment callRetScript).loopBody).toOption.map
        (fun f => (f.pc, f.sp)) = some (0, 0)) := by
  refine ⟨?_, ?_, ?_, ?_⟩ <;> decide

/-- C9 (code at the failing input): with every variable stored as 0, variable
handle 2 and flag handle 1, `CmdSetFlag` stores `2 & 1 = 0`, and the following
`CmdFlag` returns false. -/
theorem C9_setFlag_then_flag_false :
    RuntimeFrame.CmdFlag mapEnvironment
      (RuntimeFrame.CmdSetFlag mapEnvironment
        ({ host := fun _ => 0, pc := 0, sp := 0, stack := List.replicate 16 0 } :
          RuntimeFrame (Variable → Int)) 2 1) 2 1 = false
    ∧ mapEnvironment.Get (fun _ => 0) 2 = 0 := by
  decide

theorem loopBody_eq_specStep {σ : Type} (r : Runtime σ)
    (hlen : (r.script.Commands.length : Int) < 2 ^ 63) (f : RuntimeFrame σ)
    (hh : ∀ (cmd : CommandNode) (f1 : RuntimeFrame σ) (t : Int) (j : Bool),
      fetch r.script.Commands f.pc = .ok cmd →
      r.handlers cmd.typ f cmd.Args = .ok (f1, t, j) → inIntRange t ∧ f1.pc = f.pc)
    (hpc : f.pc < (r.script.Commands.length : Int)) :
    r.loopBody f = specStep r f := by
  unfold Runtime.loopBody specStep RuntimeFrame.ExecuteCommand
  cases hf : fetch r.script.Commands f.pc with
  | error e => rfl
  | ok cmd =>
    have h0 : 0 ≤ f.pc := by
      unfold fetch at hf
      by_contra hneg
      rw [if_pos (by omega)] at hf
      cases hf
    simp only []
    cases hx : r.handlers cmd.typ f cmd.Args with
    | error e => rfl
    | ok res =>
      obtain ⟨f1, t, j⟩ := res
      obtain ⟨ht, hp⟩ := hh _ _ _ _ hf hx
      cases j with
      | true =>
        simp only [if_true]
        rw [wrapInt_pred_succ ht]
      | false =>
        simp only [Bool.false_eq_true, if_false]
        rw [hp, wrapInt_of_inIntRange]
        unfold inIntRange
        constructor <;> omega

theorem specStep_goStack {σ : Type} (r : Runtime σ) (f f2 : RuntimeFrame σ)
    (hh : ∀ (cmd : CommandNode) (f1 : RuntimeFrame σ) (t : Int) (j : Bool),
      fetch r.script.Commands f.pc = .ok cmd →
      r.handlers cmd.typ f cmd.Args = .ok (f1, t, j) → GoStack f1)
    (h : specStep r f = .ok f2) : GoStack f2 := by
  unfold specStep at h
  cases hf : fetch r.script.Commands f.pc with
  | error e => rw [hf] at h; cases h
  | ok cmd =>
    rw [hf] at h
    simp only [] at h
    cases hx : r.handlers cmd.typ f cmd.Args with
    | error e => rw [hx] at h; cases h
    | ok res =>
      obtain ⟨f1, t, j⟩ := res
      rw [hx] at h
      simp only [Except.ok.injEq] at h
      subst h
      exact (hh cmd f1 t j hf hx : GoStack f1)

/-- C10: for handlers that, on the command fetched at a frame of Go `int`s,
return a Go `int` as target, leave the frame's `pc` field alone (it is private
to the frame's package) and leave a frame of Go `int`s, `Runtime.Start` is the
iteration of the specification's step, started at `pc0` and stopping exactly
when `pc >= len(commands)`; a start address at or past the end executes no
command (the fresh frame is returned untouched), and a handler result
`(len(commands), true)` ends the run with no further command executed. -/
theorem C10_Start_is_spec_iteration {σ : Type} (r : Runtime σ)
    (hlen : (r.script.Commands.length : Int) < 2 ^ 63)
    (hh : ∀ (f : RuntimeFrame σ) (cmd : CommandNode) (f1 : RuntimeFrame σ) (t : Int)
      (j : Bool), GoStack f → fetch r.script.Commands f.pc = .ok cmd →
      r.handlers cmd.typ f cmd.Args = .ok (f1, t, j) →
      inIntRange t ∧ f1.pc = f.pc ∧ GoStack f1) :
    (∀ (fuel : Nat) (pc0 : Int) (env : σ),
      r.Start fuel pc0 env = specRun r fuel (r.newFrame pc0 env))
    ∧ (∀ (fuel : Nat) (pc0 : Int) (env : σ), (r.script.Commands.length : Int) ≤ pc0 →
      r.Start (fuel + 1) pc0 env = some (.ok (r.newFrame pc0 env)))
    ∧ (∀ (fuel : Nat) (f f1 : RuntimeFrame σ) (cmd : CommandNode),
      fetch r.script.Commands f.pc = .ok cmd →
      r.handlers cmd.typ f cmd.Args = .ok (f1, (r.script.Commands.length : Int), true) →
      f.pc < (r.script.Commands.length : Int) →
      r.loop (fuel + 2) f
        = some (.ok { f1 with pc := (r.script.Commands.length : Int) })) := by
  have key : ∀ (fuel : Nat) (f : RuntimeFrame σ), GoStack f →
      r.loop fuel f = specRun r fuel f := by
    intro fuel
    induction fuel with
    | zero => intro f _; rfl
    | succ n ih =>
      intro f hgo
      unfold Runtime.loop specRun
      by_cases hpc : f.pc < (r.script.Commands.length : Int)
      · rw [if_pos hpc, if_neg (by omega), loopBody_eq_specStep r hlen f
          (fun cmd f1 t j hf hx => ⟨(hh f cmd f1 t j hgo hf hx).1, (hh f cmd f1 t j hgo hf hx).2.1⟩)
          hpc]
        cases hs : specStep r f with
        | error e => rfl
        | ok f2 =>
          exact ih f2 (specStep_goStack r f f2
            (fun cmd f1 t j hf hx => (hh f cmd f1 t j hgo hf hx).2.2) hs)
      · rw [if_neg hpc, if_pos (by omega)]
  refine ⟨fun fuel pc0 env => key fuel _ ?_, ?_, ?_⟩
  · refine ⟨(by decide : inIntRange 0), ?_⟩
    intro x hx
    have : x = 0 := List.eq_of_mem_replicate hx
    subst this
    exact (by decide : inIntRange 0)
  · intro fuel pc0 env hge
    unfold Runtime.Start Runtime.loop
    have : ¬ (r.newFrame pc0 env).pc < (r.script.Commands.length : Int) := by
      show ¬ pc0 < _
      omega
    rw [if_neg this]
  · intro fuel f f1 cmd hf hx hpc
    have hend : inIntRange (r.script.Commands.length : Int) := by
      unfold inIntRange
      constructor <;> omega
    have hbody : r.loopBody f = .ok { f1 with pc := (r.script.Commands.length : Int) } := by
      unfold Runtime.loopBody RuntimeFrame.ExecuteCommand
      rw [hf]
      simp only [hx, if_true, wrapInt_pred_succ hend]
    rw [Runtime.loop, if_pos hpc, hbody]
    simp only []
    rw [Runtime.loop, if_neg (by simp)]

/-! ## Theorems: the label resolver and Parse -/

/-- C2 (code at the failing input): on the script whose one command is
`goto -X`, with `X` declared, `replaceLabelNodes` returns no error and leaves
the command unchanged, so its argument still contains the LabelNode `X`
beneath the unary operator; `Parse` returns that script, without an error,
for the program `X:`, `goto -X`. -/
theorem C2_label_survives_under_unary :
    (replaceLabelNodes gotoNegXScript).2 = none
    ∧ (replaceLabelNodes gotoNegXScript).1.commands
        = [⟨CmdGoto, [.UnaryOpNode OpSub (.LabelNode "X")]⟩]
    ∧ containsLabel (.UnaryOpNode OpSub (.LabelNode "X")) = true
    ∧ (parserOf exampleConfig declGotoNegX).Parse.2 = none
    ∧ (parserOf exampleConfig declGotoNegX).Parse.1.map (fun s => (s.commands, s.labels))
        = some (gotoNegXScript.commands, gotoNegXScript.labels) := by
  refine ⟨by decide, by decide, by decide, by decide!, by decide!⟩

/-- C3 (code at the failing inputs): for the program `goto X`, where `X` is
never declared, `Parse` returns the unknown-label SyntaxError together with a
Script that is not nil; for the program `goto -X` it returns no error at all. -/
theorem C3_undeclared_label_results :
    (parserOf exampleConfig gotoX).Parse.2 = some (.SyntaxError "unknown label: 'X'")
    ∧ (parserOf exampleConfig gotoX).Parse.1.map (fun s => s.commands)
        = some [⟨CmdGoto, [.LabelNode "X"]⟩]
    ∧ (parserOf exampleConfig gotoNegX).Parse.2 = none
    ∧ (parserOf exampleConfig gotoNegX).Parse.1.map (fun s => s.commands)
        = some [⟨CmdGoto, [.UnaryOpNode OpSub (.LabelNode "X")]⟩] := by
  decide!

theorem fillLoop_spec : ∀ (n : Nat) (p : Parser), p.done = false → p.buf.length + n ≤ bufferCapacity →
    ∃ p1, Parser.fillLoop n p = .ok p1 ∧ p1.pending = p.pending ∧ p1.tables = p.tables
      ∧ (p1.done = true ∨ p1.buf.length = p.buf.length + n) := by
  intro n
  induction n with
  | zero =>
    intro p _ _
    exact ⟨p, rfl, rfl, rfl, Or.inr rfl⟩
  | succ n ih =>
    intro p hd hcap
    unfold Parser.fillLoop
    have hlt : ¬ p.buf.length ≥ bufferCapacity := by omega
    simp only [hlt, if_false]
    cases hr : p.l.rest with
    | nil =>
      have hnt : p.l.NextToken = (⟨.EOF, ""⟩, p.l) := by simp [Lexer.NextToken, hr]
      rw [hnt]
      simp only [if_true]
      refine ⟨_, rfl, ?_, rfl, Or.inl rfl⟩
      simp [Parser.pending, hd, hr, upToEOF]
    | cons t r =>
      have hnt : p.l.NextToken = (t, ⟨r⟩) := by simp [Lexer.NextToken, hr]
      rw [hnt]
      by_cases ht : t.typ = .EOF
      · simp only [ht, if_true]
        refine ⟨_, rfl, ?_, rfl, Or.inl rfl⟩
        simp [Parser.pending, hd, hr, upToEOF, ht]
      · simp only [ht, if_false]
        obtain ⟨p1, h1, h2, h3, h4⟩ := ih { p with l := ⟨r⟩, buf := p.buf ++ [t] } hd
          (by simp only [List.length_append, List.length_singleton]; omega)
        refine ⟨p1, h1, ?_, ?_, ?_⟩
        · rw [h2]
          simp [Parser.pending, hd, hr, upToEOF, ht]
        · rw [h3]; rfl
        · rcases h4 with h4 | h4
          · exact Or.inl h4
          · right
            rw [h4]
            simp only [List.length_append, List.length_singleton]
            omega

theorem fillBuffer_spec (p : Parser) :
    ∃ p1, p.fillBuffer = .ok p1 ∧ p1.pending = p.pending ∧ p1.tables = p.tables
      ∧ (p1.done = true ∨ 16 ≤ p1.buf.length) := by
  unfold Parser.fillBuffer
  by_cases hd : p.done = true
  · simp only [hd, if_true]
    exact ⟨p, rfl, rfl, rfl, Or.inl hd⟩
  · have hd' : p.done = false := by simpa using hd
    simp only [hd', Bool.false_eq_true, if_false]
    by_cases hp : tokenPrefetch - (p.buf.length : Int) ≤ 0
    · simp only [hp, if_true]
      refine ⟨p, rfl, rfl, rfl, Or.inr ?_⟩
      unfold tokenPrefetch at hp
      omega
    · simp only [hp, if_false]
      unfold tokenPrefetch at hp
      obtain ⟨p1, h1, h2, h3, h4⟩ := fillLoop_spec (tokenPrefetch - (p.buf.length : Int)).toNat p hd'
        (by unfold tokenPrefetch bufferCapacity; omega)
      refine ⟨p1, h1, h2, h3, ?_⟩
      rcases h4 with h4 | h4
      · exact Or.inl h4
      · right
        rw [h4]
        unfold tokenPrefetch
        omega

theorem pending_get?_eq_buf (p : Parser) (n : Nat) (hn : n < 16)
    (h : p.done = true ∨ 16 ≤ p.buf.length) : p.pending.get? n = p.buf.get? n := by
  rcases h with h | h
  · simp [Parser.pending, h]
  · unfold Parser.pending
    simp only [List.get?_eq_getElem?]
    rw [List.getElem?_append_left (by omega)]

/-- What `peekAhead n` returns, in terms of the tokens still to read. -/
theorem peekAhead_ok {p p1 : Parser} {n : Nat} {tok : Token} (hn : n < 16)
    (h : p.peekAhead n = .ok (tok, p1)) :
    p.pending.get? n = some tok ∧ p1.pending = p.pending ∧ p1.tables = p.tables := by
  obtain ⟨q, h1, h2, h3, h4⟩ := fillBuffer_spec p
  unfold Parser.peekAhead at h
  rw [h1] at h
  simp only [] at h
  have hq := pending_get?_eq_buf q n hn h4
  cases hb : q.buf.get? n with
  | none => rw [hb] at h; cases h
  | some t =>
    rw [hb] at h
    simp only [Except.ok.injEq, Prod.mk.injEq] at h
    obtain ⟨rfl, rfl⟩ := h
    refine ⟨?_, h2, h3⟩
    rw [← h2, hq, hb]

theorem peekAhead_of_get {p : Parser} {n : Nat} {t : Token} (hn : n < 16)
    (h : p.pending.get? n = some t) :
    ∃ p1, p.peekAhead n = .ok (t, p1) ∧ p1.pending = p.pending ∧ p1.tables = p.tables := by
  obtain ⟨q, h1, h2, h3, h4⟩ := fillBuffer_spec p
  have hq := pending_get?_eq_buf q n hn h4
  rw [h2, h] at hq
  refine ⟨q, ?_, h2, h3⟩
  unfold Parser.peekAhead
  rw [h1]
  simp only []
  rw [← hq]

theorem peekAhead_error {p : Parser} {n : Nat} {e : Error} (hn : n < 16)
    (h : p.peekAhead n = .error e) : e = .BufferError ∧ p.pending.get? n = none := by
  obtain ⟨q, h1, h2, h3, h4⟩ := fillBuffer_spec p
  have hq := pending_get?_eq_buf q n hn h4
  unfold Parser.peekAhead at h
  rw [h1] at h
  simp only [] at h
  cases hb : q.buf.get? n with
  | none =>
    rw [hb] at h
    simp only [Except.error.injEq] at h
    refine ⟨h.symm, ?_⟩
    rw [← h2, hq, hb]
  | some t => rw [hb] at h; cases h

theorem peek_ok {p p1 : Parser} {tok : Token} (h : p.peek = .ok (tok, p1)) :
    p.pending.head? = some tok ∧ p1.pending = p.pending ∧ p1.tables = p.tables := by
  obtain ⟨h1, h2, h3⟩ := peekAhead_ok (by decide : 0 < 16) h
  refine ⟨?_, h2, h3⟩
  cases hp : p.pending with
  | nil => rw [hp] at h1; cases h1
  | cons a l => rw [hp] at h1; simpa using h1

theorem peek_of_cons {p : Parser} {tok : Token} {r : List Token} (h : p.pending = tok :: r) :
    ∃ p1, p.peek = .ok (tok, p1) ∧ p1.pending = tok :: r ∧ p1.tables = p.tables := by
  obtain ⟨p1, h1, h2, h3⟩ := peekAhead_of_get (p := p) (n := 0) (t := tok) (by decide)
    (by rw [h]; rfl)
  exact ⟨p1, h1, by rw [h2, h], h3⟩

theorem advance_ok {p p1 : Parser} {tok : Token} (h : p.advance = .ok (tok, p1)) :
    p.pending = tok :: p1.pending ∧ p1.tables = p.tables := by
  obtain ⟨q, h1, h2, h3, h4⟩ := fillBuffer_spec p
  unfold Parser.advance at h
  rw [h1] at h
  simp only [] at h
  cases hb : q.buf with
  | nil => rw [hb] at h; cases h
  | cons t r =>
    rw [hb] at h
    simp only [Except.ok.injEq, Prod.mk.injEq] at h
    obtain ⟨rfl, rfl⟩ := h
    refine ⟨?_, h3⟩
    rw [← h2]
    simp [Parser.pending, hb]

theorem advance_of_cons {p : Parser} {tok : Token} {r : List Token} (h : p.pending = tok :: r) :
    ∃ p1, p.advance = .ok (tok, p1) ∧ p1.pending = r ∧ p1.tables = p.tables := by
  obtain ⟨q, h1, h2, h3, h4⟩ := fillBuffer_spec p
  have hq := pending_get?_eq_buf q 0 (by decide) h4
  rw [h2, h] at hq
  cases hb : q.buf with
  | nil => rw [hb] at hq; cases hq
  | cons t r' =>
    rw [hb] at hq
    simp only [List.get?_cons_zero, Option.some.injEq] at hq
    subst hq
    refine ⟨{ q with buf := r' }, ?_, ?_, h3⟩
    · unfold Parser.advance
      rw [h1]
      simp only [hb]
    · have : q.pending = tok :: r := by rw [h2, h]
      simp only [Parser.pending, hb, List.cons_append, List.cons.injEq, true_and] at this
      exact this

theorem advance_error {p : Parser} {e : Error} (h : p.advance = .error e) :
    e = .BufferError ∧ p.pending = [] := by
  cases hp : p.pending with
  | nil =>
    obtain ⟨q, h1, h2, h3, h4⟩ := fillBuffer_spec p
    unfold Parser.advance at h
    rw [h1] at h
    simp only [] at h
    cases hb : q.buf with
    | nil => rw [hb] at h; simp only [Except.error.injEq] at h; exact ⟨h.symm, rfl⟩
    | cons t r => rw [hb] at h; cases h
  | cons t r =>
    obtain ⟨p1, h1, _, _⟩ := advance_of_cons hp
    rw [h1] at h; cases h

theorem replaceExpr_idem (s s1 : Script) :
    ∀ (e e1 : ExpressionNode), replaceLabelNodesInExpression s e = (e1, none) →
      replaceLabelNodesInExpression s1 e1 = (e1, none) := by
  intro e
  induction e with
  | BinaryOpNode l op r ihl ihr =>
    intro e1 h
    unfold replaceLabelNodesInExpression at h
    rcases hl1 : replaceLabelNodesInExpression s l with ⟨l1, el⟩
    rw [hl1] at h
    cases el with
    | some e => simp at h
    | none =>
      rcases hr1 : replaceLabelNodesInExpression s r with ⟨r1, er⟩
      rw [hr1] at h
      simp only [Prod.mk.injEq] at h
      obtain ⟨rfl, rfl⟩ := h
      unfold replaceLabelNodesInExpression
      rw [ihl l1 hl1, ihr r1 hr1]
  | LabelNode name =>
    intro e1 h
    unfold replaceLabelNodesInExpression at h
    cases hk : s.labels.lookup name with
    | none => rw [hk] at h; simp at h
    | some pc =>
      rw [hk] at h
      simp only [Prod.mk.injEq, and_true] at h
      subst h
      rfl
  | _ =>
    intro e1 h
    simp only [replaceLabelNodesInExpression, Prod.mk.injEq, and_true] at h
    subst h
    rfl

theorem replaceArgs_idem (s s1 : Script) :
    ∀ (args args1 : List ExpressionNode), replaceLabelNodesInArgs s args = (args1, none) →
      replaceLabelNodesInArgs s1 args1 = (args1, none) := by
  intro args
  induction args with
  | nil =>
    intro args1 h
    simp only [replaceLabelNodesInArgs, Prod.mk.injEq, and_true] at h
    subst h
    rfl
  | cons a rest ih =>
    intro args1 h
    unfold replaceLabelNodesInArgs at h
    rcases ha : replaceLabelNodesInExpression s a with ⟨a1, ea⟩
    rw [ha] at h
    cases ea with
    | some e => simp at h
    | none =>
      rcases hr : replaceLabelNodesInArgs s rest with ⟨rest1, er⟩
      rw [hr] at h
      simp only [Prod.mk.injEq] at h
      obtain ⟨rfl, rfl⟩ := h
      unfold replaceLabelNodesInArgs
      rw [replaceExpr_idem s s1 a a1 ha, ih rest1 hr]

theorem replaceCommands_idem (s s1 : Script) :
    ∀ (cs cs1 : List CommandNode), replaceLabelNodesInCommands s cs = (cs1, none) →
      replaceLabelNodesInCommands s1 cs1 = (cs1, none) := by
  intro cs
  induction cs with
  | nil =>
    intro cs1 h
    simp only [replaceLabelNodesInCommands, Prod.mk.injEq, and_true] at h
    subst h
    rfl
  | cons c rest ih =>
    intro cs1 h
    unfold replaceLabelNodesInCommands at h
    rcases ha : replaceLabelNodesInArgs s c.Args with ⟨a1, ea⟩
    rw [ha] at h
    cases ea with
    | some e => simp at h
    | none =>
      rcases hr : replaceLabelNodesInCommands s rest with ⟨rest1, er⟩
      rw [hr] at h
      simp only [Prod.mk.injEq] at h
      obtain ⟨rfl, rfl⟩ := h
      unfold replaceLabelNodesInCommands
      simp only []
      rw [replaceArgs_idem s s1 c.Args a1 ha, ih rest1 hr]

/-- C7: when `replaceLabelNodes` has succeeded on a Script, running it again on
the result succeeds and returns the same Script: every command and every
argument tree is unchanged. -/
theorem C7_replaceLabelNodes_idempotent (script : Script)
    (h : (replaceLabelNodes script).2 = none) :
    replaceLabelNodes (replaceLabelNodes script).1 = ((replaceLabelNodes script).1, none) := by
  unfold replaceLabelNodes at h ⊢
  rcases hc : replaceLabelNodesInCommands script script.commands with ⟨cs, err⟩
  rw [hc] at h
  simp only [] at h
  subst h
  simp only []
  rw [replaceCommands_idem script { script with commands := cs } script.commands cs hc]

theorem C7_witness :
    (replaceLabelNodes gotoLScript).2 = none
    ∧ replaceLabelNodes (replaceLabelNodes gotoLScript).1
        = ((replaceLabelNodes gotoLScript).1, none) :=
  ⟨by decide, C7_replaceLabelNodes_idempotent gotoLScript (by decide)⟩

theorem lookup_mem {α : Type} (l : List (String × α)) (k : String) (v : α)
    (h : l.lookup k = some v) : (k, v) ∈ l := by
  induction l with
  | nil => simp at h
  | cons a t ih =>
    obtain ⟨k1, v1⟩ := a
    simp only [List.lookup] at h
    split at h
    · simp only [Option.some.injEq] at h
      subst h
      have : k = k1 := by simpa using ‹(k == k1) = true›
      subst this
      exact List.mem_cons_self _ _
    · exact List.mem_cons_of_mem _ (ih h)

theorem getDefinedIdent_sat {Q : ExpressionNode → Prop} (hQ : NodeClosed Q) (p : Parser)
    (s : Script) (hs : ConstantsSat Q s) (tok : Token) : Q (p.getDefinedIdent s tok) := by
  unfold Parser.getDefinedIdent
  split
  · next expr h => exact hs _ _ (lookup_mem _ _ _ h)
  · split
    · exact hQ.identifier _
    · split
      · exact hQ.var _
      · split
        · exact hQ.flag _
        · exact hQ.label _

theorem parsePrimary_post_step {Q : ExpressionNode → Prop} (hQ : NodeClosed Q) (s : Script)
    (hs : ConstantsSat Q s) (n : Nat)
    (ihP : ∀ p, ExprPost Q true p (parsePrimary n p s))
    (ihE : ∀ p, ExprPost Q true p (parseExpression n p s)) :
    ∀ p, ExprPost Q true p (parsePrimary (n + 1) p s) := by
  intro p e p1 h
  rw [parsePrimary] at h
  split at h
  · cases h
  · next tok q hadv =>
    obtain ⟨hpend, htab⟩ := advance_ok hadv
    split at h
    · -- newline
      simp only [Except.ok.injEq, Prod.mk.injEq] at h
      obtain ⟨rfl, rfl⟩ := h
      exact ⟨htab, ⟨[tok], by simp, by simpa using hpend⟩, hQ.nil⟩
    · -- operator
      simp only [] at h
      split at h
      · split at h
        · cases h
        · next operand q2 hrec =>
          simp only [Except.ok.injEq, Prod.mk.injEq] at h
          obtain ⟨rfl, rfl⟩ := h
          obtain ⟨ht2, ⟨c, _, hc⟩, hq⟩ := ihP q operand q2 hrec
          refine ⟨ht2.trans htab, ⟨tok :: c, by simp, ?_⟩, hQ.unary _ _ hq⟩
          rw [hpend, hc]; rfl
      · cases h
    · -- lparen
      split at h
      · cases h
      · next expr q2 hrec =>
        obtain ⟨ht2, ⟨c, _, hc⟩, hq⟩ := ihE q expr q2 hrec
        split at h
        · cases h
        · next tok3 q3 hadv3 =>
          obtain ⟨hpend3, htab3⟩ := advance_ok hadv3
          split at h
          · cases h
          · simp only [Except.ok.injEq, Prod.mk.injEq] at h
            obtain ⟨rfl, rfl⟩ := h
            refine ⟨htab3.trans (ht2.trans htab), ⟨tok :: (c ++ [tok3]), by simp, ?_⟩, hq⟩
            rw [hpend, hc, hpend3]; simp
    · -- number
      split at h
      · split at h
        · simp only [Except.ok.injEq, Prod.mk.injEq] at h
          obtain ⟨rfl, rfl⟩ := h
          exact ⟨htab, ⟨[tok], by simp, by simpa using hpend⟩, hQ.float _⟩
        · cases h
      · split at h
        · cases h
        · simp only [Except.ok.injEq, Prod.mk.injEq] at h
          obtain ⟨rfl, rfl⟩ := h
          exact ⟨htab, ⟨[tok], by simp, by simpa using hpend⟩, hQ.integer _⟩
    · simp only [Except.ok.injEq, Prod.mk.injEq] at h
      obtain ⟨rfl, rfl⟩ := h
      exact ⟨htab, ⟨[tok], by simp, by simpa using hpend⟩, hQ.string _⟩
    · simp only [Except.ok.injEq, Prod.mk.injEq] at h
      obtain ⟨rfl, rfl⟩ := h
      refine ⟨htab, ⟨[tok], by simp, by simpa using hpend⟩, ?_⟩
      exact getDefinedIdent_sat hQ _ s hs tok
    · cases h

theorem ExprPost_error (Q : ExpressionNode → Prop) (b : Bool) (p : Parser) (e : Error) :
    ExprPost Q b p (.error e) := by
  intro e1 p1 h
  cases h

theorem parseMultiplicativeLoop_post_step {Q : ExpressionNode → Prop} (hQ : NodeClosed Q)
    (s : Script) (n : Nat)
    (ihP : ∀ p, ExprPost Q true p (parsePrimary n p s))
    (ihL : ∀ p e tok, Q e → ExprPost Q false p (parseMultiplicativeLoop n p s e tok)) :
    ∀ p e tok, Q e → ExprPost Q false p (parseMultiplicativeLoop (n + 1) p s e tok) := by
  intro p e tok he e1 p1 h
  rw [parseMultiplicativeLoop] at h
  split at h
  · simp only [Except.ok.injEq, Prod.mk.injEq] at h
    obtain ⟨rfl, rfl⟩ := h
    exact ⟨rfl, ⟨[], by simp, by simp⟩, he⟩
  · split at h
    · cases h
    · next tok2 q hadv =>
      obtain ⟨hpend, htab⟩ := advance_ok hadv
      split at h
      · cases h
      · next right q2 hrec =>
        obtain ⟨ht2, ⟨c, _, hc⟩, hq⟩ := ihP q right q2 hrec
        split at h
        · cases h
        · next tok3 q3 hpeek =>
          obtain ⟨_, hpend3, htab3⟩ := peek_ok hpeek
          obtain ⟨ht4, ⟨c4, _, hc4⟩, hq4⟩ :=
            ihL q3 _ tok3 (hQ.binary _ _ _ he hq) e1 p1 h
          refine ⟨ht4.trans (htab3.trans (ht2.trans htab)), ⟨tok2 :: (c ++ c4), by simp, ?_⟩, hq4⟩
          rw [hpend, hc, ← hpend3, hc4]; simp

theorem parseMultiplicative_post_step {Q : ExpressionNode → Prop}
    (s : Script) (n : Nat)
    (ihP : ∀ p, ExprPost Q true p (parsePrimary n p s))
    (ihL : ∀ p e tok, Q e → ExprPost Q false p (parseMultiplicativeLoop n p s e tok)) :
    ∀ p, ExprPost Q true p (parseMultiplicative (n + 1) p s) := by
  intro p e1 p1 h
  rw [parseMultiplicative] at h
  split at h
  · cases h
  · next expr q hrec =>
    obtain ⟨ht, ⟨c, hne, hc⟩, hq⟩ := ihP p expr q hrec
    split at h
    · cases h
    · next tok3 q3 hpeek =>
      obtain ⟨_, hpend3, htab3⟩ := peek_ok hpeek
      obtain ⟨ht4, ⟨c4, _, hc4⟩, hq4⟩ := ihL q3 _ tok3 hq e1 p1 h
      refine ⟨ht4.trans (htab3.trans ht), ⟨c ++ c4, ?_, ?_⟩, hq4⟩
      · intro _ hnil
        exact hne rfl (List.append_eq_nil.mp hnil).1
      · rw [hc, ← hpend3, hc4]; simp

theorem parseAdditiveLoop_post_step {Q : ExpressionNode → Prop} (hQ : NodeClosed Q)
    (s : Script) (n : Nat)
    (ihM : ∀ p, ExprPost Q true p (parseMultiplicative n p s))
    (ihL : ∀ p e tok, Q e → ExprPost Q false p (parseAdditiveLoop n p s e tok)) :
    ∀ p e tok, Q e → ExprPost Q false p (parseAdditiveLoop (n + 1) p s e tok) := by
  intro p e tok he e1 p1 h
  rw [parseAdditiveLoop] at h
  split at h
  · simp only [Except.ok.injEq, Prod.mk.injEq] at h
    obtain ⟨rfl, rfl⟩ := h
    exact ⟨rfl, ⟨[], by simp, by simp⟩, he⟩
  · split at h
    · cases h
    · next tok2 q hadv =>
      obtain ⟨hpend, htab⟩ := advance_ok hadv
      split at h
      · cases h
      · next right q2 hrec =>
        obtain ⟨ht2, ⟨c, _, hc⟩, hq⟩ := ihM q right q2 hrec
        split at h
        · cases h
        · next tok3 q3 hpeek =>
          obtain ⟨_, hpend3, htab3⟩ := peek_ok hpeek
          obtain ⟨ht4, ⟨c4, _, hc4⟩, hq4⟩ :=
            ihL q3 _ tok3 (hQ.binary _ _ _ he hq) e1 p1 h
          refine ⟨ht4.trans (htab3.trans (ht2.trans htab)), ⟨tok2 :: (c ++ c4), by simp, ?_⟩, hq4⟩
          rw [hpend, hc, ← hpend3, hc4]; simp

theorem parseAdditive_post_step {Q : ExpressionNode → Prop}
    (s : Script) (n : Nat)
    (ihM : ∀ p, ExprPost Q true p (parseMultiplicative n p s))
    (ihL : ∀ p e tok, Q e → ExprPost Q false p (parseAdditiveLoop n p s e tok)) :
    ∀ p, ExprPost Q true p (parseAdditive (n + 1) p s) := by
  intro p e1 p1 h
  rw [parseAdditive] at h
  split at h
  · cases h
  · next expr q hrec =>
    obtain ⟨ht, ⟨c, hne, hc⟩, hq⟩ := ihM p expr q hrec
    split at h
    · cases h
    · next tok3 q3 hpeek =>
      obtain ⟨_, hpend3, htab3⟩ := peek_ok hpeek
      obtain ⟨ht4, ⟨c4, _, hc4⟩, hq4⟩ := ihL q3 _ tok3 hq e1 p1 h
      refine ⟨ht4.trans (htab3.trans ht), ⟨c ++ c4, ?_, ?_⟩, hq4⟩
      · intro _ hnil
        exact hne rfl (List.append_eq_nil.mp hnil).1
      · rw [hc, ← hpend3, hc4]; simp

/-- Every expression parser, when it succeeds, leaves the tables alone, has
consumed a prefix of the tokens still to read, and returns a node with the
property `Q`, provided the constants of the script have it. -/
theorem expression_parsers_post {Q : ExpressionNode → Prop} (hQ : NodeClosed Q) (s : Script)
    (hs : ConstantsSat Q s) (n : Nat) :
    (∀ p, ExprPost Q true p (parsePrimary n p s))
    ∧ (∀ p e tok, Q e → ExprPost Q false p (parseMultiplicativeLoop n p s e tok))
    ∧ (∀ p, ExprPost Q true p (parseMultiplicative n p s))
    ∧ (∀ p e tok, Q e → ExprPost Q false p (parseAdditiveLoop n p s e tok))
    ∧ (∀ p, ExprPost Q true p (parseAdditive n p s))
    ∧ (∀ p, ExprPost Q true p (parseExpression n p s)) := by
  induction n with
  | zero =>
    refine ⟨?_, ?_, ?_, ?_, ?_, ?_⟩
    · intro p; rw [parsePrimary]; exact ExprPost_error _ _ _ _
    · intro p e tok _; rw [parseMultiplicativeLoop]; exact ExprPost_error _ _ _ _
    · intro p; rw [parseMultiplicative]; exact ExprPost_error _ _ _ _
    · intro p e tok _; rw [parseAdditiveLoop]; exact ExprPost_error _ _ _ _
    · intro p; rw [parseAdditive]; exact ExprPost_error _ _ _ _
    · intro p; rw [parseExpression]; exact ExprPost_error _ _ _ _
  | succ n ih =>
    obtain ⟨ihP, ihML, ihM, ihAL, ihA, ihE⟩ := ih
    refine ⟨parsePrimary_post_step hQ s hs n ihP ihE,
      parseMultiplicativeLoop_post_step hQ s n ihP ihML,
      parseMultiplicative_post_step s n ihP ihML,
      parseAdditiveLoop_post_step hQ s n ihM ihAL,
      parseAdditive_post_step s n ihM ihAL, ?_⟩
    intro p
    rw [parseExpression]
    exact ihA p

theorem parseExpression_post {Q : ExpressionNode → Prop} (hQ : NodeClosed Q) (s : Script)
    (hs : ConstantsSat Q s) (n : Nat) (p : Parser) : ExprPost Q true p (parseExpression n p s) :=
  (expression_parsers_post hQ s hs n).2.2.2.2.2 p

theorem ScriptSat.commands {Q : ExpressionNode → Prop} {s : Script} (h : ScriptSat Q s) :
    ∀ c ∈ s.commands, CommandSat Q c := by
  cases h with
  | mk _ hc _ _ => exact hc

theorem ScriptSat.constants {Q : ExpressionNode → Prop} {s : Script} (h : ScriptSat Q s) :
    ConstantsSat Q s := by
  cases h with
  | mk _ _ hk _ => exact hk

theorem ScriptSat.macros {Q : ExpressionNode → Prop} {s : Script} (h : ScriptSat Q s) :
    ∀ name m, (name, m) ∈ s.macros → ScriptSat Q m := by
  cases h with
  | mk _ _ _ hm => exact hm

theorem ScriptSat_newScript (Q : ExpressionNode → Prop) : ScriptSat Q newScript := by
  refine ScriptSat.mk _ ?_ ?_ ?_
  · intro c hc; cases hc
  · intro n e h; cases h
  · intro n m h; cases h

theorem ScriptSat_append {Q : ExpressionNode → Prop} {s : Script} (h : ScriptSat Q s)
    (cs : List CommandNode) (hcs : ∀ c ∈ cs, CommandSat Q c) :
    ScriptSat Q { s with commands := s.commands ++ cs } := by
  refine ScriptSat.mk _ ?_ h.constants h.macros
  intro c hc
  rcases List.mem_append.mp hc with hc | hc
  · exact h.commands c hc
  · exact hcs c hc

theorem nodeClosed_true : NodeClosed (fun _ => True) :=
  ⟨trivial, fun _ => trivial, fun _ => trivial, fun _ => trivial, fun _ => trivial,
    fun _ => trivial, fun _ => trivial, fun _ => trivial, fun _ _ _ => trivial,
    fun _ _ _ _ _ => trivial⟩

/-- A successful `parseExpression` leaves the tables alone and consumes a
non-empty prefix of the tokens. -/
theorem parseExpression_frame {n : Nat} {p p1 : Parser} {s : Script} {e : ExpressionNode}
    (h : parseExpression n p s = .ok (e, p1)) :
    p1.tables = p.tables ∧ ∃ c, c ≠ [] ∧ p.pending = c ++ p1.pending := by
  obtain ⟨ht, ⟨c, hne, hc⟩, _⟩ :=
    parseExpression_post nodeClosed_true s (fun _ _ _ => trivial) n p e p1 h
  exact ⟨ht, c, hne rfl, hc⟩

/-- The optional comma after an argument in `parseCommand`. -/
theorem afterComma_frame {tok : Token} {q q4 : Parser}
    (h : (if tok.typ = .CommaToken then
            match q.advance with
            | .error e => (.error e : Except Error Parser)
            | .ok (_, p) => .ok p
          else .ok q) = .ok q4) :
    q4.tables = q.tables ∧ ∃ c4, q.pending = c4 ++ q4.pending := by
  split at h
  · cases hadv : q.advance with
    | error e => rw [hadv] at h; cases h
    | ok r =>
      obtain ⟨tok5, q5⟩ := r
      rw [hadv] at h
      simp only [Except.ok.injEq] at h
      subst h
      obtain ⟨hpend5, htab5⟩ := advance_ok hadv
      exact ⟨htab5, [tok5], by rw [hpend5]; rfl⟩
  · simp only [Except.ok.injEq] at h
    subst h
    exact ⟨rfl, [], rfl⟩

/-- What the loop of `parseCommand` guarantees when it succeeds. -/
theorem parseCommandLoop_frame :
    ∀ (n : Nat) (p : Parser) (s : Script) (cmd : CommandNode) (p1 : Parser) (s1 : Script),
      parseCommandLoop n p s cmd = .ok (p1, s1) →
      NodeFrame p s p1 s1 ∧ s1.labels = s.labels ∧ s1.macros = s.macros
        ∧ s1.constants = s.constants := by
  intro n
  induction n with
  | zero =>
    intro p s cmd p1 s1 h
    rw [parseCommandLoop] at h
    cases h
  | succ n ih =>
    intro p s cmd p1 s1 h
    rw [parseCommandLoop] at h
    cases hpeek : p.peek with
    | error e => rw [hpeek] at h; cases h
    | ok r =>
      obtain ⟨tok, q⟩ := r
      rw [hpeek] at h
      simp only [] at h
      obtain ⟨_, hpend, htab⟩ := peek_ok hpeek
      by_cases hend : tok.typ = .NewlineToken ∨ tok.typ = .EOF
      · rw [if_pos hend] at h
        cases hadv : q.advance with
        | error e => rw [hadv] at h; cases h
        | ok r2 =>
          obtain ⟨tok2, q2⟩ := r2
          rw [hadv] at h
          simp only [Except.ok.injEq, Prod.mk.injEq] at h
          obtain ⟨rfl, rfl⟩ := h
          obtain ⟨hpend2, htab2⟩ := advance_ok hadv
          refine ⟨⟨htab2.trans htab, ⟨[tok2], by simp, ?_⟩, ?_⟩, ?_, ?_, ?_⟩
          · rw [← hpend, hpend2]; rfl
          · split
            · exact ⟨[cmd], rfl⟩
            · exact ⟨[], by simp⟩
          · split <;> rfl
          · split <;> rfl
          · split <;> rfl
      · rw [if_neg hend] at h
        by_cases hnone : cmd.typ = CmdNone
        · rw [if_pos hnone] at h
          cases hadv : q.advance with
          | error e => rw [hadv] at h; cases h
          | ok r2 =>
            obtain ⟨tok2, q2⟩ := r2
            rw [hadv] at h
            simp only [] at h
            obtain ⟨hpend2, htab2⟩ := advance_ok hadv
            cases hct : q2.getCommandType tok.Value with
            | none =>
              rw [hct] at h
              simp only [] at h
              cases hm : s.macros.lookup tok.Value with
              | none => rw [hm] at h; cases h
              | some m =>
                rw [hm] at h
                simp only [] at h
                obtain ⟨⟨ht, ⟨c, _, hc⟩, ⟨cs, hcs⟩⟩, hl, hmac, hk⟩ := ih q2 _ cmd p1 s1 h
                refine ⟨⟨ht.trans (htab2.trans htab), ⟨tok2 :: c, by simp, ?_⟩, ?_⟩,
                  hl, hmac, hk⟩
                · rw [← hpend, hpend2, hc]; rfl
                · exact ⟨m.commands ++ cs, by rw [hcs]; simp⟩
            | some cmdType =>
              rw [hct] at h
              simp only [] at h
              obtain ⟨⟨ht, ⟨c, _, hc⟩, hcs⟩, hl, hmac, hk⟩ := ih q2 s _ p1 s1 h
              refine ⟨⟨ht.trans (htab2.trans htab), ⟨tok2 :: c, by simp, ?_⟩, hcs⟩,
                hl, hmac, hk⟩
              rw [← hpend, hpend2, hc]; rfl
        · rw [if_neg hnone] at h
          cases hexpr : parseExpression n q s with
          | error e => rw [hexpr] at h; cases h
          | ok r2 =>
            obtain ⟨argNode, q2⟩ := r2
            rw [hexpr] at h
            simp only [] at h
            obtain ⟨ht2, c, hne, hc⟩ := parseExpression_frame hexpr
            cases hpeek3 : q2.peek with
            | error e => rw [hpeek3] at h; cases h
            | ok r3 =>
              obtain ⟨tok3, q3⟩ := r3
              rw [hpeek3] at h
              simp only [] at h
              obtain ⟨_, hpend3, htab3⟩ := peek_ok hpeek3
              split at h
              · cases h
              · next q4 hcomma =>
                obtain ⟨htab4, c4, hc4⟩ := afterComma_frame hcomma
                have hcons : ∃ c', c' ≠ [] ∧ p.pending = c' ++ q4.pending := by
                  refine ⟨c ++ c4, ?_, ?_⟩
                  · intro hnil
                    exact hne (List.append_eq_nil.mp hnil).1
                  · rw [← hpend, hc, ← hpend3, hc4]; simp
                have htabs : q4.tables = p.tables :=
                  htab4.trans (htab3.trans (ht2.trans htab))
                split at h
                · simp only [Except.ok.injEq, Prod.mk.injEq] at h
                  obtain ⟨rfl, rfl⟩ := h
                  exact ⟨⟨htabs, hcons, ⟨[], by simp⟩⟩, rfl, rfl, rfl⟩
                · obtain ⟨⟨ht, ⟨c5, _, hc5⟩, hcs⟩, hl, hmac, hk⟩ := ih q4 s _ p1 s1 h
                  obtain ⟨c', hne', hc'⟩ := hcons
                  refine ⟨⟨ht.trans htabs, ⟨c' ++ c5, ?_, ?_⟩, hcs⟩, hl, hmac, hk⟩
                  · intro hnil
                    exact hne' (List.append_eq_nil.mp hnil).1
                  · rw [hc', hc5]; simp

/-- The loop of `parseCommand` keeps the property `Q` of the script, given
that the arguments collected so far have it. -/
theorem parseCommandLoop_sat {Q : ExpressionNode → Prop} (hQ : NodeClosed Q) :
    ∀ (n : Nat) (p : Parser) (s : Script) (cmd : CommandNode) (p1 : Parser) (s1 : Script),
      parseCommandLoop n p s cmd = .ok (p1, s1) →
      ScriptSat Q s → (∀ a ∈ cmd.Args, Q a ∧ a ≠ .nil) → ScriptSat Q s1 := by
  intro n
  induction n with
  | zero =>
    intro p s cmd p1 s1 h
    rw [parseCommandLoop] at h
    cases h
  | succ n ih =>
    intro p s cmd p1 s1 h hs hargs
    rw [parseCommandLoop] at h
    cases hpeek : p.peek with
    | error e => rw [hpeek] at h; cases h
    | ok r =>
      obtain ⟨tok, q⟩ := r
      rw [hpeek] at h
      simp only [] at h
      by_cases hend : tok.typ = .NewlineToken ∨ tok.typ = .EOF
      · rw [if_pos hend] at h
        cases hadv : q.advance with
        | error e => rw [hadv] at h; cases h
        | ok r2 =>
          obtain ⟨tok2, q2⟩ := r2
          rw [hadv] at h
          simp only [Except.ok.injEq, Prod.mk.injEq] at h
          obtain ⟨rfl, rfl⟩ := h
          split
          · next hne =>
            apply ScriptSat_append hs
            intro c hc
            simp only [List.mem_singleton] at hc
            subst hc
            exact ⟨hne, hargs⟩
          · exact hs
      · rw [if_neg hend] at h
        by_cases hnone : cmd.typ = CmdNone
        · rw [if_pos hnone] at h
          cases hadv : q.advance with
          | error e => rw [hadv] at h; cases h
          | ok r2 =>
            obtain ⟨tok2, q2⟩ := r2
            rw [hadv] at h
            simp only [] at h
            cases hct : q2.getCommandType tok.Value with
            | none =>
              rw [hct] at h
              simp only [] at h
              cases hm : s.macros.lookup tok.Value with
              | none => rw [hm] at h; cases h
              | some m =>
                rw [hm] at h
                simp only [] at h
                refine ih q2 _ cmd p1 s1 h ?_ hargs
                apply ScriptSat_append hs
                exact (hs.macros _ m (lookup_mem _ _ _ hm)).commands
            | some cmdType =>
              rw [hct] at h
              simp only [] at h
              exact ih q2 s _ p1 s1 h hs hargs
        · rw [if_neg hnone] at h
          cases hexpr : parseExpression n q s with
          | error e => rw [hexpr] at h; cases h
          | ok r2 =>
            obtain ⟨argNode, q2⟩ := r2
            rw [hexpr] at h
            simp only [] at h
            have hq : Q argNode :=
              (parseExpression_post hQ s hs.constants n q argNode q2 hexpr).2.2
            cases hpeek3 : q2.peek with
            | error e => rw [hpeek3] at h; cases h
            | ok r3 =>
              obtain ⟨tok3, q3⟩ := r3
              rw [hpeek3] at h
              simp only [] at h
              split at h
              · cases h
              · next q4 hcomma =>
                split at h
                · simp only [Except.ok.injEq, Prod.mk.injEq] at h
                  obtain ⟨rfl, rfl⟩ := h
                  exact hs
                · next hnn =>
                  refine ih q4 s _ p1 s1 h hs ?_
                  intro a ha
                  simp only [List.mem_append, List.mem_singleton] at ha
                  rcases ha with ha | ha
                  · exact hargs a ha
                  · subst ha; exact ⟨hq, hnn⟩

theorem parseConst_post {Q : ExpressionNode → Prop} (hQ : NodeClosed Q) {n : Nat}
    {p p1 : Parser} {s s1 : Script} (h : parseConst n p s = .ok (p1, s1)) :
    NodeFrame p s p1 s1 ∧ s1.labels = s.labels ∧ s1.commands = s.commands
      ∧ (ScriptSat Q s → ScriptSat Q s1) := by
  unfold parseConst at h
  cases hadv : p.advance with
  | error e => rw [hadv] at h; cases h
  | ok r =>
    obtain ⟨tok, q⟩ := r
    rw [hadv] at h
    simp only [] at h
    obtain ⟨hpend, htab⟩ := advance_ok hadv
    cases hadv2 : q.advance with
    | error e => rw [hadv2] at h; cases h
    | ok r2 =>
      obtain ⟨tok2, q2⟩ := r2
      rw [hadv2] at h
      simp only [] at h
      obtain ⟨hpend2, htab2⟩ := advance_ok hadv2
      cases hexpr : parseExpression n q2 s with
      | error e => rw [hexpr] at h; cases h
      | ok r3 =>
        obtain ⟨expr, q3⟩ := r3
        rw [hexpr] at h
        simp only [Except.ok.injEq, Prod.mk.injEq] at h
        obtain ⟨rfl, rfl⟩ := h
        obtain ⟨ht3, c, _, hc⟩ := parseExpression_frame hexpr
        refine ⟨⟨ht3.trans (htab2.trans htab), ⟨tok :: tok2 :: c, by simp, ?_⟩, ⟨[], by simp⟩⟩,
          rfl, rfl, ?_⟩
        · rw [hpend, hpend2, hc]; rfl
        · intro hs
          refine ScriptSat.mk _ hs.commands ?_ hs.macros
          intro name e hmem
          simp only [List.mem_cons, Prod.mk.injEq] at hmem
          rcases hmem with ⟨_, rfl⟩ | hmem
          · exact (parseExpression_post hQ s hs.constants n q2 e q3 hexpr).2.2
          · exact hs.constants name e hmem

theorem parseLabelDeclaration_post {Q : ExpressionNode → Prop}
    {p p1 : Parser} {s s1 : Script} (h : parseLabelDeclaration p s = .ok (p1, s1)) :
    NodeFrame p s p1 s1
      ∧ (∃ t1 t2, p.pending = t1 :: t2 :: p1.pending
          ∧ s1.labels = (t1.Value, s.PC) :: s.labels ∧ s1.commands = s.commands)
      ∧ (ScriptSat Q s → ScriptSat Q s1) := by
  unfold parseLabelDeclaration at h
  cases hadv : p.advance with
  | error e => rw [hadv] at h; cases h
  | ok r =>
    obtain ⟨tok, q⟩ := r
    rw [hadv] at h
    simp only [] at h
    obtain ⟨hpend, htab⟩ := advance_ok hadv
    cases hadv2 : q.advance with
    | error e => rw [hadv2] at h; cases h
    | ok r2 =>
      obtain ⟨tok2, q2⟩ := r2
      rw [hadv2] at h
      simp only [Except.ok.injEq, Prod.mk.injEq] at h
      obtain ⟨rfl, rfl⟩ := h
      obtain ⟨hpend2, htab2⟩ := advance_ok hadv2
      refine ⟨⟨htab2.trans htab, ⟨[tok, tok2], by simp, ?_⟩, ⟨[], by simp⟩⟩,
        ⟨tok, tok2, ?_, rfl, rfl⟩, ?_⟩
      · rw [hpend, hpend2]; rfl
      · rw [hpend, hpend2]
      · intro hs
        exact ScriptSat.mk _ hs.commands hs.constants hs.macros

theorem isLabelDeclaration_iff (toks : List Token) :
    isLabelDeclaration toks = true ↔
      (toks.head?.map (fun t => t.typ) = some .IdentToken
        ∧ (toks.get? 1).map (fun t => t.typ) = some .ColonToken) := by
  match toks with
  | [] => simp [isLabelDeclaration]
  | [t] => simp [isLabelDeclaration]
  | t1 :: t2 :: r => simp [isLabelDeclaration]

theorem parseIdent_post {Q : ExpressionNode → Prop} (hQ : NodeClosed Q) {n : Nat}
    {p p1 : Parser} {s s1 : Script} (h : parseIdent n p s = .ok (p1, s1))
    (hid : p.pending.head?.map (fun t => t.typ) = some .IdentToken) :
    NodeFrame p s p1 s1 ∧ LabelEffect p s p1 s1 ∧ (ScriptSat Q s → ScriptSat Q s1) := by
  unfold parseIdent at h
  cases hpeek : p.peekAhead 1 with
  | error e => rw [hpeek] at h; cases h
  | ok r =>
    obtain ⟨tok, q⟩ := r
    rw [hpeek] at h
    simp only [] at h
    obtain ⟨hget, hpend, htab⟩ := peekAhead_ok (by decide) hpeek
    by_cases hcolon : tok.typ = .ColonToken
    · rw [if_pos hcolon] at h
      have hdecl : isLabelDeclaration p.pending = true := by
        rw [isLabelDeclaration_iff]
        exact ⟨hid, by rw [hget]; simp [hcolon]⟩
      obtain ⟨⟨ht, hc, hcs⟩, heff, hsat⟩ := parseLabelDeclaration_post (Q := Q) h
      rw [hpend] at hc heff
      refine ⟨⟨ht.trans htab, hc, hcs⟩, ⟨fun _ => heff, ?_⟩, hsat⟩
      intro hno
      rw [hdecl] at hno
      cases hno
    · rw [if_neg hcolon] at h
      have hdecl : isLabelDeclaration p.pending = false := by
        cases hd : isLabelDeclaration p.pending with
        | false => rfl
        | true =>
          rw [isLabelDeclaration_iff, hget] at hd
          simp only [Option.map_some', Option.some.injEq] at hd
          exact absurd hd.2 hcolon
      unfold parseCommand at h
      obtain ⟨⟨ht, hc, hcs⟩, hl, _, _⟩ := parseCommandLoop_frame n q s _ p1 s1 h
      rw [hpend] at hc
      refine ⟨⟨ht.trans htab, hc, hcs⟩, ⟨?_, fun _ => hl⟩, ?_⟩
      · intro hyes
        rw [hdecl] at hyes
        cases hyes
      · intro hs
        exact parseCommandLoop_sat hQ n q s _ p1 s1 h hs (by intro a ha; cases ha)

theorem isLabelDeclaration_false_of_head {toks : List Token} {tok : Token}
    (h : toks.head? = some tok) (hne : tok.typ ≠ .IdentToken) :
    isLabelDeclaration toks = false := by
  cases hd : isLabelDeclaration toks with
  | false => rfl
  | true =>
    rw [isLabelDeclaration_iff, h] at hd
    simp only [Option.map_some', Option.some.injEq] at hd
    exact absurd hd.1 hne

theorem LabelEffect_of_not_decl {p p1 : Parser} {s s1 : Script}
    (hd : isLabelDeclaration p.pending = false) (hl : s1.labels = s.labels) :
    LabelEffect p s p1 s1 := by
  refine ⟨?_, fun _ => hl⟩
  intro hyes
  rw [hd] at hyes
  cases hyes

/-- What the node parsers guarantee when they succeed. -/
theorem node_parsers_post {Q : ExpressionNode → Prop} (hQ : NodeClosed Q) (n : Nat) :
    (∀ p sub p1 s1, parseMacroLoop n p sub = .ok (p1, s1) →
      p1.tables = p.tables ∧ (∃ c, c ≠ [] ∧ p.pending = c ++ p1.pending)
        ∧ (ScriptSat Q sub → ScriptSat Q s1))
    ∧ (∀ p s p1 s1, parseMacro n p s = .ok (p1, s1) →
      NodeFrame p s p1 s1 ∧ s1.labels = s.labels ∧ s1.commands = s.commands
        ∧ (ScriptSat Q s → ScriptSat Q s1))
    ∧ (∀ p s endTok b p1 s1, endTok ≠ .IdentToken →
      parseNextNode n p s endTok = .ok (b, p1, s1) →
      NodeFrame p s p1 s1 ∧ LabelEffect p s p1 s1 ∧ (ScriptSat Q s → ScriptSat Q s1)) := by
  induction n with
  | zero =>
    refine ⟨?_, ?_, ?_⟩
    · intro p sub p1 s1 h; rw [parseMacroLoop] at h; cases h
    · intro p s p1 s1 h; rw [parseMacro] at h; cases h
    · intro p s endTok b p1 s1 _ h; rw [parseNextNode] at h; cases h
  | succ n ih =>
    obtain ⟨ihL, ihM, ihN⟩ := ih
    refine ⟨?_, ?_, ?_⟩
    · -- parseMacroLoop
      intro p sub p1 s1 h
      rw [parseMacroLoop] at h
      cases hnode : parseNextNode n p sub .EndMacroToken with
      | error e => rw [hnode] at h; cases h
      | ok r =>
        obtain ⟨b, q, sub2⟩ := r
        rw [hnode] at h
        simp only [] at h
        obtain ⟨⟨ht, ⟨c, hne, hc⟩, _⟩, _, hsat⟩ := ihN p sub _ b q sub2 (by decide) hnode
        cases b with
        | true =>
          simp only [if_true] at h
          obtain ⟨ht2, ⟨c2, _, hc2⟩, hsat2⟩ := ihL q sub2 p1 s1 h
          refine ⟨ht2.trans ht, ⟨c ++ c2, ?_, ?_⟩, fun hs => hsat2 (hsat hs)⟩
          · intro hnil
            exact hne (List.append_eq_nil.mp hnil).1
          · rw [hc, hc2]; simp
        | false =>
          simp only [Bool.false_eq_true, if_false, Except.ok.injEq, Prod.mk.injEq] at h
          obtain ⟨rfl, rfl⟩ := h
          exact ⟨ht, ⟨c, hne, hc⟩, hsat⟩
    · -- parseMacro
      intro p s p1 s1 h
      rw [parseMacro] at h
      cases hadv : p.advance with
      | error e => rw [hadv] at h; cases h
      | ok r =>
        obtain ⟨tok, q⟩ := r
        rw [hadv] at h
        simp only [] at h
        obtain ⟨hpend, htab⟩ := advance_ok hadv
        cases hadv2 : q.advance with
        | error e => rw [hadv2] at h; cases h
        | ok r2 =>
          obtain ⟨ident, q2⟩ := r2
          rw [hadv2] at h
          simp only [] at h
          obtain ⟨hpend2, htab2⟩ := advance_ok hadv2
          cases hloop : parseMacroLoop n q2 newScript with
          | error e => rw [hloop] at h; cases h
          | ok r3 =>
            obtain ⟨q3, sub⟩ := r3
            rw [hloop] at h
            simp only [Except.ok.injEq, Prod.mk.injEq] at h
            obtain ⟨rfl, rfl⟩ := h
            obtain ⟨ht3, ⟨c, _, hc⟩, hsat⟩ := ihL q2 newScript _ sub hloop
            refine ⟨⟨ht3.trans (htab2.trans htab), ⟨tok :: ident :: c, by simp, ?_⟩,
              ⟨[], by simp⟩⟩, rfl, rfl, ?_⟩
            · rw [hpend, hpend2, hc]; rfl
            · intro hs
              refine ScriptSat.mk _ hs.commands hs.constants ?_
              intro name m hmem
              simp only [List.mem_cons, Prod.mk.injEq] at hmem
              rcases hmem with ⟨_, rfl⟩ | hmem
              · exact hsat (ScriptSat_newScript Q)
              · exact hs.macros name m hmem
    · -- parseNextNode
      intro p s endTok b p1 s1 hend h
      rw [parseNextNode] at h
      cases hpeek : p.peek with
      | error e => rw [hpeek] at h; cases h
      | ok r =>
        obtain ⟨tok, q⟩ := r
        rw [hpeek] at h
        simp only [] at h
        obtain ⟨hhead, hpend, htab⟩ := peek_ok hpeek
        by_cases hte : tok.typ = endTok
        · rw [if_pos hte] at h
          cases hadv : q.advance with
          | error e => rw [hadv] at h; cases h
          | ok r2 =>
            obtain ⟨tok2, q2⟩ := r2
            rw [hadv] at h
            simp only [Except.ok.injEq, Prod.mk.injEq] at h
            obtain ⟨rfl, rfl, rfl⟩ := h
            obtain ⟨hpend2, htab2⟩ := advance_ok hadv
            refine ⟨⟨htab2.trans htab, ⟨[tok2], by simp, ?_⟩, ⟨[], by simp⟩⟩, ?_, id⟩
            · rw [← hpend, hpend2]; rfl
            · exact LabelEffect_of_not_decl
                (isLabelDeclaration_false_of_head hhead (by rw [hte]; exact hend)) rfl
        · rw [if_neg hte] at h
          cases htt : tok.typ with
          | MacroToken =>
            rw [htt] at h
            simp only [] at h
            cases hm : parseMacro n q s with
            | error e => rw [hm] at h; cases h
            | ok r2 =>
              obtain ⟨q2, s2⟩ := r2
              rw [hm] at h
              simp only [Except.ok.injEq, Prod.mk.injEq] at h
              obtain ⟨rfl, rfl, rfl⟩ := h
              obtain ⟨⟨ht, hc, hcs⟩, hl, _, hsat⟩ := ihM q s _ _ hm
              rw [hpend] at hc
              exact ⟨⟨ht.trans htab, hc, hcs⟩, LabelEffect_of_not_decl
                (isLabelDeclaration_false_of_head hhead (by rw [htt]; decide)) hl, hsat⟩
          | ConstToken =>
            rw [htt] at h
            simp only [] at h
            cases hm : parseConst n q s with
            | error e => rw [hm] at h; cases h
            | ok r2 =>
              obtain ⟨q2, s2⟩ := r2
              rw [hm] at h
              simp only [Except.ok.injEq, Prod.mk.injEq] at h
              obtain ⟨rfl, rfl, rfl⟩ := h
              obtain ⟨⟨ht, hc, hcs⟩, hl, _, hsat⟩ := parseConst_post hQ hm
              rw [hpend] at hc
              exact ⟨⟨ht.trans htab, hc, hcs⟩, LabelEffect_of_not_decl
                (isLabelDeclaration_false_of_head hhead (by rw [htt]; decide)) hl, hsat⟩
          | IdentToken =>
            rw [htt] at h
            simp only [] at h
            cases hm : parseIdent n q s with
            | error e => rw [hm] at h; cases h
            | ok r2 =>
              obtain ⟨q2, s2⟩ := r2
              rw [hm] at h
              simp only [Except.ok.injEq, Prod.mk.injEq] at h
              obtain ⟨rfl, rfl, rfl⟩ := h
              obtain ⟨⟨ht, hc, hcs⟩, heff, hsat⟩ := parseIdent_post hQ hm
                (by rw [hpend, hhead]; simp [htt])
              rw [hpend] at hc
              refine ⟨⟨ht.trans htab, hc, hcs⟩, ?_, hsat⟩
              unfold LabelEffect at heff ⊢
              rw [hpend] at heff
              exact heff
          | NewlineToken =>
            rw [htt] at h
            simp only [] at h
            cases hadv : q.advance with
            | error e => rw [hadv] at h; cases h
            | ok r2 =>
              obtain ⟨tok2, q2⟩ := r2
              rw [hadv] at h
              simp only [Except.ok.injEq, Prod.mk.injEq] at h
              obtain ⟨rfl, rfl, rfl⟩ := h
              obtain ⟨hpend2, htab2⟩ := advance_ok hadv
              refine ⟨⟨htab2.trans htab, ⟨[tok2], by simp, ?_⟩, ⟨[], by simp⟩⟩, ?_, id⟩
              · rw [← hpend, hpend2]; rfl
              · exact LabelEffect_of_not_decl
                  (isLabelDeclaration_false_of_head hhead (by rw [htt]; decide)) rfl
          | _ =>
            rw [htt] at h
            simp only [] at h
            cases h

theorem parseNextNode_post {Q : ExpressionNode → Prop} (hQ : NodeClosed Q) {n : Nat}
    {p p1 : Parser} {s s1 : Script} {endTok : TokenType} {b : Bool}
    (hend : endTok ≠ .IdentToken) (h : parseNextNode n p s endTok = .ok (b, p1, s1)) :
    NodeFrame p s p1 s1 ∧ LabelEffect p s p1 s1 ∧ (ScriptSat Q s → ScriptSat Q s1) :=
  (node_parsers_post hQ n).2.2 p s endTok b p1 s1 hend h

theorem nodeClosed_noAddress : NodeClosed noAddress := by
  refine ⟨rfl, fun _ => rfl, fun _ => rfl, fun _ => rfl, fun _ => rfl, fun _ => rfl,
    fun _ => rfl, fun _ => rfl, ?_, ?_⟩
  · intro op e h
    unfold noAddress at h ⊢
    simpa [addresses] using h
  · intro l op r hl hr
    unfold noAddress at hl hr ⊢
    simp [addresses, hl, hr]

theorem parseNextNode_labelsInRange {n : Nat} {p p1 : Parser} {s s1 : Script} {b : Bool}
    {endTok : TokenType} (hend : endTok ≠ .IdentToken)
    (h : parseNextNode n p s endTok = .ok (b, p1, s1))
    (hs : LabelsInRange s) : LabelsInRange s1 := by
  obtain ⟨⟨_, _, ⟨cs, hcs⟩⟩, ⟨hdecl, hno⟩, _⟩ := parseNextNode_post nodeClosed_true hend h
  intro name v hmem
  cases hd : isLabelDeclaration p.pending with
  | true =>
    obtain ⟨t1, t2, _, hl, hc⟩ := hdecl hd
    rw [hl] at hmem
    rw [hc]
    simp only [List.mem_cons, Prod.mk.injEq] at hmem
    rcases hmem with ⟨_, rfl⟩ | hmem
    · unfold Script.PC
      omega
    · exact hs name v hmem
  | false =>
    rw [hno hd] at hmem
    obtain ⟨h0, h1⟩ := hs name v hmem
    refine ⟨h0, ?_⟩
    rw [hcs, List.length_append]
    push_cast
    omega

/-- What the loop of `Parse` guarantees when it succeeds. -/
theorem parseLoop_post {Q : ExpressionNode → Prop} (hQ : NodeClosed Q) :
    ∀ (n : Nat) (p p1 : Parser) (s s1 : Script), parseLoop n p s = .ok (p1, s1) →
      (ScriptSat Q s → ScriptSat Q s1) ∧ (LabelsInRange s → LabelsInRange s1)
        ∧ (∃ cs, s1.commands = s.commands ++ cs) := by
  intro n
  induction n with
  | zero => intro p p1 s s1 h; rw [parseLoop] at h; cases h
  | succ n ih =>
    intro p p1 s s1 h
    rw [parseLoop] at h
    cases hnode : parseNextNode n p s .EOF with
    | error e => rw [hnode] at h; cases h
    | ok r =>
      obtain ⟨b, q, s2⟩ := r
      rw [hnode] at h
      simp only [] at h
      obtain ⟨⟨_, _, ⟨cs, hcs⟩⟩, _, hsat⟩ := parseNextNode_post hQ (by decide) hnode
      have hlr := parseNextNode_labelsInRange (by decide) hnode
      cases b with
      | true =>
        simp only [if_true] at h
        obtain ⟨hsat2, hlr2, ⟨cs2, hcs2⟩⟩ := ih q p1 s2 s1 h
        exact ⟨fun hs => hsat2 (hsat hs), fun hs => hlr2 (hlr hs),
          ⟨cs ++ cs2, by rw [hcs2, hcs]; simp⟩⟩
      | false =>
        simp only [Bool.false_eq_true, if_false, Except.ok.injEq, Prod.mk.injEq] at h
        obtain ⟨rfl, rfl⟩ := h
        exact ⟨hsat, hlr, ⟨cs, hcs⟩⟩

theorem replaceExpr_addresses (s : Script) :
    ∀ (e : ExpressionNode), noAddress e →
      ∀ addr ∈ addresses (replaceLabelNodesInExpression s e).1, ∃ name, (name, addr) ∈ s.labels := by
  intro e
  induction e with
  | BinaryOpNode l op r ihl ihr =>
    intro hno addr hmem
    unfold noAddress at hno
    simp only [addresses, List.append_eq_nil] at hno
    unfold replaceLabelNodesInExpression at hmem
    rcases hl1 : replaceLabelNodesInExpression s l with ⟨l1, el⟩
    have hl2 := ihl hno.1
    rw [hl1] at hmem hl2
    cases el with
    | some e =>
      simp only [addresses, List.mem_append] at hmem
      rcases hmem with hmem | hmem
      · exact hl2 addr hmem
      · rw [hno.2] at hmem; cases hmem
    | none =>
      rcases hr1 : replaceLabelNodesInExpression s r with ⟨r1, er⟩
      have hr2 := ihr hno.2
      rw [hr1] at hmem hr2
      simp only [addresses, List.mem_append] at hmem
      rcases hmem with hmem | hmem
      · exact hl2 addr hmem
      · exact hr2 addr hmem
  | LabelNode name =>
    intro _ addr hmem
    unfold replaceLabelNodesInExpression at hmem
    cases hk : s.labels.lookup name with
    | none => rw [hk] at hmem; simp [addresses] at hmem
    | some pc =>
      rw [hk] at hmem
      simp only [addresses, List.mem_singleton] at hmem
      subst hmem
      exact ⟨name, lookup_mem _ _ _ hk⟩
  | AddressNode a =>
    intro hno
    simp [noAddress, addresses] at hno
  | UnaryOpNode op e _ =>
    intro hno addr hmem
    simp only [replaceLabelNodesInExpression] at hmem
    unfold noAddress at hno
    rw [hno] at hmem
    cases hmem
  | _ =>
    intro _ addr hmem
    simp [replaceLabelNodesInExpression, addresses] at hmem

theorem replaceArgs_addresses (s : Script) :
    ∀ (args : List ExpressionNode), (∀ a ∈ args, noAddress a) →
      ∀ a ∈ (replaceLabelNodesInArgs s args).1, ∀ addr ∈ addresses a,
        ∃ name, (name, addr) ∈ s.labels := by
  intro args
  induction args with
  | nil =>
    intro _ a ha
    simp [replaceLabelNodesInArgs] at ha
  | cons x rest ih =>
    intro hno a ha addr hmem
    have hx := replaceExpr_addresses s x (hno x (List.mem_cons_self _ _))
    have hrest : ∀ a ∈ rest, noAddress a := fun a h => hno a (List.mem_cons_of_mem _ h)
    unfold replaceLabelNodesInArgs at ha
    rcases hx1 : replaceLabelNodesInExpression s x with ⟨x1, ex⟩
    rw [hx1] at ha hx
    cases ex with
    | some e =>
      simp only [List.mem_cons] at ha
      rcases ha with rfl | ha
      · exact hx addr hmem
      · have := hrest a ha
        unfold noAddress at this
        rw [this] at hmem
        cases hmem
    | none =>
      rcases hr1 : replaceLabelNodesInArgs s rest with ⟨rest1, er⟩
      have ih2 := ih hrest
      rw [hr1] at ha ih2
      simp only [List.mem_cons] at ha
      rcases ha with rfl | ha
      · exact hx addr hmem
      · exact ih2 a ha addr hmem

theorem replaceCommands_addresses (s : Script) :
    ∀ (cs : List CommandNode), (∀ c ∈ cs, ∀ a ∈ c.Args, noAddress a) →
      ∀ c ∈ (replaceLabelNodesInCommands s cs).1, ∀ a ∈ c.Args, ∀ addr ∈ addresses a,
        ∃ name, (name, addr) ∈ s.labels := by
  intro cs
  induction cs with
  | nil =>
    intro _ c hc
    simp [replaceLabelNodesInCommands] at hc
  | cons x rest ih =>
    intro hno c hc a ha addr hmem
    have hx := replaceArgs_addresses s x.Args (hno x (List.mem_cons_self _ _))
    have hrest : ∀ c ∈ rest, ∀ a ∈ c.Args, noAddress a :=
      fun c h => hno c (List.mem_cons_of_mem _ h)
    unfold replaceLabelNodesInCommands at hc
    rcases hx1 : replaceLabelNodesInArgs s x.Args with ⟨x1, ex⟩
    rw [hx1] at hc hx
    cases ex with
    | some e =>
      simp only [List.mem_cons] at hc
      rcases hc with rfl | hc
      · exact hx a ha addr hmem
      · have := hrest c hc a ha
        unfold noAddress at this
        rw [this] at hmem
        cases hmem
    | none =>
      rcases hr1 : replaceLabelNodesInCommands s rest with ⟨rest1, er⟩
      have ih2 := ih hrest
      rw [hr1] at hc ih2
      simp only [List.mem_cons] at hc
      rcases hc with rfl | hc
      · exact hx a ha addr hmem
      · exact ih2 c hc a ha addr hmem

theorem replaceCommands_length (s : Script) :
    ∀ (cs : List CommandNode), (replaceLabelNodesInCommands s cs).1.length = cs.length := by
  intro cs
  induction cs with
  | nil => rfl
  | cons x rest ih =>
    unfold replaceLabelNodesInCommands
    rcases hx1 : replaceLabelNodesInArgs s x.Args with ⟨x1, ex⟩
    cases ex with
    | some e => rfl
    | none =>
      rcases hr1 : replaceLabelNodesInCommands s rest with ⟨rest1, er⟩
      rw [hr1] at ih
      simp only [List.length_cons, ih]

theorem ParseWith_address_range (p : Parser) (fuel : Nat) (script : Script) (err : Option Error)
    (h : p.ParseWith fuel = (some script, err)) :
    ∀ c ∈ script.commands, ∀ a ∈ c.Args, ∀ addr ∈ addresses a,
      0 ≤ addr ∧ addr ≤ (script.commands.length : Int) := by
  unfold Parser.ParseWith at h
  cases hloop : parseLoop fuel p newScript with
  | error e => rw [hloop] at h; cases h
  | ok r =>
    obtain ⟨p1, raw⟩ := r
    rw [hloop] at h
    simp only [] at h
    obtain ⟨hsat, hlr, _⟩ := parseLoop_post nodeClosed_noAddress fuel p p1 newScript raw hloop
    have hsat1 := hsat (ScriptSat_newScript _)
    have hlr1 : LabelsInRange raw := hlr (by intro n v hm; cases hm)
    unfold replaceLabelNodes at h
    have hlen := replaceCommands_length raw raw.commands
    have haddr := replaceCommands_addresses raw raw.commands
      (fun c hc a ha => ((hsat1.commands c hc).2 a ha).1)
    rcases hr : replaceLabelNodesInCommands raw raw.commands with ⟨cs, e2⟩
    rw [hr] at h hlen haddr
    simp only [Prod.mk.injEq, Option.some.injEq] at h
    obtain ⟨rfl, _⟩ := h
    intro c hc a ha addr hmem
    obtain ⟨name, hl⟩ := haddr c hc a ha addr hmem
    obtain ⟨h0, h1⟩ := hlr1 name addr hl
    simp only [] at hlen ⊢
    rw [hlen]
    exact ⟨h0, h1⟩

/-- C6: when `Parse` succeeds, every AddressNode occurring at any depth in an
argument of a command of the returned Script has an address between 0 and
`len(commands)`: it indexes a command or is the end-of-script address. -/
theorem C6_address_range (p : Parser) (script : Script)
    (h : p.Parse = (some script, none)) :
    ∀ c ∈ script.commands, ∀ a ∈ c.Args, ∀ addr ∈ addresses a,
      0 ≤ addr ∧ addr ≤ script.EndOfScript :=
  ParseWith_address_range p _ script none h

theorem lookup_cons_ne {α : Type} (l : List (String × α)) (k k1 : String) (v : α)
    (h : k1 ≠ k) : ((k1, v) :: l).lookup k = l.lookup k := by
  simp only [List.lookup]
  have : (k == k1) = false := by
    simpa using fun hh => h hh.symm
  rw [this]

theorem lookup_cons_self {α : Type} (l : List (String × α)) (k : String) (v : α) :
    ((k, v) :: l).lookup k = some v := by
  simp [List.lookup]

/-- Every state of the trace holds a prefix of the final command list. -/
theorem parseLoopTrace_prefix :
    ∀ (n : Nat) (p p1 : Parser) (s raw : Script), parseLoop n p s = .ok (p1, raw) →
      ∀ k st, (parseLoopTrace n p s).get? k = some st → ∃ cs, raw.commands = st.2 ++ cs := by
  intro n
  induction n with
  | zero => intro p p1 s raw h; rw [parseLoop] at h; cases h
  | succ n ih =>
    intro p p1 s raw h k st hk
    have hpost := (parseLoop_post nodeClosed_true (n + 1) p p1 s raw h).2.2
    rw [parseLoop] at h
    rw [parseLoopTrace] at hk
    cases k with
    | zero =>
      simp only [List.get?_cons_zero, Option.some.injEq] at hk
      subst hk
      exact hpost
    | succ k =>
      simp only [List.get?_cons_succ] at hk
      cases hnode : parseNextNode n p s .EOF with
      | error e => rw [hnode] at h; cases h
      | ok r =>
        obtain ⟨b, q, s2⟩ := r
        rw [hnode] at h hk
        cases b with
        | true =>
          simp only [if_true] at h
          exact ih q p1 s2 raw h k st hk
        | false =>
          simp only [List.get?_nil] at hk
          cases hk

theorem declaresLabel_false_lookup {name : String} {p p1 : Parser} {s s1 : Script}
    (hd : declaresLabel name p.pending = false) (heff : LabelEffect p s p1 s1) :
    s1.labels.lookup name = s.labels.lookup name := by
  cases hdecl : isLabelDeclaration p.pending with
  | false => rw [heff.2 hdecl]
  | true =>
    obtain ⟨t1, t2, hp, hl, _⟩ := heff.1 hdecl
    rw [hl]
    apply lookup_cons_ne
    intro heq
    rw [hp] at hd hdecl
    simp only [isLabelDeclaration, Bool.and_eq_true, decide_eq_true_eq] at hdecl
    simp [declaresLabel, hdecl.1, hdecl.2, heq] at hd

/-- When no state of the trace declares the label, the loop of `Parse` leaves
its entry in the label table as it was. -/
theorem parseLoop_lookup_unchanged (name : String) :
    ∀ (n : Nat) (p p1 : Parser) (s raw : Script), parseLoop n p s = .ok (p1, raw) →
      (∀ st ∈ parseLoopTrace n p s, declaresLabel name st.1 = false) →
      raw.labels.lookup name = s.labels.lookup name := by
  intro n
  induction n with
  | zero => intro p p1 s raw h; rw [parseLoop] at h; cases h
  | succ n ih =>
    intro p p1 s raw h hall
    rw [parseLoop] at h
    rw [parseLoopTrace] at hall
    have hhead : declaresLabel name p.pending = false := hall _ (List.mem_cons_self _ _)
    cases hnode : parseNextNode n p s .EOF with
    | error e => rw [hnode] at h; cases h
    | ok r =>
      obtain ⟨b, q, s2⟩ := r
      rw [hnode] at h hall
      obtain ⟨_, heff, _⟩ := parseNextNode_post nodeClosed_true (by decide) hnode
      have h2 := declaresLabel_false_lookup hhead heff
      cases b with
      | true =>
        simp only [if_true] at h
        rw [ih q p1 s2 raw h (fun st hst => hall st (List.mem_cons_of_mem _ hst)), h2]
      | false =>
        simp only [Bool.false_eq_true, if_false, Except.ok.injEq, Prod.mk.injEq] at h
        obtain ⟨rfl, rfl⟩ := h
        exact h2

/-- The label table after the loop of `Parse` maps a label declared at state
`k` of the trace, and at no other state, to the command count of that state. -/
theorem parseLoop_lookup_declared (name : String) :
    ∀ (n : Nat) (p p1 : Parser) (s raw : Script), parseLoop n p s = .ok (p1, raw) →
      ∀ (k : Nat) (toks : List Token) (cmds : List CommandNode),
      (parseLoopTrace n p s).get? k = some (toks, cmds) →
      declaresLabel name toks = true →
      (∀ st ∈ (parseLoopTrace n p s).eraseIdx k, declaresLabel name st.1 = false) →
      raw.labels.lookup name = some (cmds.length : Int) := by
  intro n
  induction n with
  | zero => intro p p1 s raw h; rw [parseLoop] at h; cases h
  | succ n ih =>
    intro p p1 s raw h k toks cmds hk hd honce
    have h0 := h
    rw [parseLoop] at h
    rw [parseLoopTrace] at hk honce
    cases hnode : parseNextNode n p s .EOF with
    | error e => rw [hnode] at h; cases h
    | ok r =>
      obtain ⟨b, q, s2⟩ := r
      rw [hnode] at h hk honce
      obtain ⟨_, heff, _⟩ := parseNextNode_post nodeClosed_true (by decide) hnode
      cases k with
      | zero =>
        simp only [List.get?_cons_zero, Option.some.injEq, Prod.mk.injEq] at hk
        obtain ⟨rfl, rfl⟩ := hk
        simp only [List.eraseIdx_cons_zero] at honce
        have hdecl : isLabelDeclaration p.pending = true := by
          match hp : p.pending, hd with
          | t1 :: t2 :: r, hd =>
            simp only [declaresLabel, Bool.and_eq_true, decide_eq_true_eq] at hd
            simp [isLabelDeclaration, hd.1.1, hd.2]
        obtain ⟨t1, t2, hp, hl, _⟩ := heff.1 hdecl
        have hname : t1.Value = name := by
          rw [hp] at hd
          simp only [declaresLabel, Bool.and_eq_true, decide_eq_true_eq] at hd
          exact hd.1.2
        have hs2 : s2.labels.lookup name = some (s.commands.length : Int) := by
          rw [hl, hname]
          exact lookup_cons_self _ _ _
        cases b with
        | true =>
          simp only [if_true] at h
          rw [parseLoop_lookup_unchanged name n q p1 s2 raw h honce, hs2]
        | false =>
          simp only [Bool.false_eq_true, if_false, Except.ok.injEq, Prod.mk.injEq] at h
          obtain ⟨rfl, rfl⟩ := h
          exact hs2
      | succ k =>
        simp only [List.get?_cons_succ] at hk
        simp only [List.eraseIdx_cons_succ] at honce
        cases b with
        | true =>
          simp only [if_true] at h
          exact ih q p1 s2 raw h k toks cmds hk hd
            (fun st hst => honce st (List.mem_cons_of_mem _ hst))
        | false =>
          simp only [List.get?_nil] at hk
          cases hk

theorem replaceArgs_get (s : Script) :
    ∀ (args : List ExpressionNode), (replaceLabelNodesInArgs s args).2 = none →
      ∀ a e, args.get? a = some e →
        (replaceLabelNodesInArgs s args).1.get? a = some (replaceLabelNodesInExpression s e).1
          ∧ (replaceLabelNodesInExpression s e).2 = none := by
  intro args
  induction args with
  | nil => intro _ a e h; cases h
  | cons x rest ih =>
    intro hok a e hget
    unfold replaceLabelNodesInArgs at hok ⊢
    rcases hx1 : replaceLabelNodesInExpression s x with ⟨x1, ex⟩
    rw [hx1] at hok
    cases ex with
    | some err => simp at hok
    | none =>
      rcases hr1 : replaceLabelNodesInArgs s rest with ⟨rest1, er⟩
      rw [hr1] at hok ih
      simp only [] at hok
      subst hok
      cases a with
      | zero =>
        simp only [List.get?_cons_zero, Option.some.injEq] at hget
        subst hget
        simp [hx1]
      | succ a =>
        simp only [List.get?_cons_succ] at hget ⊢
        exact ih rfl a e hget

theorem replaceCommands_get (s : Script) :
    ∀ (cs : List CommandNode), (replaceLabelNodesInCommands s cs).2 = none →
      ∀ j c, cs.get? j = some c →
        (replaceLabelNodesInCommands s cs).1.get? j
            = some ⟨c.typ, (replaceLabelNodesInArgs s c.Args).1⟩
          ∧ (replaceLabelNodesInArgs s c.Args).2 = none := by
  intro cs
  induction cs with
  | nil => intro _ j c h; cases h
  | cons x rest ih =>
    intro hok j c hget
    unfold replaceLabelNodesInCommands at hok ⊢
    rcases hx1 : replaceLabelNodesInArgs s x.Args with ⟨x1, ex⟩
    rw [hx1] at hok
    cases ex with
    | some err => simp at hok
    | none =>
      rcases hr1 : replaceLabelNodesInCommands s rest with ⟨rest1, er⟩
      rw [hr1] at hok ih
      simp only [] at hok
      subst hok
      cases j with
      | zero =>
        simp only [List.get?_cons_zero, Option.some.injEq] at hget
        subst hget
        simp [hx1]
      | succ j =>
        simp only [List.get?_cons_succ] at hget ⊢
        exact ih rfl j c hget

/-- C5: let the label `L` be declared at state `k` of the loop of `Parse` (the
tokens there start with the identifier `L` and a colon) and at no other state,
and let `c` be the command that follows the declaration (some state of the
loop has the command list of state `k` extended by `c`).  When `Parse`
succeeds, the command at index `i` of the final command list, `i` being the
command count at the declaration, is that command `c` (its type, with its
arguments resolved), and every command argument that the parser read as the
bare label `L`, before or after the declaration, is `AddressNode i`. -/
theorem C5_labels_resolve_to_following_command (p p1 : Parser) (raw : Script)
    (L : String) (k k2 : Nat) (t2 : Token) (rest rest2 : List Token)
    (cmds more : List CommandNode) (c : CommandNode)
    (hloop : parseLoop p.fuel p newScript = .ok (p1, raw))
    (hres : (replaceLabelNodes raw).2 = none)
    (hdecl : (parseLoopTrace p.fuel p newScript).get? k
      = some (⟨.IdentToken, L⟩ :: t2 :: rest, cmds))
    (hcolon : t2.typ = .ColonToken)
    (hnext : (parseLoopTrace p.fuel p newScript).get? k2 = some (rest2, cmds ++ c :: more))
    (honce : ∀ st ∈ (parseLoopTrace p.fuel p newScript).eraseIdx k,
      declaresLabel L st.1 = false) :
    p.Parse = (some (replaceLabelNodes raw).1, none)
    ∧ (replaceLabelNodes raw).1.commands.get? cmds.length
        = some ⟨c.typ, (replaceLabelNodesInArgs raw c.Args).1⟩
    ∧ ∀ (j a : Nat) (cj : CommandNode), raw.commands.get? j = some cj →
        cj.Args.get? a = some (.LabelNode L) →
        ∃ cj1, (replaceLabelNodes raw).1.commands.get? j = some cj1 ∧ cj1.typ = cj.typ
          ∧ cj1.Args.get? a = some (.AddressNode (cmds.length : Int)) := by
  have hlook : raw.labels.lookup L = some (cmds.length : Int) :=
    parseLoop_lookup_declared L p.fuel p p1 newScript raw hloop k _ cmds hdecl
      (by simp [declaresLabel, hcolon]) honce
  have hres2 : (replaceLabelNodesInCommands raw raw.commands).2 = none := by
    unfold replaceLabelNodes at hres
    exact hres
  have hfinal : (replaceLabelNodes raw).1.commands
      = (replaceLabelNodesInCommands raw raw.commands).1 := rfl
  refine ⟨?_, ?_, ?_⟩
  · unfold Parser.Parse Parser.ParseWith
    rw [hloop]
    simp only []
    rcases hr : replaceLabelNodes raw with ⟨s1, e1⟩
    rw [hr] at hres
    simp only [] at hres
    subst hres
    rfl
  · obtain ⟨cs, hcs⟩ := parseLoopTrace_prefix p.fuel p p1 newScript raw hloop k2 _ hnext
    have hget : raw.commands.get? cmds.length = some c := by
      rw [hcs]
      simp only [List.append_assoc, List.get?_eq_getElem?]
      rw [List.getElem?_append_right (le_refl _)]
      simp
    rw [hfinal]
    exact (replaceCommands_get raw raw.commands hres2 _ c hget).1
  · intro j a cj hj ha
    obtain ⟨h1, h2⟩ := replaceCommands_get raw raw.commands hres2 j cj hj
    obtain ⟨h3, _⟩ := replaceArgs_get raw cj.Args h2 a _ ha
    refine ⟨⟨cj.typ, (replaceLabelNodesInArgs raw cj.Args).1⟩, by rw [hfinal]; exact h1, rfl, ?_⟩
    show (replaceLabelNodesInArgs raw cj.Args).1.get? a = _
    rw [h3]
    simp [replaceLabelNodesInExpression, hlook]


theorem parseLoop_ok_of_isSome {n : Nat} {p : Parser} {s : Script}
    (h : (parseLoop n p s).toOption.isSome = true) :
    ∃ p1 raw, parseLoop n p s = .ok (p1, raw) := by
  cases hr : parseLoop n p s with
  | error e => rw [hr] at h; cases h
  | ok r => exact ⟨r.1, r.2, rfl⟩

theorem ParseWith_snd_of_loop {n : Nat} {p p1 : Parser} {raw : Script}
    (h : parseLoop n p newScript = .ok (p1, raw)) :
    (p.ParseWith n).2 = (replaceLabelNodes raw).2
      ∧ (p.ParseWith n).1 = some (replaceLabelNodes raw).1 := by
  unfold Parser.ParseWith
  rw [h]
  exact ⟨rfl, rfl⟩

theorem C5_witness :
    ∃ p1 raw, parseLoop (parserOf exampleConfig labelProgram).fuel
        (parserOf exampleConfig labelProgram) newScript = .ok (p1, raw)
      ∧ (parserOf exampleConfig labelProgram).Parse = (some (replaceLabelNodes raw).1, none)
      ∧ (replaceLabelNodes raw).1.commands.get? 1
          = some ⟨CmdSet, (replaceLabelNodesInArgs raw [.VariableNode 1, .IntegerNode 1]).1⟩
      ∧ ∀ (j a : Nat) (cj : CommandNode), raw.commands.get? j = some cj →
          cj.Args.get? a = some (.LabelNode "L") →
          ∃ cj1, (replaceLabelNodes raw).1.commands.get? j = some cj1 ∧ cj1.typ = cj.typ
            ∧ cj1.Args.get? a = some (.AddressNode 1) := by
  obtain ⟨p1, raw, hloop⟩ := parseLoop_ok_of_isSome
    (n := (parserOf exampleConfig labelProgram).fuel)
    (p := parserOf exampleConfig labelProgram) (s := newScript) (by decide!)
  have hres : (replaceLabelNodes raw).2 = none := by
    rw [← (ParseWith_snd_of_loop hloop).1]
    decide!
  exact ⟨p1, raw, hloop,
    C5_labels_resolve_to_following_command (parserOf exampleConfig labelProgram) p1 raw "L" 1 4
      ⟨.ColonToken, ":"⟩ (labelProgram.drop 5 ++ [⟨.EOF, ""⟩])
      [⟨.IdentToken, "goto"⟩, ⟨.IdentToken, "L"⟩, ⟨.NewlineToken, "\n"⟩, ⟨.EOF, ""⟩]
      [⟨CmdGoto, [.LabelNode "L"]⟩] [] ⟨CmdSet, [.VariableNode 1, .IntegerNode 1]⟩
      hloop hres (by decide!) rfl (by decide!) (by decide!)⟩

theorem Parse_eq_of_isSome_of_none {p : Parser} (h1 : p.Parse.1.isSome = true)
    (h2 : p.Parse.2 = none) : p.Parse = (some (p.Parse.1.get h1), none) := by
  apply Prod.ext
  · simp
  · exact h2

theorem get_of_map_eq_some {α β : Type} {o : Option α} {f : α → β} {v : β}
    (h1 : o.isSome = true) (hm : o.map f = some v) : f (o.get h1) = v := by
  cases o with
  | none => cases h1
  | some x => simpa using hm

theorem C6_witness :
    ∃ script, (parserOf exampleConfig labelProgram).Parse = (some script, none)
      ∧ script.commands = [⟨CmdGoto, [.AddressNode 1]⟩,
          ⟨CmdSet, [.VariableNode 1, .IntegerNode 1]⟩, ⟨CmdGoto, [.AddressNode 1]⟩]
      ∧ (0 ≤ (1 : Int) ∧ (1 : Int) ≤ script.EndOfScript) := by
  have h1 : (parserOf exampleConfig labelProgram).Parse.1.isSome = true := by decide!
  have h2 : (parserOf exampleConfig labelProgram).Parse.2 = none := by decide!
  have h3 : (parserOf exampleConfig labelProgram).Parse.1.map (fun s => s.commands)
      = some [⟨CmdGoto, [.AddressNode 1]⟩,
          ⟨CmdSet, [.VariableNode 1, .IntegerNode 1]⟩, ⟨CmdGoto, [.AddressNode 1]⟩] := by
    decide!
  have h4 := get_of_map_eq_some h1 h3
  refine ⟨_, Parse_eq_of_isSome_of_none h1 h2, h4, ?_⟩
  exact C6_address_range (parserOf exampleConfig labelProgram) _
    (Parse_eq_of_isSome_of_none h1 h2) ⟨CmdGoto, [.AddressNode 1]⟩ (by rw [h4]; simp)
    (.AddressNode 1) (by simp) 1 (by simp [addresses])

theorem getCommandType_congr {p q : Parser} (h : q.tables = p.tables) (name : String) :
    q.getCommandType name = p.getCommandType name := by
  unfold Parser.getCommandType
  have : q.commandTypes = p.commandTypes := congrArg Prod.fst h
  rw [this]

/-- The declaration of a macro: what `parseMacro` returns when it succeeds. -/
theorem parseMacro_result {n : Nat} {p p1 : Parser} {s s1 : Script}
    (h : parseMacro n p s = .ok (p1, s1)) :
    ∃ kw ident rest sub, p.pending = kw :: ident :: rest
      ∧ s1 = { s with macros := (ident.Value, sub) :: s.macros } := by
  cases n with
  | zero => rw [parseMacro] at h; cases h
  | succ n =>
    rw [parseMacro] at h
    cases hadv : p.advance with
    | error e => rw [hadv] at h; cases h
    | ok r =>
      obtain ⟨tok, q⟩ := r
      rw [hadv] at h
      simp only [] at h
      obtain ⟨hpend, _⟩ := advance_ok hadv
      cases hadv2 : q.advance with
      | error e => rw [hadv2] at h; cases h
      | ok r2 =>
        obtain ⟨ident, q2⟩ := r2
        rw [hadv2] at h
        simp only [] at h
        obtain ⟨hpend2, _⟩ := advance_ok hadv2
        cases hloop : parseMacroLoop n q2 newScript with
        | error e => rw [hloop] at h; cases h
        | ok r3 =>
          obtain ⟨q3, sub⟩ := r3
          rw [hloop] at h
          simp only [Except.ok.injEq, Prod.mk.injEq] at h
          obtain ⟨rfl, rfl⟩ := h
          exact ⟨tok, ident, q2.pending, sub, by rw [hpend, hpend2], rfl⟩

/-- A command line that consists of the name of a macro: what `parseNextNode`
returns. -/
theorem parseNextNode_macro_line (n : Nat) (p : Parser) (s m : Script) (name : String)
    (nl : Token) (rest : List Token) (endTok : TokenType)
    (hp : p.pending = ⟨.IdentToken, name⟩ :: nl :: rest)
    (hnl : nl.typ = .NewlineToken ∨ nl.typ = .EOF)
    (hend : endTok ≠ .IdentToken)
    (hcmd : p.getCommandType name = none)
    (hm : s.macros.lookup name = some m) :
    ∃ p1, parseNextNode (n + 3) p s endTok
        = .ok (true, p1, { s with commands := s.commands ++ m.commands })
      ∧ p1.pending = rest := by
  obtain ⟨q, hq, hqp, hqt⟩ := peek_of_cons hp
  obtain ⟨q1, hq1, hq1p, hq1t⟩ := peekAhead_of_get (p := q) (n := 1) (t := nl) (by decide)
    (by rw [hqp]; rfl)
  rw [hqp] at hq1p
  obtain ⟨q2, hq2, hq2p, hq2t⟩ := peek_of_cons hq1p
  obtain ⟨q3, hq3, hq3p, hq3t⟩ := advance_of_cons hq2p
  obtain ⟨q4, hq4, hq4p, hq4t⟩ := peek_of_cons hq3p
  obtain ⟨q5, hq5, hq5p, hq5t⟩ := advance_of_cons hq4p
  have hct : q3.getCommandType name = none := by
    rw [getCommandType_congr (hq3t.trans (hq2t.trans (hq1t.trans hqt)))]
    exact hcmd
  have hncolon : ¬ nl.typ = .ColonToken := by
    rcases hnl with h | h <;> rw [h] <;> decide
  refine ⟨q5, ?_, hq5p⟩
  have hnend : ¬ (TokenType.IdentToken = endTok) := fun h => hend h.symm
  rw [parseNextNode, hq]
  simp only [if_neg hnend]
  unfold parseIdent
  rw [hq1]
  simp only [if_neg hncolon]
  unfold parseCommand
  rw [parseCommandLoop, hq2]
  have hni : ¬ ((TokenType.IdentToken = TokenType.NewlineToken) ∨
      (TokenType.IdentToken = TokenType.EOF)) := by decide
  simp only [if_neg hni, if_true, hq3, hct, hm]
  rw [parseCommandLoop, hq4]
  simp only [if_pos hnl, hq5]
  simp

/-- C8: a macro declaration appends no command to the enclosing Script and
stores the sub-Script under the macro's name; a later command line that
consists of the name of a macro whose body holds `k` commands appends exactly
those `k` commands, in order, at the end of the command list, so the command
count grows by `k`. -/
theorem C8_macro_splice :
    (∀ (n : Nat) (p p1 : Parser) (s s1 : Script), parseMacro n p s = .ok (p1, s1) →
      s1.commands = s.commands
        ∧ ∃ kw ident rest sub, p.pending = kw :: ident :: rest
          ∧ s1.macros.lookup ident.Value = some sub)
    ∧ (∀ (n k : Nat) (p : Parser) (s m : Script) (name : String) (nl : Token)
        (rest : List Token) (endTok : TokenType),
      p.pending = ⟨.IdentToken, name⟩ :: nl :: rest →
      (nl.typ = .NewlineToken ∨ nl.typ = .EOF) →
      endTok ≠ .IdentToken →
      p.getCommandType name = none →
      s.macros.lookup name = some m →
      m.commands.length = k →
      ∃ p1 s1, parseNextNode (n + 3) p s endTok = .ok (true, p1, s1)
        ∧ p1.pending = rest
        ∧ s1.commands = s.commands ++ m.commands
        ∧ s1.commands.length = s.commands.length + k) := by
  constructor
  · intro n p p1 s s1 h
    obtain ⟨kw, ident, rest, sub, hp, rfl⟩ := parseMacro_result h
    exact ⟨rfl, kw, ident, rest, sub, hp, lookup_cons_self _ _ _⟩
  · intro n k p s m name nl rest endTok hp hnl hend hcmd hm hk
    obtain ⟨p1, h1, h2⟩ := parseNextNode_macro_line n p s m name nl rest endTok hp hnl hend hcmd hm
    exact ⟨p1, _, h1, h2, rfl, by simp [hk]⟩


theorem parseMacro_ok_of_isSome {n : Nat} {p : Parser} {s : Script}
    (h : (parseMacro n p s).toOption.isSome = true) :
    ∃ p1 s1, parseMacro n p s = .ok (p1, s1) := by
  cases hr : parseMacro n p s with
  | error e => rw [hr] at h; cases h
  | ok r => exact ⟨r.1, r.2, rfl⟩

theorem C8_witness :
    (∃ p1 s1, parseMacro 20 (parserOf exampleConfig macroDeclaration) macroScript = .ok (p1, s1)
      ∧ s1.commands = macroScript.commands
      ∧ ∃ kw ident rest sub, (parserOf exampleConfig macroDeclaration).pending = kw :: ident :: rest
          ∧ s1.macros.lookup ident.Value = some sub)
    ∧ (∃ p1 s1, parseNextNode 3 (parserOf exampleConfig macroLine) macroScript .EOF
          = .ok (true, p1, s1)
        ∧ p1.pending = [⟨.EOF, ""⟩]
        ∧ s1.commands = macroScript.commands ++ macroBody.commands
        ∧ s1.commands.length = macroScript.commands.length + 2) := by
  constructor
  · obtain ⟨p1, s1, h⟩ := parseMacro_ok_of_isSome (n := 20)
      (p := parserOf exampleConfig macroDeclaration) (s := macroScript) (by decide!)
    exact ⟨p1, s1, h, C8_macro_splice.1 20 _ p1 macroScript s1 h⟩
  · exact C8_macro_splice.2 0 2 (parserOf exampleConfig macroLine) macroScript macroBody "m"
      ⟨.NewlineToken, "\n"⟩ [⟨.EOF, ""⟩] .EOF (by decide) (Or.inl rfl) (by decide) (by decide)
      rfl rfl

theorem parseMultiplicativeLoop_stop (n : Nat) (p : Parser) (s : Script) (e : ExpressionNode)
    (t : Token) (h : notMultiplicative t = true) :
    parseMultiplicativeLoop (n + 1) p s e t = .ok (e, p) := by
  rw [parseMultiplicativeLoop, if_pos h]

theorem parseAdditiveLoop_stop (n : Nat) (p : Parser) (s : Script) (e : ExpressionNode)
    (t : Token) (h : notAdditive t = true) :
    parseAdditiveLoop (n + 1) p s e t = .ok (e, p) := by
  rw [parseAdditiveLoop, if_pos h]

theorem parseMultiplicativeLoop_step {p0 : Parser} {s : Script} {kb : Nat} {tb : List Token}
    {b : ExpressionNode} (hb : ParsesPrimary p0 s kb tb b) (n : Nat) (hn : kb ≤ n)
    (p : Parser) (e : ExpressionNode) (m t : Token) (rest : List Token)
    (hm : notMultiplicative m = false) (ht : p.tables = p0.tables)
    (hp : p.pending = m :: (tb ++ t :: rest)) :
    ∃ p2, parseMultiplicativeLoop (n + 1) p s e m
        = parseMultiplicativeLoop n p2 s (.BinaryOpNode e (opRuneFromToken m) b) t
      ∧ p2.pending = t :: rest ∧ p2.tables = p0.tables := by
  obtain ⟨q1, hq1, hq1p, hq1t⟩ := advance_of_cons hp
  obtain ⟨q2, hq2, hq2p, hq2t⟩ := hb n q1 (t :: rest) hn (hq1t.trans ht) hq1p
  obtain ⟨q3, hq3, hq3p, hq3t⟩ := peek_of_cons hq2p
  refine ⟨q3, ?_, hq3p, hq3t.trans hq2t⟩
  rw [parseMultiplicativeLoop]
  simp only [hm, Bool.false_eq_true, if_false, hq1, hq2, hq3]

theorem parseMultiplicative_entry {p0 : Parser} {s : Script} {ka : Nat} {ta : List Token}
    {a : ExpressionNode} (ha : ParsesPrimary p0 s ka ta a) (n : Nat) (hn : ka ≤ n)
    (p : Parser) (t : Token) (rest : List Token) (ht : p.tables = p0.tables)
    (hp : p.pending = ta ++ t :: rest) :
    ∃ p2, parseMultiplicative (n + 1) p s = parseMultiplicativeLoop n p2 s a t
      ∧ p2.pending = t :: rest ∧ p2.tables = p0.tables := by
  obtain ⟨q2, hq2, hq2p, hq2t⟩ := ha n p (t :: rest) hn ht hp
  obtain ⟨q3, hq3, hq3p, hq3t⟩ := peek_of_cons hq2p
  refine ⟨q3, ?_, hq3p, hq3t.trans hq2t⟩
  rw [parseMultiplicative]
  simp only [hq2, hq3]

theorem parseAdditiveLoop_step {p0 : Parser} {s : Script} {kb : Nat} {tb : List Token}
    {b : ExpressionNode} (hb : ParsesMultiplicative p0 s kb tb b) (n : Nat) (hn : kb ≤ n)
    (p : Parser) (e : ExpressionNode) (o t : Token) (rest : List Token)
    (ho : notAdditive o = false) (htm : notMultiplicative t = true) (ht : p.tables = p0.tables)
    (hp : p.pending = o :: (tb ++ t :: rest)) :
    ∃ p2, parseAdditiveLoop (n + 1) p s e o
        = parseAdditiveLoop n p2 s (.BinaryOpNode e (opRuneFromToken o) b) t
      ∧ p2.pending = t :: rest ∧ p2.tables = p0.tables := by
  obtain ⟨q1, hq1, hq1p, hq1t⟩ := advance_of_cons hp
  obtain ⟨q2, hq2, hq2p, hq2t⟩ := hb n q1 t rest hn (hq1t.trans ht) htm hq1p
  obtain ⟨q3, hq3, hq3p, hq3t⟩ := peek_of_cons hq2p
  refine ⟨q3, ?_, hq3p, hq3t.trans hq2t⟩
  rw [parseAdditiveLoop]
  simp only [ho, Bool.false_eq_true, if_false, hq1, hq2, hq3]

theorem parseAdditive_entry {p0 : Parser} {s : Script} {ka : Nat} {ta : List Token}
    {a : ExpressionNode} (ha : ParsesMultiplicative p0 s ka ta a) (n : Nat) (hn : ka ≤ n)
    (p : Parser) (t : Token) (rest : List Token) (htm : notMultiplicative t = true)
    (ht : p.tables = p0.tables) (hp : p.pending = ta ++ t :: rest) :
    ∃ p2, parseAdditive (n + 1) p s = parseAdditiveLoop n p2 s a t
      ∧ p2.pending = t :: rest ∧ p2.tables = p0.tables := by
  obtain ⟨q2, hq2, hq2p, hq2t⟩ := ha n p t rest hn ht htm hp
  obtain ⟨q3, hq3, hq3p, hq3t⟩ := peek_of_cons hq2p
  refine ⟨q3, ?_, hq3p, hq3t.trans hq2t⟩
  rw [parseAdditive]
  simp only [hq2, hq3]

/-- An additive operator stops the loop of `parseMultiplicative`. -/
theorem notMultiplicative_of_additive {o : Token} (h : notAdditive o = false) :
    notMultiplicative o = true := by
  unfold notAdditive at h
  unfold notMultiplicative
  simp only [Bool.or_eq_false_iff, Bool.and_eq_false_iff, decide_eq_false_iff_not,
    Decidable.not_not, ne_eq] at h
  obtain ⟨_, h2⟩ := h
  rcases h2 with h2 | h2 <;> rw [h2] <;> simp [OpAdd, OpSub, OpMul, OpDiv, OpMod]

/-- A token that is no operator stops both loops. -/
theorem stops_of_not_operator {t : Token} (h : t.typ ≠ .OperatorToken) :
    notMultiplicative t = true ∧ notAdditive t = true := by
  unfold notMultiplicative notAdditive
  simp [h]

/-- A single primary is a multiplicative expression. -/
theorem parsesMultiplicative_one {p0 : Parser} {s : Script} {ka : Nat} {ta : List Token}
    {a : ExpressionNode} (ha : ParsesPrimary p0 s ka ta a) :
    ParsesMultiplicative p0 s (ka + 2) ta a := by
  intro fuel p t rest hk ht htm hp
  obtain ⟨n, rfl⟩ : ∃ n, fuel = (n + 1) + 1 := ⟨fuel - 2, by omega⟩
  obtain ⟨p2, h2, h2p, h2t⟩ := parseMultiplicative_entry ha (n + 1) (by omega) p t rest ht hp
  exact ⟨p2, by rw [h2, parseMultiplicativeLoop_stop n p2 s a t htm], h2p, h2t⟩

/-- Two primaries joined by a multiplicative operator. -/
theorem parsesMultiplicative_two {p0 : Parser} {s : Script} {ka kb : Nat}
    {ta tb : List Token} {a b : ExpressionNode} {m : Token}
    (ha : ParsesPrimary p0 s ka ta a) (hb : ParsesPrimary p0 s kb tb b)
    (hm : notMultiplicative m = false) :
    ParsesMultiplicative p0 s (ka + kb + 3) (ta ++ m :: tb)
      (.BinaryOpNode a (opRuneFromToken m) b) := by
  intro fuel p t rest hk ht htm hp
  obtain ⟨n, rfl⟩ : ∃ n, fuel = ((n + 1) + 1) + 1 := ⟨fuel - 3, by omega⟩
  have hp1 : p.pending = ta ++ m :: (tb ++ t :: rest) := by rw [hp]; simp
  obtain ⟨p2, h2, h2p, h2t⟩ :=
    parseMultiplicative_entry ha (n + 2) (by omega) p m _ ht hp1
  obtain ⟨p3, h3, h3p, h3t⟩ :=
    parseMultiplicativeLoop_step hb (n + 1) (by omega) p2 a m t rest hm h2t h2p
  exact ⟨p3, by rw [h2, h3, parseMultiplicativeLoop_stop n p3 s _ t htm], h3p, h3t⟩

/-- Three primaries joined by multiplicative operators group to the left. -/
theorem parsesMultiplicative_three {p0 : Parser} {s : Script} {ka kb kc : Nat}
    {ta tb tc : List Token} {a b c : ExpressionNode} {m1 m2 : Token}
    (ha : ParsesPrimary p0 s ka ta a) (hb : ParsesPrimary p0 s kb tb b)
    (hc : ParsesPrimary p0 s kc tc c)
    (hm1 : notMultiplicative m1 = false) (hm2 : notMultiplicative m2 = false) :
    ParsesMultiplicative p0 s (ka + kb + kc + 4) (ta ++ m1 :: (tb ++ m2 :: tc))
      (.BinaryOpNode (.BinaryOpNode a (opRuneFromToken m1) b) (opRuneFromToken m2) c) := by
  intro fuel p t rest hk ht htm hp
  obtain ⟨n, rfl⟩ : ∃ n, fuel = (((n + 1) + 1) + 1) + 1 := ⟨fuel - 4, by omega⟩
  have hp1 : p.pending = ta ++ m1 :: (tb ++ m2 :: (tc ++ t :: rest)) := by rw [hp]; simp
  obtain ⟨p2, h2, h2p, h2t⟩ :=
    parseMultiplicative_entry ha (n + 3) (by omega) p m1 _ ht hp1
  obtain ⟨p3, h3, h3p, h3t⟩ :=
    parseMultiplicativeLoop_step hb (n + 2) (by omega) p2 a m1 m2 _ hm1 h2t h2p
  obtain ⟨p4, h4, h4p, h4t⟩ :=
    parseMultiplicativeLoop_step hc (n + 1) (by omega) p3 _ m2 t rest hm2 h3t h3p
  exact ⟨p4, by rw [h2, h3, h4, parseMultiplicativeLoop_stop n p4 s _ t htm], h4p, h4t⟩

/-- A single multiplicative expression is an expression. -/
theorem parsesExpression_one {p0 : Parser} {s : Script} {ka : Nat} {ta : List Token}
    {a : ExpressionNode} (ha : ParsesMultiplicative p0 s ka ta a) :
    ParsesExpression p0 s (ka + 3) ta a := by
  intro fuel p t rest hk ht htm hta hp
  obtain ⟨n, rfl⟩ : ∃ n, fuel = ((n + 1) + 1) + 1 := ⟨fuel - 3, by omega⟩
  obtain ⟨p2, h2, h2p, h2t⟩ := parseAdditive_entry ha (n + 1) (by omega) p t rest htm ht hp
  refine ⟨p2, ?_, h2p, h2t⟩
  rw [parseExpression, h2, parseAdditiveLoop_stop n p2 s a t hta]

/-- Two multiplicative expressions joined by an additive operator. -/
theorem parsesExpression_two {p0 : Parser} {s : Script} {ka kb : Nat}
    {ta tb : List Token} {a b : ExpressionNode} {o : Token}
    (ha : ParsesMultiplicative p0 s ka ta a) (hb : ParsesMultiplicative p0 s kb tb b)
    (ho : notAdditive o = false) :
    ParsesExpression p0 s (ka + kb + 4) (ta ++ o :: tb)
      (.BinaryOpNode a (opRuneFromToken o) b) := by
  intro fuel p t rest hk ht htm hta hp
  obtain ⟨n, rfl⟩ : ∃ n, fuel = (((n + 1) + 1) + 1) + 1 := ⟨fuel - 4, by omega⟩
  have hp1 : p.pending = ta ++ o :: (tb ++ t :: rest) := by rw [hp]; simp
  obtain ⟨p2, h2, h2p, h2t⟩ :=
    parseAdditive_entry ha (n + 2) (by omega) p o _ (notMultiplicative_of_additive ho) ht hp1
  obtain ⟨p3, h3, h3p, h3t⟩ :=
    parseAdditiveLoop_step hb (n + 1) (by omega) p2 a o t rest ho htm h2t h2p
  refine ⟨p3, ?_, h3p, h3t⟩
  rw [parseExpression, h2, h3, parseAdditiveLoop_stop n p3 s _ t hta]

/-- Three multiplicative expressions joined by additive operators group to the
left. -/
theorem parsesExpression_three {p0 : Parser} {s : Script} {ka kb kc : Nat}
    {ta tb tc : List Token} {a b c : ExpressionNode} {o1 o2 : Token}
    (ha : ParsesMultiplicative p0 s ka ta a) (hb : ParsesMultiplicative p0 s kb tb b)
    (hc : ParsesMultiplicative p0 s kc tc c)
    (ho1 : notAdditive o1 = false) (ho2 : notAdditive o2 = false) :
    ParsesExpression p0 s (ka + kb + kc + 5) (ta ++ o1 :: (tb ++ o2 :: tc))
      (.BinaryOpNode (.BinaryOpNode a (opRuneFromToken o1) b) (opRuneFromToken o2) c) := by
  intro fuel p t rest hk ht htm hta hp
  obtain ⟨n, rfl⟩ : ∃ n, fuel = ((((n + 1) + 1) + 1) + 1) + 1 := ⟨fuel - 5, by omega⟩
  have hp1 : p.pending = ta ++ o1 :: (tb ++ o2 :: (tc ++ t :: rest)) := by rw [hp]; simp
  obtain ⟨p2, h2, h2p, h2t⟩ :=
    parseAdditive_entry ha (n + 3) (by omega) p o1 _ (notMultiplicative_of_additive ho1) ht hp1
  obtain ⟨p3, h3, h3p, h3t⟩ :=
    parseAdditiveLoop_step hb (n + 2) (by omega) p2 a o1 o2 _ ho1
      (notMultiplicative_of_additive ho2) h2t h2p
  obtain ⟨p4, h4, h4p, h4t⟩ :=
    parseAdditiveLoop_step hc (n + 1) (by omega) p3 _ o2 t rest ho2 htm h3t h3p
  refine ⟨p4, ?_, h4p, h4t⟩
  rw [parseExpression, h2, h3, h4, parseAdditiveLoop_stop n p4 s _ t hta]

/-- An expression between parentheses is a primary expression. -/
theorem parsesPrimary_paren {p0 : Parser} {s : Script} {k : Nat} {ts : List Token}
    {e : ExpressionNode} {lp rp : Token} (he : ParsesExpression p0 s k ts e)
    (hlp : lp.typ = .LParenToken) (hrp : rp.typ = .RParenToken) :
    ParsesPrimary p0 s (k + 1) (lp :: (ts ++ [rp])) e := by
  intro fuel p rest hk ht hp
  obtain ⟨n, rfl⟩ : ∃ n, fuel = n + 1 := ⟨fuel - 1, by omega⟩
  have hp1 : p.pending = lp :: (ts ++ rp :: rest) := by rw [hp]; simp
  obtain ⟨q1, hq1, hq1p, hq1t⟩ := advance_of_cons hp1
  have hstop := stops_of_not_operator (t := rp) (by rw [hrp]; decide)
  obtain ⟨q2, hq2, hq2p, hq2t⟩ :=
    he n q1 rp rest (by omega) (hq1t.trans ht) hstop.1 hstop.2 hq1p
  obtain ⟨q3, hq3, hq3p, hq3t⟩ := advance_of_cons hq2p
  refine ⟨q3, ?_, hq3p, hq3t.trans hq2t⟩
  rw [parsePrimary]
  simp only [hq1, hlp, hq2, hq3, hrp, ne_eq, not_true_eq_false, if_false]

theorem ParsesExpression.mono {p0 : Parser} {s : Script} {k k1 : Nat} {ts : List Token}
    {e : ExpressionNode} (h : ParsesExpression p0 s k ts e) (hk : k ≤ k1) :
    ParsesExpression p0 s k1 ts e :=
  fun fuel p t rest hf => h fuel p t rest (le_trans hk hf)


/-- C4: for primary expressions `a`, `b`, `c`, additive operators `o1`, `o2`
and a multiplicative operator `m`, followed by a token that is no binary
operator: `a o1 b m c` parses to `BinaryOp(o1, a, BinaryOp(m, b, c))`,
`a m b o1 c` to `BinaryOp(o1, BinaryOp(m, a, b), c)`, `(a o1 b) m c` to
`BinaryOp(m, BinaryOp(o1, a, b), c)`, and `a o1 b o2 c` to
`BinaryOp(o2, BinaryOp(o1, a, b), c)`; the tree parsed from `1 + 2 * 3`
denotes 7 and the one parsed from `(1 + 2) * 3` denotes 9. -/
theorem C4_precedence (p0 : Parser) (s : Script) (ka kb kc : Nat) (ta tb tc : List Token)
    (a b c : ExpressionNode) (o1 o2 m lp rp : Token)
    (ha : ParsesPrimary p0 s ka ta a) (hb : ParsesPrimary p0 s kb tb b)
    (hc : ParsesPrimary p0 s kc tc c)
    (ho1 : notAdditive o1 = false) (ho2 : notAdditive o2 = false)
    (hm : notMultiplicative m = false)
    (hlp : lp.typ = .LParenToken) (hrp : rp.typ = .RParenToken) :
    ParsesExpression p0 s (ka + kb + kc + 15) (ta ++ o1 :: (tb ++ m :: tc))
        (.BinaryOpNode a (opRuneFromToken o1) (.BinaryOpNode b (opRuneFromToken m) c))
    ∧ ParsesExpression p0 s (ka + kb + kc + 15) ((ta ++ m :: tb) ++ o1 :: tc)
        (.BinaryOpNode (.BinaryOpNode a (opRuneFromToken m) b) (opRuneFromToken o1) c)
    ∧ ParsesExpression p0 s (ka + kb + kc + 15) ((lp :: ((ta ++ o1 :: tb) ++ [rp])) ++ m :: tc)
        (.BinaryOpNode (.BinaryOpNode a (opRuneFromToken o1) b) (opRuneFromToken m) c)
    ∧ ParsesExpression p0 s (ka + kb + kc + 15) (ta ++ o1 :: (tb ++ o2 :: tc))
        (.BinaryOpNode (.BinaryOpNode a (opRuneFromToken o1) b) (opRuneFromToken o2) c)
    ∧ (parseExpression 12 (parserOf exampleConfig onePlusTwoTimesThree) newScript).toOption.map
        (fun r => evalInt r.1) = some (some 7)
    ∧ (parseExpression 12 (parserOf exampleConfig parenOnePlusTwoTimesThree)
        newScript).toOption.map (fun r => evalInt r.1) = some (some 9) := by
  refine ⟨?_, ?_, ?_, ?_, by decide!, by decide!⟩
  · exact (parsesExpression_two (parsesMultiplicative_one ha)
      (parsesMultiplicative_two hb hc hm) ho1).mono (by omega)
  · exact (parsesExpression_two (parsesMultiplicative_two ha hb hm)
      (parsesMultiplicative_one hc) ho1).mono (by omega)
  · have hparen := parsesPrimary_paren
      (parsesExpression_two (parsesMultiplicative_one ha) (parsesMultiplicative_one hb) ho1)
      hlp hrp
    exact (parsesExpression_one (parsesMultiplicative_two hparen hc hm)).mono (by omega)
  · exact (parsesExpression_three (parsesMultiplicative_one ha) (parsesMultiplicative_one hb)
      (parsesMultiplicative_one hc) ho1 ho2).mono (by omega)

/-- An integer literal is a primary expression. -/
theorem parsesPrimary_number (p0 : Parser) (s : Script) (text : String) (v : Int)
    (hdot : text.data.contains '.' = false) (hv : ParseInt32 text = some v) :
    ParsesPrimary p0 s 1 [⟨.NumberToken, text⟩] (.IntegerNode v) := by
  intro fuel p rest hk ht hp
  obtain ⟨n, rfl⟩ : ∃ n, fuel = n + 1 := ⟨fuel - 1, by omega⟩
  have hp1 : p.pending = ⟨.NumberToken, text⟩ :: rest := by rw [hp]; rfl
  obtain ⟨q1, hq1, hq1p, hq1t⟩ := advance_of_cons hp1
  refine ⟨q1, ?_, hq1p, hq1t.trans ht⟩
  rw [parsePrimary]
  simp only [hq1, hdot, Bool.false_eq_true, if_false, hv]

theorem C4_witness :
    ParsesPrimary (parserOf exampleConfig []) newScript 1 [⟨.NumberToken, "1"⟩] (.IntegerNode 1)
    ∧ ParsesPrimary (parserOf exampleConfig []) newScript 1 [⟨.NumberToken, "2"⟩]
        (.IntegerNode 2)
    ∧ ParsesPrimary (parserOf exampleConfig []) newScript 1 [⟨.NumberToken, "3"⟩]
        (.IntegerNode 3)
    ∧ ParsesExpression (parserOf exampleConfig []) newScript 18
        [⟨.NumberToken, "1"⟩, ⟨.OperatorToken, "+"⟩, ⟨.NumberToken, "2"⟩,
          ⟨.OperatorToken, "*"⟩, ⟨.NumberToken, "3"⟩]
        (.BinaryOpNode (.IntegerNode 1) OpAdd
          (.BinaryOpNode (.IntegerNode 2) OpMul (.IntegerNode 3)))
    ∧ ParsesExpression (parserOf exampleConfig []) newScript 18
        [⟨.NumberToken, "1"⟩, ⟨.OperatorToken, "-"⟩, ⟨.NumberToken, "2"⟩,
          ⟨.OperatorToken, "-"⟩, ⟨.NumberToken, "3"⟩]
        (.BinaryOpNode (.BinaryOpNode (.IntegerNode 1) OpSub (.IntegerNode 2)) OpSub
          (.IntegerNode 3)) := by
  have h1 := parsesPrimary_number (parserOf exampleConfig []) newScript "1" 1
    (by decide) (by decide)
  have h2 := parsesPrimary_number (parserOf exampleConfig []) newScript "2" 2
    (by decide) (by decide)
  have h3 := parsesPrimary_number (parserOf exampleConfig []) newScript "3" 3
    (by decide) (by decide)
  have hplus := C4_precedence (parserOf exampleConfig []) newScript 1 1 1
    [⟨.NumberToken, "1"⟩] [⟨.NumberToken, "2"⟩] [⟨.NumberToken, "3"⟩]
    (.IntegerNode 1) (.IntegerNode 2) (.IntegerNode 3)
    ⟨.OperatorToken, "+"⟩ ⟨.OperatorToken, "+"⟩ ⟨.OperatorToken, "*"⟩
    ⟨.LParenToken, "("⟩ ⟨.RParenToken, ")"⟩ h1 h2 h3 (by decide) (by decide) (by decide) rfl rfl
  have hminus := C4_precedence (parserOf exampleConfig []) newScript 1 1 1
    [⟨.NumberToken, "1"⟩] [⟨.NumberToken, "2"⟩] [⟨.NumberToken, "3"⟩]
    (.IntegerNode 1) (.IntegerNode 2) (.IntegerNode 3)
    ⟨.OperatorToken, "-"⟩ ⟨.OperatorToken, "-"⟩ ⟨.OperatorToken, "*"⟩
    ⟨.LParenToken, "("⟩ ⟨.RParenToken, ")"⟩ h1 h2 h3 (by decide) (by decide) (by decide) rfl rfl
  exact ⟨h1, h2, h3, hplus.1, hminus.2.2.2.1⟩

theorem advance_ne_outOfFuel {p : Parser} : p.advance ≠ .error .OutOfFuel := by
  intro h
  have := (advance_error h).1
  cases this

theorem peek_ne_outOfFuel {p : Parser} : p.peek ≠ .error .OutOfFuel := by
  intro h
  have := (peekAhead_error (by decide : 0 < 16) h).1
  cases this

theorem peekAhead_one_ne_outOfFuel {p : Parser} : p.peekAhead 1 ≠ .error .OutOfFuel := by
  intro h
  have := (peekAhead_error (by decide : 1 < 16) h).1
  cases this

theorem advance_length {p p1 : Parser} {tok : Token} (h : p.advance = .ok (tok, p1)) :
    p.pending.length = p1.pending.length + 1 := by
  rw [(advance_ok h).1]
  rfl

theorem peek_length {p p1 : Parser} {tok : Token} (h : p.peek = .ok (tok, p1)) :
    p1.pending.length = p.pending.length := by
  rw [(peek_ok h).2.1]

theorem exprPost_length {b : Bool} {p p1 : Parser} {r : ExprResult} {e : ExpressionNode}
    (hpost : ExprPost (fun _ => True) b p r) (h : r = .ok (e, p1)) :
    p1.pending.length ≤ p.pending.length
      ∧ (b = true → p1.pending.length < p.pending.length) := by
  obtain ⟨_, ⟨c, hne, hc⟩, _⟩ := hpost e p1 h
  rw [hc, List.length_append]
  refine ⟨by omega, ?_⟩
  intro hb
  have : c.length ≠ 0 := fun h0 => hne hb (List.length_eq_zero.mp h0)
  omega

/-- With a budget of four per token still to read, plus a small constant, no
expression parser runs out of budget. -/
theorem expression_parsers_fuel (s : Script) (n : Nat) :
    (∀ p, 4 * p.pending.length + 1 ≤ n → parsePrimary n p s ≠ .error .OutOfFuel)
    ∧ (∀ p e tok, 4 * p.pending.length + 1 ≤ n →
        parseMultiplicativeLoop n p s e tok ≠ .error .OutOfFuel)
    ∧ (∀ p, 4 * p.pending.length + 2 ≤ n → parseMultiplicative n p s ≠ .error .OutOfFuel)
    ∧ (∀ p e tok, 4 * p.pending.length + 1 ≤ n →
        parseAdditiveLoop n p s e tok ≠ .error .OutOfFuel)
    ∧ (∀ p, 4 * p.pending.length + 3 ≤ n → parseAdditive n p s ≠ .error .OutOfFuel)
    ∧ (∀ p, 4 * p.pending.length + 4 ≤ n → parseExpression n p s ≠ .error .OutOfFuel) := by
  induction n with
  | zero =>
    refine ⟨?_, ?_, ?_, ?_, ?_, ?_⟩ <;> intros <;> omega
  | succ n ih =>
    obtain ⟨ihP, ihML, ihM, ihAL, ihA, ihE⟩ := ih
    obtain ⟨postP, postML, postM, postAL, postA, postE⟩ :=
      expression_parsers_post nodeClosed_true s (fun _ _ _ => trivial) n
    refine ⟨?_, ?_, ?_, ?_, ?_, ?_⟩
    · -- parsePrimary
      intro p hn h
      rw [parsePrimary] at h
      cases hadv : p.advance with
      | error e => rw [hadv] at h; simp only [Except.error.injEq] at h; subst h
                   exact advance_ne_outOfFuel hadv
      | ok r =>
        obtain ⟨tok, q⟩ := r
        rw [hadv] at h
        simp only [] at h
        have hlen := advance_length hadv
        split at h
        · cases h
        · split at h
          · cases hrec : parsePrimary n q s with
            | error e => rw [hrec] at h; simp only [Except.error.injEq] at h; subst h
                         exact ihP q (by omega) hrec
            | ok r2 => rw [hrec] at h; cases h
          · cases h
        · cases hrec : parseExpression n q s with
          | error e => rw [hrec] at h; simp only [Except.error.injEq] at h; subst h
                       exact ihE q (by omega) hrec
          | ok r2 =>
            obtain ⟨expr, q2⟩ := r2
            rw [hrec] at h
            simp only [] at h
            cases hadv2 : q2.advance with
            | error e => rw [hadv2] at h; simp only [Except.error.injEq] at h; subst h
                         exact advance_ne_outOfFuel hadv2
            | ok r3 =>
              rw [hadv2] at h
              simp only [] at h
              split at h <;> cases h
        · split at h
          · split at h <;> cases h
          · split at h <;> cases h
        · cases h
        · cases h
        · cases h
    · -- parseMultiplicativeLoop
      intro p e tok hn h
      rw [parseMultiplicativeLoop] at h
      split at h
      · cases h
      · cases hadv : p.advance with
        | error e => rw [hadv] at h; simp only [Except.error.injEq] at h; subst h
                     exact advance_ne_outOfFuel hadv
        | ok r =>
          obtain ⟨tok2, q⟩ := r
          rw [hadv] at h
          simp only [] at h
          have hlen := advance_length hadv
          cases hrec : parsePrimary n q s with
          | error e => rw [hrec] at h; simp only [Except.error.injEq] at h; subst h
                       exact ihP q (by omega) hrec
          | ok r2 =>
            obtain ⟨right, q2⟩ := r2
            rw [hrec] at h
            simp only [] at h
            have hlen2 := (exprPost_length (postP q) hrec).2 rfl
            cases hpeek : q2.peek with
            | error e => rw [hpeek] at h; simp only [Except.error.injEq] at h; subst h
                         exact peek_ne_outOfFuel hpeek
            | ok r3 =>
              obtain ⟨tok3, q3⟩ := r3
              rw [hpeek] at h
              simp only [] at h
              have hlen3 := peek_length hpeek
              exact ihML q3 _ tok3 (by omega) h
    · -- parseMultiplicative
      intro p hn h
      rw [parseMultiplicative] at h
      cases hrec : parsePrimary n p s with
      | error e => rw [hrec] at h; simp only [Except.error.injEq] at h; subst h
                   exact ihP p (by omega) hrec
      | ok r2 =>
        obtain ⟨expr, q2⟩ := r2
        rw [hrec] at h
        simp only [] at h
        have hlen2 := (exprPost_length (postP p) hrec).2 rfl
        cases hpeek : q2.peek with
        | error e => rw [hpeek] at h; simp only [Except.error.injEq] at h; subst h
                     exact peek_ne_outOfFuel hpeek
        | ok r3 =>
          obtain ⟨tok3, q3⟩ := r3
          rw [hpeek] at h
          simp only [] at h
          have hlen3 := peek_length hpeek
          exact ihML q3 _ tok3 (by omega) h
    · -- parseAdditiveLoop
      intro p e tok hn h
      rw [parseAdditiveLoop] at h
      split at h
      · cases h
      · cases hadv : p.advance with
        | error e => rw [hadv] at h; simp only [Except.error.injEq] at h; subst h
                     exact advance_ne_outOfFuel hadv
        | ok r =>
          obtain ⟨tok2, q⟩ := r
          rw [hadv] at h
          simp only [] at h
          have hlen := advance_length hadv
          cases hrec : parseMultiplicative n q s with
          | error e => rw [hrec] at h; simp only [Except.error.injEq] at h; subst h
                       exact ihM q (by omega) hrec
          | ok r2 =>
            obtain ⟨right, q2⟩ := r2
            rw [hrec] at h
            simp only [] at h
            have hlen2 := (exprPost_length (postM q) hrec).2 rfl
            cases hpeek : q2.peek with
            | error e => rw [hpeek] at h; simp only [Except.error.injEq] at h; subst h
                         exact peek_ne_outOfFuel hpeek
            | ok r3 =>
              obtain ⟨tok3, q3⟩ := r3
              rw [hpeek] at h
              simp only [] at h
              have hlen3 := peek_length hpeek
              exact ihAL q3 _ tok3 (by omega) h
    · -- parseAdditive
      intro p hn h
      rw [parseAdditive] at h
      cases hrec : parseMultiplicative n p s with
      | error e => rw [hrec] at h; simp only [Except.error.injEq] at h; subst h
                   exact ihM p (by omega) hrec
      | ok r2 =>
        obtain ⟨expr, q2⟩ := r2
        rw [hrec] at h
        simp only [] at h
        have hlen2 := (exprPost_length (postM p) hrec).2 rfl
        cases hpeek : q2.peek with
        | error e => rw [hpeek] at h; simp only [Except.error.injEq] at h; subst h
                     exact peek_ne_outOfFuel hpeek
        | ok r3 =>
          obtain ⟨tok3, q3⟩ := r3
          rw [hpeek] at h
          simp only [] at h
          have hlen3 := peek_length hpeek
          exact ihAL q3 _ tok3 (by omega) h
    · -- parseExpression
      intro p hn h
      rw [parseExpression] at h
      exact ihA p (by omega) h

theorem parseExpression_fuel (s : Script) (n : Nat) (p : Parser)
    (h : 4 * p.pending.length + 4 ≤ n) : parseExpression n p s ≠ .error .OutOfFuel :=
  (expression_parsers_fuel s n).2.2.2.2.2 p h

theorem nodeFrame_length {p p1 : Parser} {s s1 : Script} (h : NodeFrame p s p1 s1) :
    p1.pending.length < p.pending.length := by
  obtain ⟨_, ⟨c, hne, hc⟩, _⟩ := h
  rw [hc, List.length_append]
  have : c.length ≠ 0 := fun h0 => hne (List.length_eq_zero.mp h0)
  omega

theorem parseExpression_length {n : Nat} {p p1 : Parser} {s : Script} {e : ExpressionNode}
    (h : parseExpression n p s = .ok (e, p1)) : p1.pending.length < p.pending.length := by
  obtain ⟨_, c, hne, hc⟩ := parseExpression_frame h
  rw [hc, List.length_append]
  have : c.length ≠ 0 := fun h0 => hne (List.length_eq_zero.mp h0)
  omega

theorem parseConst_fuel (n : Nat) (p : Parser) (s : Script) (hn : 4 * p.pending.length ≤ n) :
    parseConst n p s ≠ .error .OutOfFuel := by
  intro h
  unfold parseConst at h
  cases hadv : p.advance with
  | error e => rw [hadv] at h; simp only [Except.error.injEq] at h; subst h
               exact advance_ne_outOfFuel hadv
  | ok r =>
    obtain ⟨tok, q⟩ := r
    rw [hadv] at h
    simp only [] at h
    have hlen := advance_length hadv
    cases hadv2 : q.advance with
    | error e => rw [hadv2] at h; simp only [Except.error.injEq] at h; subst h
                 exact advance_ne_outOfFuel hadv2
    | ok r2 =>
      obtain ⟨tok2, q2⟩ := r2
      rw [hadv2] at h
      simp only [] at h
      have hlen2 := advance_length hadv2
      cases hexpr : parseExpression n q2 s with
      | error e => rw [hexpr] at h; simp only [Except.error.injEq] at h; subst h
                   exact parseExpression_fuel s n q2 (by omega) hexpr
      | ok r3 => rw [hexpr] at h; cases h

theorem parseCommandLoop_fuel :
    ∀ (n : Nat) (p : Parser) (s : Script) (cmd : CommandNode),
      4 * p.pending.length + 5 ≤ n → parseCommandLoop n p s cmd ≠ .error .OutOfFuel := by
  intro n
  induction n with
  | zero => intro p s cmd hn; omega
  | succ n ih =>
    intro p s cmd hn h
    rw [parseCommandLoop] at h
    cases hpeek : p.peek with
    | error e => rw [hpeek] at h; simp only [Except.error.injEq] at h; subst h
                 exact peek_ne_outOfFuel hpeek
    | ok r =>
      obtain ⟨tok, q⟩ := r
      rw [hpeek] at h
      simp only [] at h
      have hlen := peek_length hpeek
      by_cases hend : tok.typ = .NewlineToken ∨ tok.typ = .EOF
      · rw [if_pos hend] at h
        cases hadv : q.advance with
        | error e => rw [hadv] at h; simp only [Except.error.injEq] at h; subst h
                     exact advance_ne_outOfFuel hadv
        | ok r2 => rw [hadv] at h; cases h
      · rw [if_neg hend] at h
        by_cases hnone : cmd.typ = CmdNone
        · rw [if_pos hnone] at h
          cases hadv : q.advance with
          | error e => rw [hadv] at h; simp only [Except.error.injEq] at h; subst h
                       exact advance_ne_outOfFuel hadv
          | ok r2 =>
            obtain ⟨tok2, q2⟩ := r2
            rw [hadv] at h
            simp only [] at h
            have hlen2 := advance_length hadv
            cases hct : q2.getCommandType tok.Value with
            | none =>
              rw [hct] at h
              simp only [] at h
              cases hm : s.macros.lookup tok.Value with
              | none => rw [hm] at h; cases h
              | some m =>
                rw [hm] at h
                exact ih q2 _ cmd (by omega) h
            | some cmdType =>
              rw [hct] at h
              exact ih q2 s _ (by omega) h
        · rw [if_neg hnone] at h
          cases hexpr : parseExpression n q s with
          | error e => rw [hexpr] at h; simp only [Except.error.injEq] at h; subst h
                       exact parseExpression_fuel s n q (by omega) hexpr
          | ok r2 =>
            obtain ⟨argNode, q2⟩ := r2
            rw [hexpr] at h
            simp only [] at h
            have hlen2 := parseExpression_length hexpr
            cases hpeek3 : q2.peek with
            | error e => rw [hpeek3] at h; simp only [Except.error.injEq] at h; subst h
                         exact peek_ne_outOfFuel hpeek3
            | ok r3 =>
              obtain ⟨tok3, q3⟩ := r3
              rw [hpeek3] at h
              simp only [] at h
              have hlen3 := peek_length hpeek3
              split at h
              · next e hcomma =>
                simp only [Except.error.injEq] at h
                subst h
                split at hcomma
                · cases hadv5 : q3.advance with
                  | error e => rw [hadv5] at hcomma
                               simp only [Except.error.injEq] at hcomma
                               subst hcomma
                               exact advance_ne_outOfFuel hadv5
                  | ok r5 => rw [hadv5] at hcomma; cases hcomma
                · cases hcomma
              · next q4 hcomma =>
                obtain ⟨_, c4, hc4⟩ := afterComma_frame hcomma
                have hlen4 : q4.pending.length ≤ q3.pending.length := by
                  rw [hc4, List.length_append]; omega
                split at h
                · cases h
                · exact ih q4 s _ (by omega) h

theorem parseIdent_fuel (n : Nat) (p : Parser) (s : Script)
    (hn : 4 * p.pending.length + 5 ≤ n) : parseIdent n p s ≠ .error .OutOfFuel := by
  intro h
  unfold parseIdent at h
  cases hpeek : p.peekAhead 1 with
  | error e => rw [hpeek] at h; simp only [Except.error.injEq] at h; subst h
               exact peekAhead_one_ne_outOfFuel hpeek
  | ok r =>
    obtain ⟨tok, q⟩ := r
    rw [hpeek] at h
    simp only [] at h
    have hlen : q.pending.length = p.pending.length := by
      rw [(peekAhead_ok (by decide) hpeek).2.1]
    split at h
    · unfold parseLabelDeclaration at h
      cases hadv : q.advance with
      | error e => rw [hadv] at h; simp only [Except.error.injEq] at h; subst h
                   exact advance_ne_outOfFuel hadv
      | ok r2 =>
        obtain ⟨tok2, q2⟩ := r2
        rw [hadv] at h
        simp only [] at h
        cases hadv2 : q2.advance with
        | error e => rw [hadv2] at h; simp only [Except.error.injEq] at h; subst h
                     exact advance_ne_outOfFuel hadv2
        | ok r3 => rw [hadv2] at h; cases h
    · exact parseCommandLoop_fuel n q s _ (by omega) h

/-- With a budget of four per token still to read, plus a small constant, no
node parser runs out of budget. -/
theorem node_parsers_fuel (n : Nat) :
    (∀ p sub, 4 * p.pending.length + 7 ≤ n → parseMacroLoop n p sub ≠ .error .OutOfFuel)
    ∧ (∀ p s, 4 * p.pending.length + 1 ≤ n → parseMacro n p s ≠ .error .OutOfFuel)
    ∧ (∀ p s endTok, endTok ≠ .IdentToken → 4 * p.pending.length + 6 ≤ n →
        parseNextNode n p s endTok ≠ .error .OutOfFuel) := by
  induction n with
  | zero => refine ⟨?_, ?_, ?_⟩ <;> intros <;> omega
  | succ n ih =>
    obtain ⟨ihL, ihM, ihN⟩ := ih
    refine ⟨?_, ?_, ?_⟩
    · intro p sub hn h
      rw [parseMacroLoop] at h
      cases hnode : parseNextNode n p sub .EndMacroToken with
      | error e => rw [hnode] at h; simp only [Except.error.injEq] at h; subst h
                   exact ihN p sub _ (by decide) (by omega) hnode
      | ok r =>
        obtain ⟨b, q, sub2⟩ := r
        rw [hnode] at h
        simp only [] at h
        have hlen := nodeFrame_length (parseNextNode_post nodeClosed_true (by decide) hnode).1
        cases b with
        | true =>
          simp only [if_true] at h
          exact ihL q sub2 (by omega) h
        | false => simp at h
    · intro p s hn h
      rw [parseMacro] at h
      cases hadv : p.advance with
      | error e => rw [hadv] at h; simp only [Except.error.injEq] at h; subst h
                   exact advance_ne_outOfFuel hadv
      | ok r =>
        obtain ⟨tok, q⟩ := r
        rw [hadv] at h
        simp only [] at h
        have hlen := advance_length hadv
        cases hadv2 : q.advance with
        | error e => rw [hadv2] at h; simp only [Except.error.injEq] at h; subst h
                     exact advance_ne_outOfFuel hadv2
        | ok r2 =>
          obtain ⟨ident, q2⟩ := r2
          rw [hadv2] at h
          simp only [] at h
          have hlen2 := advance_length hadv2
          cases hloop : parseMacroLoop n q2 newScript with
          | error e => rw [hloop] at h; simp only [Except.error.injEq] at h; subst h
                       exact ihL q2 newScript (by omega) hloop
          | ok r3 => rw [hloop] at h; cases h
    · intro p s endTok hend hn h
      rw [parseNextNode] at h
      cases hpeek : p.peek with
      | error e => rw [hpeek] at h; simp only [Except.error.injEq] at h; subst h
                   exact peek_ne_outOfFuel hpeek
      | ok r =>
        obtain ⟨tok, q⟩ := r
        rw [hpeek] at h
        simp only [] at h
        have hlen := peek_length hpeek
        by_cases hte : tok.typ = endTok
        · rw [if_pos hte] at h
          cases hadv : q.advance with
          | error e => rw [hadv] at h; simp only [Except.error.injEq] at h; subst h
                       exact advance_ne_outOfFuel hadv
          | ok r2 => rw [hadv] at h; cases h
        · rw [if_neg hte] at h
          cases htt : tok.typ with
          | MacroToken =>
            rw [htt] at h
            simp only [] at h
            cases hm : parseMacro n q s with
            | error e => rw [hm] at h; simp only [Except.error.injEq] at h; subst h
                         exact ihM q s (by omega) hm
            | ok r2 => rw [hm] at h; cases h
          | ConstToken =>
            rw [htt] at h
            simp only [] at h
            cases hm : parseConst n q s with
            | error e => rw [hm] at h; simp only [Except.error.injEq] at h; subst h
                         exact parseConst_fuel n q s (by omega) hm
            | ok r2 => rw [hm] at h; cases h
          | IdentToken =>
            rw [htt] at h
            simp only [] at h
            cases hm : parseIdent n q s with
            | error e => rw [hm] at h; simp only [Except.error.injEq] at h; subst h
                         exact parseIdent_fuel n q s (by omega) hm
            | ok r2 => rw [hm] at h; cases h
          | NewlineToken =>
            rw [htt] at h
            simp only [] at h
            cases hadv : q.advance with
            | error e => rw [hadv] at h; simp only [Except.error.injEq] at h; subst h
                         exact advance_ne_outOfFuel hadv
            | ok r2 => rw [hadv] at h; cases h
          | _ =>
            rw [htt] at h
            simp only [] at h
            cases h

theorem parseLoop_fuel :
    ∀ (n : Nat) (p : Parser) (s : Script), 4 * p.pending.length + 7 ≤ n →
      parseLoop n p s ≠ .error .OutOfFuel := by
  intro n
  induction n with
  | zero => intro p s hn; omega
  | succ n ih =>
    intro p s hn h
    rw [parseLoop] at h
    cases hnode : parseNextNode n p s .EOF with
    | error e => rw [hnode] at h; simp only [Except.error.injEq] at h; subst h
                 exact (node_parsers_fuel n).2.2 p s _ (by decide) (by omega) hnode
    | ok r =>
      obtain ⟨b, q, s2⟩ := r
      rw [hnode] at h
      simp only [] at h
      have hlen := nodeFrame_length (parseNextNode_post nodeClosed_true (by decide) hnode).1
      cases b with
      | true =>
        simp only [if_true] at h
        exact ih q s2 (by omega) h
      | false => simp at h

theorem replaceExpr_ne_outOfFuel (s : Script) :
    ∀ (e : ExpressionNode), (replaceLabelNodesInExpression s e).2 ≠ some .OutOfFuel := by
  intro e
  induction e with
  | BinaryOpNode l op r ihl ihr =>
    unfold replaceLabelNodesInExpression
    rcases hl1 : replaceLabelNodesInExpression s l with ⟨l1, el⟩
    rw [hl1] at ihl
    cases el with
    | some e => exact ihl
    | none =>
      rcases hr1 : replaceLabelNodesInExpression s r with ⟨r1, er⟩
      rw [hr1] at ihr
      exact ihr
  | LabelNode name =>
    unfold replaceLabelNodesInExpression
    cases hk : s.labels.lookup name with
    | none => simp
    | some pc => simp
  | _ => simp [replaceLabelNodesInExpression]

theorem replaceArgs_ne_outOfFuel (s : Script) :
    ∀ (args : List ExpressionNode), (replaceLabelNodesInArgs s args).2 ≠ some .OutOfFuel := by
  intro args
  induction args with
  | nil => simp [replaceLabelNodesInArgs]
  | cons x rest ih =>
    unfold replaceLabelNodesInArgs
    have hx := replaceExpr_ne_outOfFuel s x
    rcases hx1 : replaceLabelNodesInExpression s x with ⟨x1, ex⟩
    rw [hx1] at hx
    cases ex with
    | some e => exact hx
    | none =>
      rcases hr1 : replaceLabelNodesInArgs s rest with ⟨rest1, er⟩
      rw [hr1] at ih
      exact ih

theorem replaceCommands_ne_outOfFuel (s : Script) :
    ∀ (cs : List CommandNode), (replaceLabelNodesInCommands s cs).2 ≠ some .OutOfFuel := by
  intro cs
  induction cs with
  | nil => simp [replaceLabelNodesInCommands]
  | cons x rest ih =>
    unfold replaceLabelNodesInCommands
    have hx := replaceArgs_ne_outOfFuel s x.Args
    rcases hx1 : replaceLabelNodesInArgs s x.Args with ⟨x1, ex⟩
    rw [hx1] at hx
    cases ex with
    | some e => exact hx
    | none =>
      rcases hr1 : replaceLabelNodesInCommands s rest with ⟨rest1, er⟩
      rw [hr1] at ih
      exact ih

/-- The budget of `Parse` is enough: `Parse` never reports that it ran out. -/
theorem Parse_never_out_of_fuel (p : Parser) : p.Parse.2 ≠ some .OutOfFuel := by
  unfold Parser.Parse Parser.ParseWith
  have hfuel := parseLoop_fuel p.fuel p newScript (by unfold Parser.fuel; omega)
  cases hloop : parseLoop p.fuel p newScript with
  | error e =>
    simp only [ne_eq, Option.some.injEq]
    intro he
    subst he
    exact hfuel hloop
  | ok r =>
    obtain ⟨p1, raw⟩ := r
    simp only []
    unfold replaceLabelNodes
    have hx := replaceCommands_ne_outOfFuel raw raw.commands
    rcases hr : replaceLabelNodesInCommands raw raw.commands with ⟨cs, er⟩
    rw [hr] at hx
    exact hx

/-- The pass of the loop of `Start` over `call(a)`, `a` not 0, with room on the
stack: the saved entry is the index of the `call` itself and the next command
is the one at `a`. -/
theorem loopBody_call (E : Environment σ) (script : Script) (f : RuntimeFrame σ) (a : Int)
    (hfetch : fetch script.Commands f.pc = .ok ⟨CmdCall, [.AddressNode a]⟩)
    (ha : a ≠ 0) (har : inIntRange a) (hsp0 : 0 ≤ f.sp) (hsp1 : f.sp < f.stack.length)
    (hlen : (f.stack.length : Int) < 2 ^ 63) :
    (baseRuntime E script).loopBody f
      = .ok { f with stack := f.stack.set f.sp.toNat f.pc, sp := f.sp + 1, pc := a } := by
  have hspr : wrapInt (f.sp + 1) = f.sp + 1 :=
    wrapInt_of_inIntRange (by unfold inIntRange; constructor <;> omega)
  unfold Runtime.loopBody
  have hf : fetch (baseRuntime E script).script.Commands f.pc
      = .ok ⟨CmdCall, [.AddressNode a]⟩ := hfetch
  rw [hf]
  simp only [RuntimeFrame.ExecuteCommand, baseRuntime, baseHandlers, List.map, argInt,
    RuntimeFrame.CmdCall, RuntimeFrame.pushPC, arraySet]
  have h1 : ¬ (CmdCall = CmdGoto) := by decide
  simp only [h1, if_false, if_true, ha, hsp0, hsp1, and_self, hspr, wrapInt_pred_succ har]

/-- The pass of the loop of `Start` over `ret` when the entry at the top of the
stack is `p`: the next command is the one at `p`. -/
theorem loopBody_ret (E : Environment σ) (script : Script) (f : RuntimeFrame σ) (p : Int)
    (hfetch : fetch script.Commands f.pc = .ok ⟨CmdRet, []⟩)
    (hsp0 : 0 < f.sp) (hsp1 : f.sp ≤ f.stack.length)
    (hlen : (f.stack.length : Int) < 2 ^ 63)
    (htop : f.stack.getD (f.sp - 1).toNat 0 = p) (hp : inIntRange p) :
    (baseRuntime E script).loopBody f = .ok { f with sp := f.sp - 1, pc := p } := by
  have hspr : wrapInt (f.sp - 1) = f.sp - 1 :=
    wrapInt_of_inIntRange (by unfold inIntRange; constructor <;> omega)
  unfold Runtime.loopBody
  have hf : fetch (baseRuntime E script).script.Commands f.pc = .ok ⟨CmdRet, []⟩ := hfetch
  rw [hf]
  have h1 : ¬ (CmdRet = CmdNop) := by decide
  have h2 : ¬ (f.sp = 0) := by omega
  have h3 : 0 ≤ f.sp - 1 ∧ f.sp - 1 < (f.stack.length : Int) := by constructor <;> omega
  simp only [RuntimeFrame.ExecuteCommand, baseRuntime, baseHandlers, List.map,
    RuntimeFrame.CmdRet, RuntimeFrame.popPC, arrayGet, h1, h2, if_false, if_true, hspr, h3,
    and_self, htop, wrapInt_pred_succ hp]

/-- What `CmdFlag` returns after `CmdSetFlag`, over a host store in which `Get`
returns the last value `Set`: whether the two handle numbers share a bit. -/
theorem CmdFlag_after_CmdSetFlag (E : Environment σ)
    (hE : ∀ s v x, E.Get (E.Set s v x) v = x) (f : RuntimeFrame σ) (v : Variable) (F : Flag) :
    RuntimeFrame.CmdFlag E (RuntimeFrame.CmdSetFlag E f v F) v F
      = decide (Int.land (Int.land v F) F ≠ 0) := by
  unfold RuntimeFrame.CmdFlag RuntimeFrame.CmdSetFlag
  simp only [hE]

/-! ## Theorems: the call stack -/

theorem pushPC_ok {σ : Type} {f f1 : RuntimeFrame σ} (h : f.pushPC = .ok f1) :
    0 ≤ f.sp ∧ f.sp < f.stack.length ∧ f1.sp = wrapInt (f.sp + 1)
      ∧ f1.stack = f.stack.set f.sp.toNat f.pc ∧ f1.pc = f.pc ∧ f1.host = f.host := by
  unfold RuntimeFrame.pushPC arraySet at h
  by_cases hr : 0 ≤ f.sp ∧ f.sp < (f.stack.length : Int)
  · rw [if_pos hr] at h
    simp only [Except.ok.injEq] at h
    subst h
    exact ⟨hr.1, hr.2, rfl, rfl, rfl, rfl⟩
  · rw [if_neg hr] at h
    cases h

theorem CmdCall_ok {σ : Type} {script : Script} {f f1 : RuntimeFrame σ} {addr t : Int}
    {j : Bool} (h : RuntimeFrame.CmdCall script f addr = .ok (f1, t, j)) :
    (addr = 0 ∧ f1 = f) ∨ (addr ≠ 0 ∧ f.pushPC = .ok f1) := by
  unfold RuntimeFrame.CmdCall at h
  by_cases ha : addr = 0
  · rw [if_pos ha] at h
    simp only [Except.ok.injEq, Prod.mk.injEq] at h
    exact Or.inl ⟨ha, h.1.symm⟩
  · rw [if_neg ha] at h
    cases hp : f.pushPC with
    | error e => rw [hp] at h; cases h
    | ok f2 =>
      rw [hp] at h
      simp only [Except.ok.injEq, Prod.mk.injEq] at h
      exact Or.inr ⟨ha, by rw [h.1]⟩

theorem popPC_ok {σ : Type} {f f1 : RuntimeFrame σ} {v : Int} {b : Bool}
    (h : f.popPC = .ok (f1, v, b)) :
    (f.sp = 0 ∧ f1 = f) ∨ (f.sp ≠ 0 ∧ f1 = { f with sp := wrapInt (f.sp - 1) }
      ∧ 0 ≤ wrapInt (f.sp - 1) ∧ wrapInt (f.sp - 1) < f.stack.length) := by
  unfold RuntimeFrame.popPC at h
  by_cases hz : f.sp = 0
  · rw [if_pos hz] at h
    simp only [Except.ok.injEq, Prod.mk.injEq] at h
    exact Or.inl ⟨hz, h.1.symm⟩
  · rw [if_neg hz] at h
    simp only [arrayGet] at h
    by_cases hr : 0 ≤ wrapInt (f.sp - 1) ∧ wrapInt (f.sp - 1) < (f.stack.length : Int)
    · rw [if_pos hr] at h
      simp only [Except.ok.injEq, Prod.mk.injEq] at h
      exact Or.inr ⟨hz, h.1.symm, hr.1, hr.2⟩
    · rw [if_neg hr] at h
      cases h

theorem CmdRet_ok {σ : Type} {script : Script} {f f1 : RuntimeFrame σ} {t : Int}
    {j : Bool} (h : RuntimeFrame.CmdRet script f = .ok (f1, t, j)) :
    ∃ v b, f.popPC = .ok (f1, v, b) := by
  unfold RuntimeFrame.CmdRet at h
  cases hp : f.popPC with
  | error e => rw [hp] at h; cases h
  | ok r =>
    obtain ⟨f2, v, b⟩ := r
    rw [hp] at h
    simp only [] at h
    split at h
    · simp only [Except.ok.injEq, Prod.mk.injEq] at h
      exact ⟨v, b, by rw [h.1]⟩
    · simp only [Except.ok.injEq, Prod.mk.injEq] at h
      exact ⟨v, b, by rw [h.1]⟩

/-- A step keeps the stack array at 16 entries and the stack pointer between 0
and 16. -/
theorem FrameStep_bound {σ : Type} {script : Script} {f f1 : RuntimeFrame σ}
    (hs : FrameStep script f f1)
    (h : 0 ≤ f.sp ∧ f.sp ≤ 16 ∧ f.stack.length = 16) :
    0 ≤ f1.sp ∧ f1.sp ≤ 16 ∧ f1.stack.length = 16 := by
  obtain ⟨h0, h1, hl⟩ := h
  cases hs with
  | call _ addr t j hc =>
    rcases CmdCall_ok hc with ⟨_, rfl⟩ | ⟨_, hp⟩
    · exact ⟨h0, h1, hl⟩
    · obtain ⟨_, hlt, hsp, hst, _, _⟩ := pushPC_ok hp
      rw [hl] at hlt
      have hw : wrapInt (f.sp + 1) = f.sp + 1 :=
        wrapInt_of_inIntRange (by unfold inIntRange; constructor <;> omega)
      rw [hsp, hw, hst, List.length_set, hl]
      refine ⟨by omega, by omega, rfl⟩
  | ret _ t j hr =>
    obtain ⟨v, b, hp⟩ := CmdRet_ok hr
    rcases popPC_ok hp with ⟨_, rfl⟩ | ⟨hz, rfl, _, _⟩
    · exact ⟨h0, h1, hl⟩
    · have hw : wrapInt (f.sp - 1) = f.sp - 1 :=
        wrapInt_of_inIntRange (by unfold inIntRange; constructor <;> omega)
      simp only [hw]
      refine ⟨by omega, by omega, hl⟩
  | move pc => exact ⟨h0, h1, hl⟩

theorem FrameReachable_bound {σ : Type} {script : Script} {f : RuntimeFrame σ}
    (h : FrameReachable script f) : 0 ≤ f.sp ∧ f.sp ≤ 16 ∧ f.stack.length = 16 := by
  induction h with
  | fresh r pc env => exact ⟨le_refl _, by simp [Runtime.newFrame], by simp [Runtime.newFrame]⟩
  | step f f1 _ hs ih => exact FrameStep_bound hs ih

/-- C11: in every frame reachable from a fresh frame by calls, returns and moves
of the program counter, the stack pointer lies between 0 and 16 (and the stack
array has its 16 entries); a `CmdCall` with a non-zero address in a frame with
16 saved entries is the out-of-range fault and returns no frame; and a
`CmdCall` that succeeds leaves every saved entry below the stack pointer as it
was. -/
theorem C11_call_stack_bound {σ : Type} (script : Script) (f : RuntimeFrame σ)
    (h : FrameReachable script f) :
    (0 ≤ f.sp ∧ f.sp ≤ 16)
    ∧ (∀ addr : Int, addr ≠ 0 → f.sp = 16 →
        RuntimeFrame.CmdCall script f addr = .error .indexOutOfRange)
    ∧ (∀ (addr t : Int) (j : Bool) (f1 : RuntimeFrame σ),
        RuntimeFrame.CmdCall script f addr = .ok (f1, t, j) →
        ∀ i : Nat, (i : Int) < f.sp → f1.stack.get? i = f.stack.get? i) := by
  obtain ⟨h0, h1, hl⟩ := FrameReachable_bound h
  refine ⟨⟨h0, h1⟩, ?_, ?_⟩
  · intro addr ha hsp
    unfold RuntimeFrame.CmdCall RuntimeFrame.pushPC arraySet
    rw [if_neg ha]
    have : ¬ (0 ≤ f.sp ∧ f.sp < (f.stack.length : Int)) := by
      rw [hl, hsp]
      decide
    rw [if_neg this]
  · intro addr t j f1 hc i hi
    rcases CmdCall_ok hc with ⟨_, rfl⟩ | ⟨_, hp⟩
    · rfl
    · obtain ⟨_, _, _, hst, _, _⟩ := pushPC_ok hp
      rw [hst]
      simp only [List.get?_eq_getElem?]
      rw [List.getElem?_set_ne]
      omega

/-- C12: `CmdCall(0)` returns `(EndOfScript, true)` and leaves the frame, with
its stack pointer and every stack entry, as it was; so the pass of the loop of
`Start` over `call(0)` leaves the program counter at `len(commands)`, which is
not 0, and the run ends there: the command at address 0 is not entered. -/
theorem C12_call_zero_sentinel {σ : Type} (E : Environment σ) (script : Script) :
    (∀ f : RuntimeFrame σ,
      RuntimeFrame.CmdCall script f 0 = .ok (f, script.EndOfScript, true))
    ∧ (∀ (f : RuntimeFrame σ) (n : Nat),
        fetch script.Commands f.pc = .ok ⟨CmdCall, [.AddressNode 0]⟩ →
        (script.commands.length : Int) < 2 ^ 63 →
        (baseRuntime E script).loopBody f = .ok { f with pc := script.EndOfScript }
          ∧ script.EndOfScript ≠ 0
          ∧ (baseRuntime E script).loop (n + 2) f
              = some (.ok { f with pc := script.EndOfScript })) := by
  constructor
  · intro f
    unfold RuntimeFrame.CmdCall
    rw [if_pos rfl]
  · intro f n hfetch hlen
    have hend : inIntRange script.EndOfScript := by
      unfold inIntRange Script.EndOfScript
      constructor <;> omega
    have hbody : (baseRuntime E script).loopBody f = .ok { f with pc := script.EndOfScript } := by
      unfold Runtime.loopBody
      have hf : fetch (baseRuntime E script).script.Commands f.pc
          = .ok ⟨CmdCall, [.AddressNode 0]⟩ := hfetch
      rw [hf]
      have h1 : ¬ (CmdCall = CmdGoto) := by decide
      simp only [RuntimeFrame.ExecuteCommand, baseRuntime, baseHandlers, List.map, argInt,
        RuntimeFrame.CmdCall, h1, if_false, if_true, wrapInt_pred_succ hend]
    have hpc : f.pc < (script.commands.length : Int) ∧ 0 ≤ f.pc := by
      unfold fetch at hfetch
      by_cases hneg : f.pc < 0
      · rw [if_pos hneg] at hfetch; cases hfetch
      · rw [if_neg hneg] at hfetch
        cases hg : script.Commands.get? f.pc.toNat with
        | none => rw [hg] at hfetch; cases hfetch
        | some c =>
          have := List.get?_eq_some.mp hg
          obtain ⟨hlt, _⟩ := this
          unfold Script.Commands at hlt
          constructor <;> omega
    refine ⟨hbody, ?_, ?_⟩
    · unfold Script.EndOfScript
      omega
    · have hlen2 : (baseRuntime E script).script.Commands.length = script.commands.length := rfl
      rw [Runtime.loop, hlen2, if_pos hpc.1, hbody]
      simp only []
      rw [Runtime.loop, hlen2]
      have : ¬ ((script.EndOfScript : Int) < (script.commands.length : Int)) := by
        unfold Script.EndOfScript
        omega
      rw [if_neg this]

/-- C13: in a frame whose call stack is empty, `CmdRet` returns
`(EndOfScript, true)`, `EndOfScript` being `len(commands)`, and leaves the
frame, with its empty stack, as it was. -/
theorem C13_return_on_empty_stack {σ : Type} (script : Script) (f : RuntimeFrame σ)
    (h : f.sp = 0) :
    RuntimeFrame.CmdRet script f = .ok (f, script.EndOfScript, true)
    ∧ script.EndOfScript = (script.commands.length : Int) := by
  constructor
  · unfold RuntimeFrame.CmdRet RuntimeFrame.popPC
    rw [if_pos h]
    simp
  · rfl

theorem callTimes_reachable {σ : Type} (script : Script) (addr : Int) (n : Nat) :
    ∀ (f f1 : RuntimeFrame σ), FrameReachable script f →
      callTimes script addr n f = .ok f1 → FrameReachable script f1 := by
  induction n with
  | zero =>
    intro f f1 hf h
    simp only [callTimes, Except.ok.injEq] at h
    exact h ▸ hf
  | succ n ih =>
    intro f f1 hf h
    simp only [callTimes] at h
    cases hc : RuntimeFrame.CmdCall script f addr with
    | error e => rw [hc] at h; cases h
    | ok r =>
      obtain ⟨f2, t, j⟩ := r
      rw [hc] at h
      exact ih f2 f1 (FrameReachable.step f f2 hf (FrameStep.call f f2 addr t j hc)) h

theorem fullFrame_reachable : FrameReachable callZeroScript fullFrame :=
  callTimes_reachable callZeroScript 1 16
    ((baseRuntime unitEnvironment callZeroScript).newFrame 1 ()) fullFrame
    (FrameReachable.fresh _ 1 ()) rfl

theorem C11_witness :
    FrameReachable callZeroScript fullFrame ∧ fullFrame.sp = 16
    ∧ RuntimeFrame.CmdCall callZeroScript fullFrame 1 = .error .indexOutOfRange :=
  ⟨fullFrame_reachable, rfl,
    (C11_call_stack_bound callZeroScript fullFrame fullFrame_reachable).2.1 1
      (by decide) rfl⟩

theorem C12_witness :
    (baseRuntime unitEnvironment callZeroScript).loop 2
        ((baseRuntime unitEnvironment callZeroScript).newFrame 1 ())
      = some (.ok { (baseRuntime unitEnvironment callZeroScript).newFrame 1 () with pc := 2 }) :=
  ((C12_call_zero_sentinel unitEnvironment callZeroScript).2
    ((baseRuntime unitEnvironment callZeroScript).newFrame 1 ()) 0 rfl (by decide)).2.2

theorem C13_witness :
    RuntimeFrame.CmdRet callZeroScript
        ((baseRuntime unitEnvironment callZeroScript).newFrame 0 ())
      = .ok ((baseRuntime unitEnvironment callZeroScript).newFrame 0 (), 2, true) :=
  (C13_return_on_empty_stack callZeroScript
    ((baseRuntime unitEnvironment callZeroScript).newFrame 0 ()) rfl).1

/-! ## Theorems: the argument binder -/

theorem bindField_required (MI : Identifier) (MV : Variable) {argv : List ExpressionNode}
    {i : Nat} {fld : StructField} (h : requiredOutOfRange argv i fld = true) :
    ∃ argIdx, fld.argIdx i = some argIdx ∧ (argv.length : Int) ≤ argIdx
      ∧ bindField MI MV argv i fld = .fail (.indexOutOfBounds argIdx) := by
  unfold requiredOutOfRange at h
  simp only [Bool.and_eq_true, decide_eq_true_eq, Bool.not_eq_true', ne_eq] at h
  obtain ⟨⟨htag, hopt⟩, hidx⟩ := h
  cases ha : fld.argIdx i with
  | none => rw [ha] at hidx; cases hidx
  | some argIdx =>
    rw [ha] at hidx
    simp only [decide_eq_true_eq] at hidx
    refine ⟨argIdx, rfl, hidx, ?_⟩
    unfold bindField
    rw [if_neg htag, ha]
    simp only [if_pos hidx, hopt, Bool.false_eq_true, if_false]

theorem bindField_optional_flag (MI : Identifier) (MV : Variable) {argv : List ExpressionNode}
    {i : Nat} {fld : StructField} {flag : Flag} (h : optionalOutOfRange argv i fld = true)
    (hflag : fld.Value = .Flag flag) :
    bindField MI MV argv i fld = .next (.Flag flag) (some fld.Name) := by
  unfold optionalOutOfRange at h
  simp only [Bool.and_eq_true, decide_eq_true_eq, ne_eq] at h
  obtain ⟨⟨htag, hopt⟩, hidx⟩ := h
  cases ha : fld.argIdx i with
  | none => rw [ha] at hidx; cases hidx
  | some argIdx =>
    rw [ha] at hidx
    simp only [decide_eq_true_eq] at hidx
    unfold bindField
    rw [if_neg htag, ha]
    simp only [if_pos hidx, hopt, if_true, hflag]

theorem bindLoop_nil_get {MI : Identifier} {MV : Variable} {argv : List ExpressionNode} :
    ∀ (v : List StructField) (k : Nat) (fs : List StructField) (log : List String),
      bindLoop MI MV argv k v = .returned none fs log →
      ∀ (j : Nat) (fld : StructField), v.get? j = some fld →
        ∃ value logged, bindField MI MV argv (k + j) fld = .next value logged := by
  intro v
  induction v with
  | nil => intro k fs log _ j fld hj; cases hj
  | cons a rest ih =>
    intro k fs log h j fld hj
    simp only [bindLoop] at h
    cases hb : bindField MI MV argv k a with
    | panic => rw [hb] at h; cases h
    | fail e => rw [hb] at h; cases h
    | next value logged =>
      rw [hb] at h
      simp only [] at h
      cases hr : bindLoop MI MV argv (k + 1) rest with
      | panicked => rw [hr] at h; cases h
      | returned err fs1 log1 =>
        rw [hr] at h
        simp only [Unmarshal.returned.injEq] at h
        obtain ⟨rfl, _, _⟩ := h
        cases j with
        | zero =>
          simp only [List.get?_cons_zero, Option.some.injEq] at hj
          subst hj
          exact ⟨value, logged, hb⟩
        | succ j =>
          simp only [List.get?_cons_succ] at hj
          obtain ⟨v1, l1, h1⟩ := ih (k + 1) fs1 log1 hr j fld hj
          exact ⟨v1, l1, by rw [← h1]; congr 1; omega⟩

theorem bindLoop_append {MI : Identifier} {MV : Variable} {argv : List ExpressionNode} :
    ∀ (a b : List StructField) (k : Nat) (fs : List StructField) (log : List String),
      bindLoop MI MV argv k a = .returned none fs log →
      bindLoop MI MV argv k (a ++ b)
        = match bindLoop MI MV argv (k + a.length) b with
          | .panicked => .panicked
          | .returned err fs1 log1 => .returned err (fs ++ fs1) (log ++ log1) := by
  intro a
  induction a with
  | nil =>
    intro b k fs log h
    simp only [bindLoop, Unmarshal.returned.injEq, true_and] at h
    obtain ⟨rfl, rfl⟩ := h
    simp only [List.nil_append, List.length_nil, Nat.add_zero]
    cases bindLoop MI MV argv k b <;> rfl
  | cons x rest ih =>
    intro b k fs log h
    simp only [bindLoop] at h
    simp only [List.cons_append, bindLoop]
    cases hb : bindField MI MV argv k x with
    | panic => rw [hb] at h; cases h
    | fail e => rw [hb] at h; cases h
    | next value logged =>
      rw [hb] at h
      simp only [] at h ⊢
      cases hr : bindLoop MI MV argv (k + 1) rest with
      | panicked => rw [hr] at h; cases h
      | returned err fs1 log1 =>
        rw [hr] at h
        simp only [Unmarshal.returned.injEq] at h
        obtain ⟨rfl, rfl, rfl⟩ := h
        simp only [List.append_eq]
        rw [ih b (k + 1) fs1 log1 hr]
        have : k + 1 + rest.length = k + (x :: rest).length := by
          simp only [List.length_cons]; omega
        rw [this]
        cases bindLoop MI MV argv (k + (x :: rest).length) b with
        | panicked => rfl
        | returned e2 fs2 log2 => simp only [List.cons_append, List.append_assoc]

theorem take_append_get_drop {α : Type} (v : List α) (i : Nat) (x : α)
    (h : v.get? i = some x) :
    v = v.take i ++ x :: v.drop (i + 1) ∧ (v.take i).length = i
      ∧ v.drop i = x :: v.drop (i + 1) := by
  have hlt : i < v.length := by
    rw [List.get?_eq_some] at h
    exact h.1
  have hx : v[i] = x := by
    rw [List.get?_eq_some] at h
    obtain ⟨_, h2⟩ := h
    simpa using h2
  refine ⟨?_, ?_, ?_⟩
  · rw [← hx, List.cons_getElem_drop_succ, List.take_append_drop]
  · simp only [List.length_take]; omega
  · rw [← hx, List.cons_getElem_drop_succ]

/-- C14 (counterexample): with the empty argument list `unmarshalArgs` returns
`nil` for the schema with one required parameter, whose positional index 0 is
not below `len(argv) = 0`; the struct is left as it was. -/
theorem C14_empty_argv_returns_nil :
    requiredOutOfRange [] 0 ⟨"Power", "", .int 0⟩ = true
    ∧ powerSchema.get? 0 = some ⟨"Power", "", .int 0⟩
    ∧ unmarshalArgs 0 0 [] powerSchema = .returned none powerSchema [] := by
  decide

/-- C14 (amended): for a schema with a non-skipped, non-optional parameter whose
positional index is at least `len(argv)`: when `argv` is empty `unmarshalArgs`
returns `nil` and leaves the struct as it was; when `argv` is not empty it
never returns `nil`, and it returns the error `index out of bounds` for that
index as soon as the parameters before it bind. -/
theorem C14_missing_required_parameter (MI : Identifier) (MV : Variable)
    (argv : List ExpressionNode) (v : List StructField) (i : Nat) (fld : StructField)
    (hget : v.get? i = some fld) (hreq : requiredOutOfRange argv i fld = true) :
    (argv = [] → unmarshalArgs MI MV argv v = .returned none v [])
    ∧ (argv ≠ [] →
        (∀ fs log, unmarshalArgs MI MV argv v ≠ .returned none fs log)
        ∧ ∃ argIdx, fld.argIdx i = some argIdx ∧ (argv.length : Int) ≤ argIdx
          ∧ ∀ fs log, bindLoop MI MV argv 0 (v.take i) = .returned none fs log →
              unmarshalArgs MI MV argv v
                = .returned (some (.indexOutOfBounds argIdx)) (fs ++ v.drop i) log) := by
  constructor
  · intro h
    unfold unmarshalArgs
    rw [if_pos (by rw [h]; rfl)]
  · intro hne
    have hlen : ¬ (argv.length = 0) := by
      intro h
      exact hne (List.length_eq_zero.mp h)
    obtain ⟨argIdx, hidx, hle, hfail⟩ := bindField_required MI MV hreq
    constructor
    · intro fs log h
      unfold unmarshalArgs at h
      rw [if_neg hlen] at h
      obtain ⟨value, logged, hb⟩ := bindLoop_nil_get v 0 fs log h i fld hget
      rw [Nat.zero_add, hfail] at hb
      cases hb
    · refine ⟨argIdx, hidx, hle, ?_⟩
      intro fs log hpre
      obtain ⟨hv, hl, hd⟩ := take_append_get_drop v i fld hget
      unfold unmarshalArgs
      rw [if_neg hlen]
      conv_lhs => rw [hv]
      rw [bindLoop_append _ _ 0 fs log hpre, hl, Nat.zero_add, hd]
      simp only [bindLoop, hfail, List.append_nil]

theorem C14_witness :
    unmarshalArgs 0 0 [.IntegerNode 5] maskSchema.reverse
      = .returned (some (.indexOutOfBounds 1)) maskSchema.reverse ["Mask"] :=
  by
    have h := (C14_missing_required_parameter 0 0 [.IntegerNode 5] maskSchema.reverse 1
      ⟨"Value", "", .int 0⟩ (by decide) (by decide)).2 (by decide)
    obtain ⟨_, argIdx, hidx, _, hall⟩ := h
    have : argIdx = 1 := by
      have h2 : (StructField.argIdx ⟨"Value", "", .int 0⟩ 1) = some 1 := by decide
      rw [h2] at hidx
      exact (Option.some.inj hidx).symm
    subst this
    exact hall [⟨"Mask", "1,optional", .Flag 7⟩] ["Mask"] (by decide)

/-- C15 (counterexample): with one argument and the schema of a required
integer parameter followed by an optional flag parameter at index 1,
`unmarshalArgs` returns `nil`; the flag field keeps its value and one line is
logged. -/
theorem C15_optional_flag_returns_nil :
    optionalOutOfRange [.IntegerNode 5] 1 ⟨"Mask", "1,optional", .Flag 7⟩ = true
    ∧ maskSchema.get? 1 = some ⟨"Mask", "1,optional", .Flag 7⟩
    ∧ unmarshalArgs 0 0 [.IntegerNode 5] maskSchema
        = .returned none [⟨"Value", "", .int 5⟩, ⟨"Mask", "1,optional", .Flag 7⟩] ["Mask"] := by
  decide

/-- C15 (amended): for a parameter of the Flag domain marked optional whose
positional index is at least `len(argv)`, the pass of the loop over it logs one
line, leaves the field as it was and goes on to the next parameter; so when
`argv` is not empty and the parameters before and after it bind,
`unmarshalArgs` returns `nil` with the flag field unchanged. -/
theorem C15_optional_flag_out_of_range (MI : Identifier) (MV : Variable)
    (argv : List ExpressionNode) (v : List StructField) (i : Nat) (fld : StructField)
    (flag : Flag) (hne : argv ≠ []) (hget : v.get? i = some fld)
    (hflag : fld.Value = .Flag flag) (hopt : optionalOutOfRange argv i fld = true) :
    bindField MI MV argv i fld = .next (.Flag flag) (some fld.Name)
    ∧ ∀ fs0 log0 fs1 log1,
        bindLoop MI MV argv 0 (v.take i) = .returned none fs0 log0 →
        bindLoop MI MV argv (i + 1) (v.drop (i + 1)) = .returned none fs1 log1 →
        unmarshalArgs MI MV argv v
          = .returned none (fs0 ++ fld :: fs1) (log0 ++ fld.Name :: log1) := by
  have hb := bindField_optional_flag MI MV hopt hflag
  refine ⟨hb, ?_⟩
  intro fs0 log0 fs1 log1 hpre hpost
  have hlen : ¬ (argv.length = 0) := by
    intro h
    exact hne (List.length_eq_zero.mp h)
  obtain ⟨hv, hl, _⟩ := take_append_get_drop v i fld hget
  unfold unmarshalArgs
  rw [if_neg hlen]
  conv_lhs => rw [hv]
  rw [bindLoop_append _ _ 0 fs0 log0 hpre, hl, Nat.zero_add]
  simp only [bindLoop, hb, hpost, Option.toList, List.singleton_append]
  have : ({ fld with Value := .Flag flag } : StructField) = fld := by
    cases fld
    simp only at hflag
    subst hflag
    rfl
  rw [this]

theorem C15_witness :
    unmarshalArgs 0 0 [.IntegerNode 5] maskSchema
      = .returned none ([⟨"Value", "", .int 5⟩] ++ ⟨"Mask", "1,optional", .Flag 7⟩ :: [])
          (([] : List String) ++ "Mask" :: []) :=
  (C15_optional_flag_out_of_range 0 0 [.IntegerNode 5] maskSchema 1
    ⟨"Mask", "1,optional", .Flag 7⟩ 7 (by decide) (by decide) rfl (by decide)).2
    [⟨"Value", "", .int 5⟩] [] [] [] (by decide) (by decide)

/-! ## Theorems: identifier resolution, the end marker, integer literals -/

theorem getDefinedIdent_congr {p q : Parser} (h : p.tables = q.tables) (s : Script)
    (tok : Token) : p.getDefinedIdent s tok = q.getDefinedIdent s tok := by
  unfold Parser.tables at h
  simp only [Prod.mk.injEq] at h
  obtain ⟨_, h1, h2, h3, _⟩ := h
  unfold Parser.getDefinedIdent Parser.getIdentifier Parser.getVariable Parser.getFlag
  rw [h1, h2, h3]

/-- C16: `getDefinedIdent` returns the stored tree when the name is in the
constant table of the Script; else `IdentifierNode` when it is in the
identifier registry; else `VariableNode` when it is in the variable registry;
else `FlagNode` when it is in the flag registry; else `LabelNode` of the name.
It is a total function, and `parsePrimary` on an identifier token returns its
result without an error. -/
theorem C16_identifier_resolution_order (p : Parser) (script : Script) (tok : Token) :
    (∀ expr, script.constants.lookup tok.Value = some expr →
        p.getDefinedIdent script tok = expr)
    ∧ (script.constants.lookup tok.Value = none →
        (∀ i, p.getIdentifier tok.Value = some i →
          p.getDefinedIdent script tok = .IdentifierNode i)
        ∧ (p.getIdentifier tok.Value = none →
            (∀ v, p.getVariable tok.Value = some v →
              p.getDefinedIdent script tok = .VariableNode v)
            ∧ (p.getVariable tok.Value = none →
                (∀ f, p.getFlag tok.Value = some f →
                  p.getDefinedIdent script tok = .FlagNode f)
                ∧ (p.getFlag tok.Value = none →
                    p.getDefinedIdent script tok = .LabelNode tok.Value))))
    ∧ (∀ (n : Nat) (rest : List Token), tok.typ = .IdentToken → p.pending = tok :: rest →
        ∃ p1, parsePrimary (n + 1) p script = .ok (p.getDefinedIdent script tok, p1)
          ∧ p1.pending = rest) := by
  refine ⟨?_, ?_, ?_⟩
  · intro expr h
    unfold Parser.getDefinedIdent
    rw [h]
  · intro hc
    refine ⟨?_, ?_⟩
    · intro i h
      unfold Parser.getDefinedIdent
      rw [hc, h]
    · intro hi
      refine ⟨?_, ?_⟩
      · intro v h
        unfold Parser.getDefinedIdent
        rw [hc, hi, h]
      · intro hv
        refine ⟨?_, ?_⟩
        · intro f h
          unfold Parser.getDefinedIdent
          rw [hc, hi, hv, h]
        · intro hf
          unfold Parser.getDefinedIdent
          rw [hc, hi, hv, hf]
  · intro n rest htyp hp
    obtain ⟨p1, h1, h2, h3⟩ := advance_of_cons hp
    refine ⟨p1, ?_, h2⟩
    simp only [parsePrimary, h1, htyp]
    rw [getDefinedIdent_congr h3]

theorem C16_witness :
    (parserOf overlapConfig []).getDefinedIdent newScript ⟨.IdentToken, "x"⟩
      = .IdentifierNode 1
    ∧ (parserOf overlapConfig []).getDefinedIdent newScript ⟨.IdentToken, "y"⟩
      = .VariableNode 3
    ∧ (parserOf overlapConfig []).getDefinedIdent newScript ⟨.IdentToken, "z"⟩
      = .FlagNode 6
    ∧ (parserOf overlapConfig []).getDefinedIdent newScript ⟨.IdentToken, "w"⟩
      = .LabelNode "w"
    ∧ (parserOf overlapConfig []).getDefinedIdent
        { newScript with constants := [("x", .IntegerNode 9)] } ⟨.IdentToken, "x"⟩
      = .IntegerNode 9 :=
  ⟨(C16_identifier_resolution_order (parserOf overlapConfig []) newScript
      ⟨.IdentToken, "x"⟩).2.1 (by decide) |>.1 1 (by decide),
   ((C16_identifier_resolution_order (parserOf overlapConfig []) newScript
      ⟨.IdentToken, "y"⟩).2.1 (by decide) |>.2 (by decide)).1 3 (by decide),
   (((C16_identifier_resolution_order (parserOf overlapConfig []) newScript
      ⟨.IdentToken, "z"⟩).2.1 (by decide) |>.2 (by decide)).2 (by decide)).1 6 (by decide),
   (((C16_identifier_resolution_order (parserOf overlapConfig []) newScript
      ⟨.IdentToken, "w"⟩).2.1 (by decide) |>.2 (by decide)).2 (by decide)).2 (by decide),
   (C16_identifier_resolution_order (parserOf overlapConfig [])
      { newScript with constants := [("x", .IntegerNode 9)] } ⟨.IdentToken, "x"⟩).1 _
      (by decide)⟩

theorem advanceTimes_pending :
    ∀ (toks : List Token) (p : Parser) (rest : List Token), p.pending = toks ++ rest →
      ∃ p1, advanceTimes toks.length p = .ok (toks, p1) ∧ p1.pending = rest
        ∧ p1.tables = p.tables := by
  intro toks
  induction toks with
  | nil =>
    intro p rest h
    exact ⟨p, rfl, by simpa using h, rfl⟩
  | cons t ts ih =>
    intro p rest h
    have hcons : p.pending = t :: (ts ++ rest) := by simpa using h
    obtain ⟨p1, h1, h2, h3⟩ := advance_of_cons hcons
    obtain ⟨p2, h4, h5, h6⟩ := ih p1 rest h2
    refine ⟨p2, ?_, h5, by rw [h6, h3]⟩
    simp only [List.length_cons, advanceTimes, h1, h4]

theorem advance_of_pending_nil {p : Parser} (h : p.pending = []) :
    p.advance = .error .BufferError := by
  cases ha : p.advance with
  | error e =>
    obtain ⟨rfl, _⟩ := advance_error ha
    rfl
  | ok r =>
    obtain ⟨tok, p1⟩ := r
    obtain ⟨h1, _⟩ := advance_ok ha
    rw [h] at h1
    cases h1

theorem peek_of_pending_nil {p : Parser} (h : p.pending = []) :
    p.peek = .error .BufferError := by
  cases ha : p.peek with
  | error e =>
    obtain ⟨rfl, _⟩ := peekAhead_error (by decide : 0 < 16) ha
    rfl
  | ok r =>
    obtain ⟨tok, p1⟩ := r
    obtain ⟨h1, _, _⟩ := peek_ok ha
    rw [h] at h1
    cases h1

theorem upToEOF_getLast (toks : List Token) :
    ∃ front eof, upToEOF toks = front ++ [eof] ∧ eof.typ = .EOF := by
  induction toks with
  | nil => exact ⟨[], ⟨.EOF, ""⟩, rfl, rfl⟩
  | cons t r ih =>
    unfold upToEOF
    by_cases h : t.typ = .EOF
    · rw [if_pos h]
      exact ⟨[], t, rfl, h⟩
    · rw [if_neg h]
      obtain ⟨front, eof, h1, h2⟩ := ih
      exact ⟨t :: front, eof, by rw [h1]; rfl, h2⟩

/-- C17: for every token source and every registry configuration, the calls of
`advance` that read the tokens up to and including the end marker all succeed,
the last of them returns the end marker, and after it the next `advance` and
the next `peek` both fail with the error of the empty buffer: the end marker is
not returned a second time.  So `Parse` fails on a program whose last line is
not closed by a newline, since `parseCommand` consumes the end marker. -/
theorem C17_end_marker_is_consumed (l : Lexer) (c : ParserConfig) (parseFloat : String → Bool) :
    (∃ front eof p1, upToEOF l.rest = front ++ [eof] ∧ eof.typ = .EOF
      ∧ advanceTimes (front ++ [eof]).length (NewParser l c parseFloat)
          = .ok (front ++ [eof], p1)
      ∧ p1.advance = .error .BufferError
      ∧ p1.peek = .error .BufferError)
    ∧ (parserOf exampleConfig [⟨.IdentToken, "nop"⟩]).Parse.2 = some .BufferError
    ∧ (parserOf exampleConfig [⟨.IdentToken, "nop"⟩]).Parse.1.isNone = true := by
  refine ⟨?_, by decide!, by decide!⟩
  obtain ⟨front, eof, h1, h2⟩ := upToEOF_getLast l.rest
  have hp : (NewParser l c parseFloat).pending = (front ++ [eof]) ++ [] := by
    simp only [Parser.pending, NewParser, List.nil_append, Bool.false_eq_true, if_false, h1,
      List.append_nil]
  obtain ⟨p1, h3, h4, _⟩ := advanceTimes_pending (front ++ [eof]) _ [] hp
  exact ⟨front, eof, p1, h1, h2, h3, advance_of_pending_nil h4, peek_of_pending_nil h4⟩

theorem digit_head_not_sign {c : Char} {cs : List Char} (h : (c :: cs).all Char.isDigit = true) :
    ¬ ((c :: cs).head? = some '+' ∨ (c :: cs).head? = some '-') := by
  simp only [List.all_cons, Bool.and_eq_true] at h
  simp only [List.head?_cons, Option.some.injEq]
  rintro (rfl | rfl)
  · exact absurd h.1 (by decide)
  · exact absurd h.1 (by decide)

theorem ParseInt32_digits (text : String) (h : isDigitString text = true) :
    ParseInt32 text
      = if decimalValue text < 2 ^ 31 then some (decimalValue text : Int) else none := by
  unfold isDigitString at h
  simp only [Bool.and_eq_true, decide_eq_true_eq, ne_eq] at h
  obtain ⟨hne, hall⟩ := h
  cases hd : text.data with
  | nil => exact absurd hd hne
  | cons c cs =>
    rw [hd] at hall
    have hs := digit_head_not_sign hall
    have hm : ¬ ((c :: cs).head? = some '-') := fun hh => hs (Or.inr hh)
    have hq : ¬ ((c :: cs).head? = some '+') := fun hh => hs (Or.inl hh)
    unfold ParseInt32 decimalValue
    simp only [hd, hq, hm, or_self, if_false, decide_False, hall, if_true, Bool.false_eq_true,
      reduceCtorEq, ge_iff_le]
    by_cases hv : List.foldl (fun a c => 10 * a + (c.toNat - 48)) 0 (c :: cs) < 2 ^ 31
    · rw [if_pos hv, if_neg (by omega)]
    · rw [if_neg hv, if_pos (by omega)]

/-- C19: a number token whose text is a non-empty string of decimal digits is
parsed by `parsePrimary` into `IntegerNode` with the value of the text when the
value is below 2^31; when it is not, `parsePrimary` fails, and the error is the
one of `strconv.ParseInt` as it is, which is no `SyntaxError`.  On the program
`set v, 2147483648` `Parse` returns no Script and that error. -/
theorem C19_integer_literal (n : Nat) (p : Parser) (script : Script) (text : String)
    (rest : List Token) (hd : isDigitString text = true)
    (hp : p.pending = ⟨.NumberToken, text⟩ :: rest) :
    (decimalValue text < 2 ^ 31 →
      ∃ p1, parsePrimary (n + 1) p script = .ok (.IntegerNode (decimalValue text), p1)
        ∧ p1.pending = rest)
    ∧ (2 ^ 31 ≤ decimalValue text →
        parsePrimary (n + 1) p script = .error (.NumError text)
        ∧ ∀ m, Error.NumError text ≠ Error.SyntaxError m)
    ∧ (parserOf exampleConfig setOutOfRange).Parse.2 = some (.NumError "2147483648")
    ∧ (parserOf exampleConfig setOutOfRange).Parse.1.isNone = true := by
  obtain ⟨p1, h1, h2, _⟩ := advance_of_cons hp
  have hdot : text.data.contains '.' = false := by
    unfold isDigitString at hd
    simp only [Bool.and_eq_true, decide_eq_true_eq, ne_eq, List.all_eq_true] at hd
    rw [Bool.eq_false_iff]
    intro hc
    simp only [List.contains_iff_exists_mem_beq, beq_iff_eq] at hc
    obtain ⟨a, ha, rfl⟩ := hc
    exact absurd (hd.2 _ ha) (by decide)
  have hP := ParseInt32_digits text hd
  refine ⟨?_, ?_, by decide!, by decide!⟩
  · intro hv
    rw [if_pos hv] at hP
    refine ⟨p1, ?_, h2⟩
    simp only [parsePrimary, h1, hdot, hP, Bool.false_eq_true, if_false]
  · intro hv
    rw [if_neg (by omega)] at hP
    refine ⟨?_, fun m h => by cases h⟩
    simp only [parsePrimary, h1, hdot, hP, Bool.false_eq_true, if_false]

theorem C19_witness :
    parsePrimary 1 (parserOf exampleConfig [⟨.NumberToken, "2147483648"⟩]) newScript
      = .error (.NumError "2147483648") :=
  ((C19_integer_literal 0 (parserOf exampleConfig [⟨.NumberToken, "2147483648"⟩]) newScript
    "2147483648" [⟨.EOF, ""⟩] (by decide) (by decide!)).2.1 (by decide)).1

/-! ## Theorems: the null command and the labels of macros -/

theorem noNullCommand_of_scriptSat {Q : ExpressionNode → Prop} {s : Script} (h : ScriptSat Q s) :
    NoNullCommand s := by
  induction h with
  | mk s hc _ _ ih => exact NoNullCommand.mk s (fun c hmem => (hc c hmem).1) ih

theorem noNullCommand_commands {s : Script} (h : NoNullCommand s) :
    ∀ c ∈ s.commands, c.typ ≠ CmdNone := by
  cases h with
  | mk _ hc _ => exact hc

theorem noNullCommand_macros {s : Script} (h : NoNullCommand s) :
    ∀ name m, (name, m) ∈ s.macros → NoNullCommand m := by
  cases h with
  | mk _ _ hm => exact hm

theorem replaceCommands_typ (s : Script) :
    ∀ (cs : List CommandNode), ∀ c ∈ (replaceLabelNodesInCommands s cs).1,
      ∃ c0 ∈ cs, c.typ = c0.typ := by
  intro cs
  induction cs with
  | nil => intro c hc; simp [replaceLabelNodesInCommands] at hc
  | cons x rest ih =>
    intro c hc
    unfold replaceLabelNodesInCommands at hc
    rcases hx1 : replaceLabelNodesInArgs s x.Args with ⟨x1, ex⟩
    rw [hx1] at hc
    cases ex with
    | some e =>
      simp only [List.mem_cons] at hc
      rcases hc with rfl | hc
      · exact ⟨x, List.mem_cons_self _ _, rfl⟩
      · exact ⟨c, List.mem_cons_of_mem _ hc, rfl⟩
    | none =>
      rcases hr1 : replaceLabelNodesInCommands s rest with ⟨rest1, er⟩
      rw [hr1] at hc ih
      simp only [List.mem_cons] at hc
      rcases hc with rfl | hc
      · exact ⟨x, List.mem_cons_self _ _, rfl⟩
      · obtain ⟨c0, hc0, ht⟩ := ih c hc
        exact ⟨c0, List.mem_cons_of_mem _ hc0, ht⟩

/-- C18: in every Script that `Parse` returns, with or without an error, no
command has the type `CmdNone`, in the outermost Script and, recursively, in
the sub-Script of every macro; and `none` is a registered command name, which
maps to `CmdNone`. -/
theorem C18_no_null_command (p : Parser) (script : Script) (err : Option Error)
    (h : p.Parse = (some script, err)) :
    NoNullCommand script
    ∧ (∀ c ∈ script.commands, c.typ ≠ CmdNone)
    ∧ (∀ name m, (name, m) ∈ script.macros → ∀ c ∈ m.commands, c.typ ≠ CmdNone)
    ∧ baseCommandTypes.lookup "none" = some CmdNone := by
  have hN : NoNullCommand script := by
    unfold Parser.Parse Parser.ParseWith at h
    cases hloop : parseLoop p.fuel p newScript with
    | error e => rw [hloop] at h; cases h
    | ok r =>
      obtain ⟨p1, raw⟩ := r
      rw [hloop] at h
      simp only [] at h
      obtain ⟨hsat, _, _⟩ := parseLoop_post nodeClosed_true p.fuel p p1 newScript raw hloop
      have hraw : NoNullCommand raw := noNullCommand_of_scriptSat (hsat (ScriptSat_newScript _))
      unfold replaceLabelNodes at h
      have htyp := replaceCommands_typ raw raw.commands
      rcases hr : replaceLabelNodesInCommands raw raw.commands with ⟨cs, e2⟩
      rw [hr] at h htyp
      simp only [Prod.mk.injEq, Option.some.injEq] at h
      obtain ⟨rfl, _⟩ := h
      have hmac : ∀ name m, (name, m) ∈ raw.macros → NoNullCommand m :=
        noNullCommand_macros hraw
      refine NoNullCommand.mk _ ?_ hmac
      intro c hc
      obtain ⟨c0, hc0, ht⟩ := htyp c hc
      rw [ht]
      exact noNullCommand_commands hraw c0 hc0
  exact ⟨hN, noNullCommand_commands hN,
    fun name m hm => noNullCommand_commands (noNullCommand_macros hN name m hm), by decide⟩

theorem C18_witness :
    ∃ script, (parserOf exampleConfig noneProgram).Parse = (some script, none)
      ∧ script.commands = [⟨CmdNop, []⟩, ⟨CmdRet, []⟩]
      ∧ script.macroCommands = [("m", [⟨CmdNop, []⟩])]
      ∧ ∀ c ∈ script.commands, c.typ ≠ CmdNone := by
  have h1 : (parserOf exampleConfig noneProgram).Parse.1.isSome = true := by decide!
  have h2 : (parserOf exampleConfig noneProgram).Parse.2 = none := by decide!
  have h3 : (parserOf exampleConfig noneProgram).Parse.1.map (fun s => s.commands)
      = some [⟨CmdNop, []⟩, ⟨CmdRet, []⟩] := by
    decide!
  have h4 : (parserOf exampleConfig noneProgram).Parse.1.map (fun s => s.macroCommands)
      = some [("m", [⟨CmdNop, []⟩])] := by
    decide!
  exact ⟨_, Parse_eq_of_isSome_of_none h1 h2, get_of_map_eq_some h1 h3,
    get_of_map_eq_some h1 h4,
    (C18_no_null_command (parserOf exampleConfig noneProgram) _ none
      (Parse_eq_of_isSome_of_none h1 h2)).2.1⟩

theorem replaceExpr_labels_congr {s s1 : Script} (h : s.labels = s1.labels) :
    ∀ (e : ExpressionNode),
      replaceLabelNodesInExpression s e = replaceLabelNodesInExpression s1 e := by
  intro e
  induction e with
  | BinaryOpNode l op r ihl ihr =>
    unfold replaceLabelNodesInExpression
    rw [ihl, ihr]
  | LabelNode name =>
    unfold replaceLabelNodesInExpression
    rw [h]
  | _ => simp [replaceLabelNodesInExpression]

theorem replaceArgs_labels_congr {s s1 : Script} (h : s.labels = s1.labels) :
    ∀ (args : List ExpressionNode),
      replaceLabelNodesInArgs s args = replaceLabelNodesInArgs s1 args := by
  intro args
  induction args with
  | nil => rfl
  | cons x rest ih =>
    unfold replaceLabelNodesInArgs
    rw [replaceExpr_labels_congr h x, ih]

theorem replaceCommands_labels_congr {s s1 : Script} (h : s.labels = s1.labels) :
    ∀ (cs : List CommandNode),
      replaceLabelNodesInCommands s cs = replaceLabelNodesInCommands s1 cs := by
  intro cs
  induction cs with
  | nil => rfl
  | cons x rest ih =>
    unfold replaceLabelNodesInCommands
    rw [replaceArgs_labels_congr h x.Args, ih]

theorem replaceExpr_error_form (s : Script) :
    ∀ (e : ExpressionNode) (err : Error), (replaceLabelNodesInExpression s e).2 = some err →
      ∃ name, err = .SyntaxError ("unknown label: '" ++ name ++ "'")
        ∧ s.labels.lookup name = none := by
  intro e
  induction e with
  | BinaryOpNode l op r ihl ihr =>
    intro err h
    unfold replaceLabelNodesInExpression at h
    rcases hl1 : replaceLabelNodesInExpression s l with ⟨l1, el⟩
    rw [hl1] at h ihl
    cases el with
    | some e => exact ihl err h
    | none =>
      rcases hr1 : replaceLabelNodesInExpression s r with ⟨r1, er⟩
      rw [hr1] at h ihr
      exact ihr err h
  | LabelNode name =>
    intro err h
    unfold replaceLabelNodesInExpression at h
    cases hk : s.labels.lookup name with
    | none =>
      rw [hk] at h
      simp only [Option.some.injEq] at h
      exact ⟨name, h.symm, hk⟩
    | some pc => rw [hk] at h; cases h
  | _ => intro err h; simp [replaceLabelNodesInExpression] at h

theorem replaceArgs_error_form (s : Script) :
    ∀ (args : List ExpressionNode) (err : Error), (replaceLabelNodesInArgs s args).2 = some err →
      ∃ name, err = .SyntaxError ("unknown label: '" ++ name ++ "'")
        ∧ s.labels.lookup name = none := by
  intro args
  induction args with
  | nil => intro err h; simp [replaceLabelNodesInArgs] at h
  | cons x rest ih =>
    intro err h
    unfold replaceLabelNodesInArgs at h
    have hx := replaceExpr_error_form s x
    rcases hx1 : replaceLabelNodesInExpression s x with ⟨x1, ex⟩
    rw [hx1] at h hx
    cases ex with
    | some e => exact hx err h
    | none =>
      rcases hr1 : replaceLabelNodesInArgs s rest with ⟨rest1, er⟩
      rw [hr1] at h ih
      exact ih err h

theorem replaceCommands_error_form (s : Script) :
    ∀ (cs : List CommandNode) (err : Error), (replaceLabelNodesInCommands s cs).2 = some err →
      ∃ name, err = .SyntaxError ("unknown label: '" ++ name ++ "'")
        ∧ s.labels.lookup name = none := by
  intro cs
  induction cs with
  | nil => intro err h; simp [replaceLabelNodesInCommands] at h
  | cons x rest ih =>
    intro err h
    unfold replaceLabelNodesInCommands at h
    have hx := replaceArgs_error_form s x.Args
    rcases hx1 : replaceLabelNodesInArgs s x.Args with ⟨x1, ex⟩
    rw [hx1] at h hx
    cases ex with
    | some e => exact hx err h
    | none =>
      rcases hr1 : replaceLabelNodesInCommands s rest with ⟨rest1, er⟩
      rw [hr1] at h ih
      exact ih err h

theorem replaceLabelNodes_snd (raw : Script) :
    (replaceLabelNodes raw).2 = (replaceLabelNodesInCommands raw raw.commands).2 := by
  unfold replaceLabelNodes
  rcases hr : replaceLabelNodesInCommands raw raw.commands with ⟨cs, er⟩
  rfl

theorem replaceLabelNodes_commands (raw : Script) :
    (replaceLabelNodes raw).1.commands = (replaceLabelNodesInCommands raw raw.commands).1 := by
  unfold replaceLabelNodes
  rcases hr : replaceLabelNodesInCommands raw raw.commands with ⟨cs, er⟩
  rfl

/-- The resolver on a command whose argument is the bare reference to `name`:
an error when the label table of the Script has no entry for it, else, when the
pass succeeds, the address the table has for it. -/
theorem replaceLabelNodes_reference (raw : Script) (j a : Nat) (c : CommandNode)
    (name : String) (hj : raw.commands.get? j = some c)
    (ha : c.Args.get? a = some (.LabelNode name)) :
    (raw.labels.lookup name = none →
      ∃ n1, (replaceLabelNodes raw).2 = some (.SyntaxError ("unknown label: '" ++ n1 ++ "'"))
        ∧ raw.labels.lookup n1 = none)
    ∧ (∀ v, raw.labels.lookup name = some v → (replaceLabelNodes raw).2 = none →
        ∃ c1, (replaceLabelNodes raw).1.commands.get? j = some c1 ∧ c1.typ = c.typ
          ∧ c1.Args.get? a = some (.AddressNode v)) := by
  have hres := replaceLabelNodes_snd raw
  have hcmds := replaceLabelNodes_commands raw
  constructor
  · intro hnone
    cases herr : (replaceLabelNodesInCommands raw raw.commands).2 with
    | some err =>
      obtain ⟨n1, h1, h2⟩ := replaceCommands_error_form raw raw.commands err herr
      exact ⟨n1, by rw [hres, herr, h1], h2⟩
    | none =>
      exfalso
      obtain ⟨_, hargs⟩ := replaceCommands_get raw raw.commands herr j c hj
      obtain ⟨_, hexpr⟩ := replaceArgs_get raw c.Args hargs a _ ha
      unfold replaceLabelNodesInExpression at hexpr
      rw [hnone] at hexpr
      cases hexpr
  · intro v hv hok
    rw [hres] at hok
    obtain ⟨hget, hargs⟩ := replaceCommands_get raw raw.commands hok j c hj
    obtain ⟨hget2, _⟩ := replaceArgs_get raw c.Args hargs a _ ha
    refine ⟨⟨c.typ, (replaceLabelNodesInArgs raw c.Args).1⟩, by rw [hcmds]; exact hget, rfl, ?_⟩
    show (replaceLabelNodesInArgs raw c.Args).1.get? a = _
    rw [hget2]
    unfold replaceLabelNodesInExpression
    rw [hv]

theorem parseMacroLoop_labels :
    ∀ (n : Nat) (p p1 : Parser) (s s1 : Script), parseMacroLoop n p s = .ok (p1, s1) →
      (LabelsInRange s → LabelsInRange s1) ∧ ∀ x ∈ s.labels, x ∈ s1.labels := by
  intro n
  induction n with
  | zero => intro p p1 s s1 h; rw [parseMacroLoop] at h; cases h
  | succ n ih =>
    intro p p1 s s1 h
    rw [parseMacroLoop] at h
    cases hnode : parseNextNode n p s .EndMacroToken with
    | error e => rw [hnode] at h; cases h
    | ok r =>
      obtain ⟨b, q, s2⟩ := r
      rw [hnode] at h
      simp only [] at h
      have hrange := parseNextNode_labelsInRange (by decide) hnode
      obtain ⟨_, ⟨hdecl, hno⟩, _⟩ := parseNextNode_post nodeClosed_true (by decide) hnode
      have hmono : ∀ x ∈ s.labels, x ∈ s2.labels := by
        intro x hx
        cases hd : isLabelDeclaration p.pending with
        | true =>
          obtain ⟨t1, t2, _, hl, _⟩ := hdecl hd
          rw [hl]
          exact List.mem_cons_of_mem _ hx
        | false => rw [hno hd]; exact hx
      cases b with
      | true =>
        simp only [if_true] at h
        obtain ⟨h1, h2⟩ := ih q p1 s2 s1 h
        exact ⟨fun hs => h1 (hrange hs), fun x hx => h2 x (hmono x hx)⟩
      | false =>
        simp only [Bool.false_eq_true, if_false, Except.ok.injEq, Prod.mk.injEq] at h
        obtain ⟨_, rfl⟩ := h
        exact ⟨hrange, hmono⟩

/-- A label declaration at the head of a pass of the loop of `parseMacro`: it is
recorded in the sub-Script at the command count the sub-Script has then, and
is still in its label table when the loop ends. -/
theorem parseMacroLoop_declaration (n : Nat) (p p1 : Parser) (sub sub1 : Script)
    (h : parseMacroLoop n p sub = .ok (p1, sub1))
    (hd : isLabelDeclaration p.pending = true) :
    ∃ t1 t2 rest, p.pending = t1 :: t2 :: rest ∧ (t1.Value, sub.PC) ∈ sub1.labels := by
  cases n with
  | zero => rw [parseMacroLoop] at h; cases h
  | succ n =>
    rw [parseMacroLoop] at h
    cases hnode : parseNextNode n p sub .EndMacroToken with
    | error e => rw [hnode] at h; cases h
    | ok r =>
      obtain ⟨b, q, s2⟩ := r
      rw [hnode] at h
      simp only [] at h
      obtain ⟨_, ⟨hdecl, _⟩, _⟩ := parseNextNode_post nodeClosed_true (by decide) hnode
      obtain ⟨t1, t2, hp, hl, _⟩ := hdecl hd
      have hmem : (t1.Value, sub.PC) ∈ s2.labels := by
        rw [hl]
        exact List.mem_cons_self _ _
      refine ⟨t1, t2, q.pending, hp, ?_⟩
      cases b with
      | true =>
        simp only [if_true] at h
        exact (parseMacroLoop_labels n q p1 s2 sub1 h).2 _ hmem
      | false =>
        simp only [Bool.false_eq_true, if_false, Except.ok.injEq, Prod.mk.injEq] at h
        obtain ⟨_, rfl⟩ := h
        exact hmem

theorem parseMacro_sub {n : Nat} {p p1 : Parser} {s s1 : Script}
    (h : parseMacro n p s = .ok (p1, s1)) :
    s1.labels = s.labels ∧ s1.commands = s.commands
      ∧ ∃ k q q1 name sub, parseMacroLoop k q newScript = .ok (q1, sub)
          ∧ s1.macros = (name, sub) :: s.macros ∧ LabelsInRange sub := by
  cases n with
  | zero => rw [parseMacro] at h; cases h
  | succ n =>
    rw [parseMacro] at h
    cases hadv : p.advance with
    | error e => rw [hadv] at h; cases h
    | ok r =>
      obtain ⟨tok, q⟩ := r
      rw [hadv] at h
      simp only [] at h
      cases hadv2 : q.advance with
      | error e => rw [hadv2] at h; cases h
      | ok r2 =>
        obtain ⟨ident, q2⟩ := r2
        rw [hadv2] at h
        simp only [] at h
        cases hloop : parseMacroLoop n q2 newScript with
        | error e => rw [hloop] at h; cases h
        | ok r3 =>
          obtain ⟨q3, sub⟩ := r3
          rw [hloop] at h
          simp only [Except.ok.injEq, Prod.mk.injEq] at h
          obtain ⟨rfl, rfl⟩ := h
          refine ⟨rfl, rfl, n, q2, q3, ident.Value, sub, hloop, rfl, ?_⟩
          exact (parseMacroLoop_labels n q2 q3 newScript sub hloop).1
            (by intro nm v hm; cases hm)

/-- C20: (1) a label declaration read by the loop of `parseMacro` is recorded
in the label table of the macro sub-Script, at the command count of the
sub-Script at that point, and stays there; (2) `parseMacro` builds the
sub-Script from the empty Script, leaves the label table and the commands of
the enclosing Script as they were, and every label of the sub-Script lies
within the commands of the macro; (3) a line consisting of the macro name
appends the commands of the macro as they are; (4) the resolver that `Parse`
runs on the outermost Script reads the label table of that Script and nothing
of its macros; (5) so a bare reference to a name the outermost Script does not
declare makes `Parse` return an unknown-label SyntaxError, and one to a name
it declares becomes, when the pass succeeds, the address that table has. -/
theorem C20_macro_local_labels :
    (∀ (n : Nat) (p p1 : Parser) (sub sub1 : Script),
      parseMacroLoop n p sub = .ok (p1, sub1) → isLabelDeclaration p.pending = true →
      ∃ t1 t2 rest, p.pending = t1 :: t2 :: rest ∧ (t1.Value, sub.PC) ∈ sub1.labels)
    ∧ (∀ (n : Nat) (p p1 : Parser) (s s1 : Script), parseMacro n p s = .ok (p1, s1) →
        s1.labels = s.labels ∧ s1.commands = s.commands
          ∧ ∃ k q q1 name sub, parseMacroLoop k q newScript = .ok (q1, sub)
              ∧ s1.macros = (name, sub) :: s.macros ∧ LabelsInRange sub)
    ∧ (∀ (n : Nat) (p : Parser) (s m : Script) (name : String) (nl : Token)
        (rest : List Token),
        p.pending = ⟨.IdentToken, name⟩ :: nl :: rest →
        (nl.typ = .NewlineToken ∨ nl.typ = .EOF) →
        p.getCommandType name = none → s.macros.lookup name = some m →
        ∃ p1, parseNextNode (n + 3) p s .EOF
            = .ok (true, p1, { s with commands := s.commands ++ m.commands })
          ∧ p1.pending = rest)
    ∧ (∀ (p p1 : Parser) (raw : Script), parseLoop p.fuel p newScript = .ok (p1, raw) →
        p.Parse = (some (replaceLabelNodes raw).1, (replaceLabelNodes raw).2))
    ∧ (∀ (raw : Script) (ms : List (String × Script)),
        (replaceLabelNodes { raw with macros := ms }).1.commands
            = (replaceLabelNodes raw).1.commands
          ∧ (replaceLabelNodes { raw with macros := ms }).2 = (replaceLabelNodes raw).2)
    ∧ (∀ (raw : Script) (j a : Nat) (c : CommandNode) (name : String),
        raw.commands.get? j = some c → c.Args.get? a = some (.LabelNode name) →
        (raw.labels.lookup name = none →
          ∃ n1, (replaceLabelNodes raw).2
              = some (.SyntaxError ("unknown label: '" ++ n1 ++ "'"))
            ∧ raw.labels.lookup n1 = none)
        ∧ (∀ v, raw.labels.lookup name = some v → (replaceLabelNodes raw).2 = none →
            ∃ c1, (replaceLabelNodes raw).1.commands.get? j = some c1 ∧ c1.typ = c.typ
              ∧ c1.Args.get? a = some (.AddressNode v))) := by
  refine ⟨parseMacroLoop_declaration, fun n p p1 s s1 h => parseMacro_sub h, ?_, ?_, ?_,
    replaceLabelNodes_reference⟩
  · intro n p s m name nl rest hp hnl hcmd hm
    exact parseNextNode_macro_line n p s m name nl rest .EOF hp hnl (by decide) hcmd hm
  · intro p p1 raw h
    obtain ⟨h2, h1⟩ := ParseWith_snd_of_loop h
    exact Prod.ext h1 h2
  · intro raw ms
    have hc : replaceLabelNodesInCommands { raw with macros := ms } raw.commands
        = replaceLabelNodesInCommands raw raw.commands :=
      replaceCommands_labels_congr
        (show ({ raw with macros := ms } : Script).labels = raw.labels from rfl) raw.commands
    rw [replaceLabelNodes_commands, replaceLabelNodes_commands, replaceLabelNodes_snd,
      replaceLabelNodes_snd]
    exact ⟨congrArg Prod.fst hc, congrArg Prod.snd hc⟩

theorem C20_witness :
    (∃ c1, (replaceLabelNodes splicedRaw).1.commands.get? 4 = some c1 ∧ c1.typ = CmdGoto
        ∧ c1.Args.get? 0 = some (.AddressNode 0))
    ∧ (parserOf exampleConfig outerLabelProgram).Parse.2 = none
    ∧ (parserOf exampleConfig outerLabelProgram).Parse.1.map (fun s => s.commands)
        = some (splicedRaw.commands.dropLast ++ [⟨CmdGoto, [.AddressNode 0]⟩])
    ∧ (parserOf exampleConfig outerLabelProgram).Parse.1.map (fun s => s.labels)
        = some [("L", 0)]
    ∧ (parserOf exampleConfig outerLabelProgram).Parse.1.map (fun s => s.macroLabels)
        = some [("m", [("L", 1)])]
    ∧ (parserOf exampleConfig macroLabelProgram).Parse.2
        = some (.SyntaxError "unknown label: 'L'") :=
  ⟨(C20_macro_local_labels.2.2.2.2.2 splicedRaw 4 0 ⟨CmdGoto, [.LabelNode "L"]⟩ "L"
      (by decide) (by decide)).2 0 (by decide) (by decide),
    by decide!, by decide!, by decide!, by decide!, by decide!⟩

/-! ## Theorems: operands -/

/-- A unary operator followed by a newline: `parsePrimary` reads both and
returns the operator node over the nil node. -/
theorem parsePrimary_unary_newline (n : Nat) (p : Parser) (script : Script) (opTok nl : Token)
    (rest : List Token) (hop : opTok.typ = .OperatorToken)
    (hrune : opRuneFromToken opTok = OpAdd ∨ opRuneFromToken opTok = OpSub)
    (hnl : nl.typ = .NewlineToken) (hp : p.pending = opTok :: nl :: rest) :
    ∃ p1, parsePrimary (n + 2) p script
        = .ok (.UnaryOpNode (opRuneFromToken opTok) .nil, p1) ∧ p1.pending = rest := by
  obtain ⟨q, hq, hqp, _⟩ := advance_of_cons hp
  obtain ⟨q1, hq1, hq1p, _⟩ := advance_of_cons hqp
  refine ⟨q1, ?_, hq1p⟩
  have hinner : parsePrimary (n + 1) q script = .ok (.nil, q1) := by
    simp only [parsePrimary, hq1, hnl]
  rw [parsePrimary]
  simp only [hq, hop, hrune, if_true, hinner]

/-- C21: an operator followed by a newline is accepted, and the node built has
the nil node as its operand.  `parsePrimary` on a unary `+` or `-` followed by
a newline returns the unary node over nil; `Parse` succeeds on the line
`set v, 1 +` followed by an empty line, on `set v, -` followed by an empty
line and on `const X 1 *`, and the argument, or the stored constant, is a
binary or unary node whose operand is nil; on `set v, 1 +` at the end of the
text `Parse` fails, with the error of the empty buffer and no syntax error. -/
theorem C21_operator_before_newline :
    (∀ (n : Nat) (p : Parser) (script : Script) (opTok nl : Token) (rest : List Token),
      opTok.typ = .OperatorToken →
      (opRuneFromToken opTok = OpAdd ∨ opRuneFromToken opTok = OpSub) →
      nl.typ = .NewlineToken → p.pending = opTok :: nl :: rest →
      ∃ p1, parsePrimary (n + 2) p script
          = .ok (.UnaryOpNode (opRuneFromToken opTok) .nil, p1) ∧ p1.pending = rest)
    ∧ ((parserOf exampleConfig binaryBeforeNewline).Parse.2 = none
      ∧ (parserOf exampleConfig binaryBeforeNewline).Parse.1.map (fun s => s.commands)
          = some [⟨CmdSet, [.VariableNode 1, .BinaryOpNode (.IntegerNode 1) OpAdd .nil]⟩]
      ∧ (ExpressionNode.BinaryOpNode (.IntegerNode 1) OpAdd .nil).complete = false)
    ∧ ((parserOf exampleConfig unaryBeforeNewline).Parse.2 = none
      ∧ (parserOf exampleConfig unaryBeforeNewline).Parse.1.map (fun s => s.commands)
          = some [⟨CmdSet, [.VariableNode 1, .UnaryOpNode OpSub .nil]⟩]
      ∧ (ExpressionNode.UnaryOpNode OpSub .nil).complete = false)
    ∧ ((parserOf exampleConfig constBeforeNewline).Parse.2 = none
      ∧ (parserOf exampleConfig constBeforeNewline).Parse.1.map (fun s => s.constants)
          = some [("X", .BinaryOpNode (.IntegerNode 1) OpMul .nil)]
      ∧ (ExpressionNode.BinaryOpNode (.IntegerNode 1) OpMul .nil).complete = false)
    ∧ ((parserOf exampleConfig binaryBeforeEnd).Parse.2 = some .BufferError
      ∧ (parserOf exampleConfig binaryBeforeEnd).Parse.1.isNone = true) := by
  refine ⟨parsePrimary_unary_newline, ⟨by decide!, by decide!, by decide⟩,
    ⟨by decide!, by decide!, by decide⟩, ⟨by decide!, by decide!, by decide⟩,
    ⟨by decide!, by decide!⟩⟩

theorem C21_witness :
    ∃ p1, parsePrimary 2 (parserOf exampleConfig [⟨.OperatorToken, "-"⟩, ⟨.NewlineToken, "\n"⟩])
        newScript = .ok (.UnaryOpNode (opRuneFromToken ⟨.OperatorToken, "-"⟩) .nil, p1)
      ∧ p1.pending = [⟨.EOF, ""⟩] :=
  C21_operator_before_newline.1 0
    (parserOf exampleConfig [⟨.OperatorToken, "-"⟩, ⟨.NewlineToken, "\n"⟩]) newScript
    ⟨.OperatorToken, "-"⟩ ⟨.NewlineToken, "\n"⟩ [⟨.EOF, ""⟩] rfl (by decide) rfl (by decide!)

/-! ## Theorems: the built-in handlers and the loop -/

theorem wrapInt_inIntRange (x : Int) : inIntRange (wrapInt x) := by
  unfold inIntRange wrapInt
  have h1 := Int.emod_nonneg (x + 2 ^ 63) (by decide : (2 : Int) ^ 64 ≠ 0)
  have h2 := Int.emod_lt_of_pos (x + 2 ^ 63) (by decide : (0 : Int) < 2 ^ 64)
  constructor <;> omega

theorem fetch_ok {cs : List CommandNode} {pc : Int} {cmd : CommandNode}
    (h : fetch cs pc = .ok cmd) : 0 ≤ pc ∧ pc < (cs.length : Int) ∧ cmd ∈ cs := by
  unfold fetch at h
  by_cases hneg : pc < 0
  · rw [if_pos hneg] at h; cases h
  · rw [if_neg hneg] at h
    cases hg : cs.get? pc.toNat with
    | none => rw [hg] at h; cases h
    | some c =>
      rw [hg] at h
      simp only [Except.ok.injEq] at h
      subst h
      obtain ⟨hlt, hc⟩ := List.get?_eq_some.mp hg
      refine ⟨by omega, by omega, ?_⟩
      rw [← hc]
      exact List.get_mem _ _ _

theorem argInt_of_map {args : List ExpressionNode} {l : List (Option Int)} {v : Int}
    (h : args.map argInt = l) (hv : some v ∈ l) : ∃ a ∈ args, argInt a = some v := by
  rw [← h] at hv
  obtain ⟨a, ha, hav⟩ := List.mem_map.mp hv
  exact ⟨a, ha, hav⟩

/-- The built-in handlers satisfy the hypothesis of C10 on every script whose
argument payloads are Go `int`s. -/
theorem baseRuntime_handlers {σ : Type} (E : Environment σ) (script : Script)
    (hlen : (script.commands.length : Int) < 2 ^ 63) (hargs : ArgsInIntRange script)
    (f : RuntimeFrame σ) (cmd : CommandNode) (f1 : RuntimeFrame σ) (t : Int) (j : Bool)
    (hgo : GoStack f) (hf : fetch (baseRuntime E script).script.Commands f.pc = .ok cmd)
    (hx : (baseRuntime E script).handlers cmd.typ f cmd.Args = .ok (f1, t, j)) :
    inIntRange t ∧ f1.pc = f.pc ∧ GoStack f1 := by
  obtain ⟨hpc0, hpc1, hmem⟩ := fetch_ok hf
  have hpcr : inIntRange f.pc := by
    have : ((baseRuntime E script).script.Commands.length : Int) = script.commands.length := rfl
    unfold inIntRange
    constructor <;> omega
  have hend : inIntRange script.EndOfScript := by
    unfold inIntRange Script.EndOfScript
    constructor <;> omega
  have hzero : inIntRange 0 := by decide
  have harg : ∀ (l : List (Option Int)) (v : Int), cmd.Args.map argInt = l → some v ∈ l →
      inIntRange v := by
    intro l v hl hv
    obtain ⟨a, ha, hav⟩ := argInt_of_map hl hv
    exact hargs cmd hmem a ha v hav
  simp only [baseRuntime, baseHandlers] at hx
  split at hx
  · split_ifs at hx
    · simp only [RuntimeFrame.CmdNop, Except.ok.injEq, Prod.mk.injEq] at hx
      obtain ⟨rfl, rfl, rfl⟩ := hx
      exact ⟨hzero, rfl, hgo⟩
    · unfold RuntimeFrame.CmdRet RuntimeFrame.popPC at hx
      by_cases hsp : f.sp = 0
      · rw [if_pos hsp] at hx
        simp only [Bool.false_eq_true, if_false, Except.ok.injEq, Prod.mk.injEq] at hx
        obtain ⟨rfl, rfl, rfl⟩ := hx
        exact ⟨hend, rfl, hgo⟩
      · rw [if_neg hsp] at hx
        simp only [arrayGet] at hx
        split_ifs at hx with hr
        simp only [if_true, Except.ok.injEq, Prod.mk.injEq] at hx
        obtain ⟨rfl, rfl, rfl⟩ := hx
        refine ⟨?_, rfl, wrapInt_inIntRange _, hgo.2⟩
        have hlt : (wrapInt (f.sp - 1)).toNat < f.stack.length := by omega
        rw [List.getD_eq_getElem _ _ hlt]
        exact hgo.2 _ (List.getElem_mem _)
  · next a heq =>
    split_ifs at hx
    · simp only [RuntimeFrame.CmdGoto, Except.ok.injEq, Prod.mk.injEq] at hx
      obtain ⟨rfl, rfl, rfl⟩ := hx
      exact ⟨harg _ _ heq (by simp), rfl, hgo⟩
    · unfold RuntimeFrame.CmdCall at hx
      by_cases ha : a = 0
      · rw [if_pos ha] at hx
        simp only [Except.ok.injEq, Prod.mk.injEq] at hx
        obtain ⟨rfl, rfl, rfl⟩ := hx
        exact ⟨hend, rfl, hgo⟩
      · rw [if_neg ha] at hx
        unfold RuntimeFrame.pushPC arraySet at hx
        split_ifs at hx with hr
        simp only [Except.ok.injEq, Prod.mk.injEq] at hx
        obtain ⟨rfl, rfl, rfl⟩ := hx
        refine ⟨harg _ _ heq (by simp), rfl, wrapInt_inIntRange _, ?_⟩
        intro x hx
        rcases List.mem_or_eq_of_mem_set hx with h1 | h1
        · exact hgo.2 x h1
        · rw [h1]; exact hpcr
  · next a b heq =>
    split_ifs at hx <;>
    · simp only [Except.ok.injEq, Prod.mk.injEq] at hx
      obtain ⟨rfl, rfl, rfl⟩ := hx
      exact ⟨hzero, rfl, hgo⟩
  · next a b c heq =>
    split_ifs at hx <;>
    · simp only [RuntimeFrame.CmdJumpIf, RuntimeFrame.CmdJumpIfFlag,
        RuntimeFrame.CmdJumpIfNotFlag, Except.ok.injEq, Prod.mk.injEq] at hx
      obtain ⟨rfl, rfl, rfl⟩ := hx
      exact ⟨harg _ _ heq (by simp), rfl, hgo⟩
  · cases hx

theorem C10_witness :
    (baseRuntime unitEnvironment jumpScript).Start 10 0 ()
        = specRun (baseRuntime unitEnvironment jumpScript) 10
            ((baseRuntime unitEnvironment jumpScript).newFrame 0 ())
    ∧ (baseRuntime unitEnvironment jumpScript).Start 10 0 ()
        = some (.ok { (baseRuntime unitEnvironment jumpScript).newFrame 0 () with pc := 3 })
    ∧ (baseRuntime unitEnvironment jumpScript).loop 2
          { (baseRuntime unitEnvironment jumpScript).newFrame 0 () with pc := 2 }
        = some (.ok { (baseRuntime unitEnvironment jumpScript).newFrame 0 () with pc := 3 }) := by
  have hlen : ((baseRuntime unitEnvironment jumpScript).script.Commands.length : Int) < 2 ^ 63 := by
    decide
  have hargs : ArgsInIntRange jumpScript := by
    intro cmd hc a ha v hv
    simp only [jumpScript, List.mem_cons, List.mem_singleton, List.not_mem_nil, or_false] at hc
    rcases hc with rfl | rfl | rfl
    · simp only [List.mem_singleton] at ha
      subst ha
      simp only [argInt, Option.some.injEq] at hv
      subst hv
      decide
    · cases ha
    · simp only [List.mem_singleton] at ha
      subst ha
      simp only [argInt, Option.some.injEq] at hv
      subst hv
      decide
  have hC := C10_Start_is_spec_iteration (baseRuntime unitEnvironment jumpScript) hlen
    (fun f cmd f1 t j hgo hf hx =>
      baseRuntime_handlers unitEnvironment jumpScript hlen hargs f cmd f1 t j hgo hf hx)
  exact ⟨hC.1 10 0 (), rfl,
    hC.2.2 0 { (baseRuntime unitEnvironment jumpScript).newFrame 0 () with pc := 2 }
      { (baseRuntime unitEnvironment jumpScript).newFrame 0 () with pc := 2 }
      ⟨CmdGoto, [.AddressNode 3]⟩ rfl rfl (by decide)⟩

/-! ## Theorems: lines that name a macro -/

/-- C8 (counterexample): the line `m nop`, which invokes the macro `m` of two
commands by name, appends three commands, the two of the macro and a `nop`;
and the line `nop`, where `nop` is also the name of a declared macro of two
commands, appends the one command `nop` and none of the macro. -/
theorem C8_line_with_further_tokens :
    ((parserOf exampleConfig macroThenNop).Parse.2 = none
      ∧ (parserOf exampleConfig macroThenNop).Parse.1.map (fun s => s.macroCommands)
          = some [("m", [⟨CmdRet, []⟩, ⟨CmdRet, []⟩])]
      ∧ (parserOf exampleConfig macroThenNop).Parse.1.map (fun s => s.commands)
          = some [⟨CmdRet, []⟩, ⟨CmdRet, []⟩, ⟨CmdNop, []⟩])
    ∧ ((parserOf exampleConfig macroNamedNop).Parse.2 = none
      ∧ (parserOf exampleConfig macroNamedNop).Parse.1.map (fun s => s.macroCommands)
          = some [("nop", [⟨CmdRet, []⟩, ⟨CmdRet, []⟩])]
      ∧ (parserOf exampleConfig macroNamedNop).Parse.1.map (fun s => s.commands)
          = some [⟨CmdNop, []⟩])
    ∧ (parseNextNode 10
          (parserOf exampleConfig [⟨.IdentToken, "m"⟩, ⟨.IdentToken, "nop"⟩, ⟨.NewlineToken, "\n"⟩])
          macroScript .EOF).toOption.map (fun r => r.2.2.commands)
        = some (macroScript.commands ++ macroBody.commands ++ [⟨CmdNop, []⟩]) := by
  refine ⟨⟨by decide!, by decide!, by decide!⟩, ⟨by decide!, by decide!, by decide!⟩, by decide!⟩

end FxScript
